import Mathlib

/-!
A shallow embedding of the hivemind Hive engine core (board state, Zobrist
hashing, transposition table, principal-variation reconstruction, static
evaluator reserve term, and the pin-finding DFS), together with theorems
settling the specification claims against this embedding.

Machine integers are modelled as `Nat` with explicit masking where the Rust
code wraps or masks (`u128` zobrist keys, `u64` stack words, `u16` hexes).
Fallible Rust functions returning `Result` are modelled with `Except`;
panics (`unwrap` on `None`, `unreachable!`) are modelled with `Option` where
a claim depends on them.  Error messages are modelled by their error kinds
(the `Kind` of the outermost error plus the kinds of its cause chain); the
textual payload of messages is irrelevant to every claim.
-/

namespace Hivemind

/-! ## Rust `DefaultHasher` (SipHash-1-3 with zero keys)

The zobrist table `BITSTRINGS` is generated lazily by feeding consecutive
`u64` indices into one accumulating `std::hash::DefaultHasher` and calling
`finish` after each write (`src/hive/board/zobrist.rs`).  We reproduce that
generator on a little-endian host: `write_u64(x)` pushes the eight
little-endian bytes of `x`, which is one aligned SipHash block `x`.
No theorem in this file depends on a concrete bitstring value; only the
structure (a fixed function `Nat → Nat` with values below `2 ^ 64`) matters.
-/

def wrap64 (n : Nat) : Nat := n % 2 ^ 64

def rotl64 (x n : Nat) : Nat := wrap64 ((x <<< n) ||| (x >>> (64 - n)))

structure SipState where
  v0 : Nat
  v1 : Nat
  v2 : Nat
  v3 : Nat
  /-- number of bytes written so far -/
  length : Nat
deriving Repr, DecidableEq

/-- One SipHash round. -/
def sipRound (s : SipState) : SipState :=
  let v0 := wrap64 (s.v0 + s.v1)
  let v1 := rotl64 s.v1 13
  let v1 := v1 ^^^ v0
  let v0 := rotl64 v0 32
  let v2 := wrap64 (s.v2 + s.v3)
  let v3 := rotl64 s.v3 16
  let v3 := v3 ^^^ v2
  let v0 := wrap64 (v0 + v3)
  let v3 := rotl64 v3 21
  let v3 := v3 ^^^ v0
  let v2 := wrap64 (v2 + v1)
  let v1 := rotl64 v1 17
  let v1 := v1 ^^^ v2
  let v2 := rotl64 v2 32
  { s with v0 := v0, v1 := v1, v2 := v2, v3 := v3 }

/-- `SipHasher13::new_with_keys(0, 0)`, the state of a fresh `DefaultHasher`. -/
def sipInit : SipState :=
  { v0 := 0x736f6d6570736575
    v1 := 0x646f72616e646f6d
    v2 := 0x6c7967656e657261
    v3 := 0x7465646279746573
    length := 0 }

/-- `write_u64`: one aligned 8-byte block (little-endian host). -/
def sipWriteU64 (s : SipState) (x : Nat) : SipState :=
  let m := wrap64 x
  let s1 := sipRound { s with v3 := s.v3 ^^^ m }
  { s1 with v0 := s1.v0 ^^^ m, length := s.length + 8 }

/-- `finish` of SipHash-1-3 as implemented by the Rust standard library. -/
def sipFinish (s : SipState) : Nat :=
  let b := (s.length % 256) <<< 56
  let s1 := sipRound { s with v3 := s.v3 ^^^ b }
  let s2 := { s1 with v0 := s1.v0 ^^^ b, v2 := s1.v2 ^^^ 0xee }
  let s3 := sipRound (sipRound (sipRound s2))
  s3.v0 ^^^ s3.v1 ^^^ s3.v2 ^^^ s3.v3

/-- The hasher state after writing the `u64` values `0, 1, …, i`. -/
def sipStateAt : Nat → SipState
  | 0 => sipWriteU64 sipInit 0
  | i + 1 => sipWriteU64 (sipStateAt i) (i + 1)

/-- `BITSTRINGS[i]`: the hash emitted after the `i`-th accumulating write. -/
def bitstrings (i : Nat) : Nat := sipFinish (sipStateAt i)

theorem wrap64_lt (n : Nat) : wrap64 n < 2 ^ 64 := Nat.mod_lt _ (by norm_num)

theorem bitstrings_lt (i : Nat) : bitstrings i < 2 ^ 64 := by
  unfold bitstrings sipFinish
  have h3 : ∀ s : SipState, (sipRound s).v0 < 2 ^ 64 ∧ (sipRound s).v1 < 2 ^ 64 ∧
      (sipRound s).v2 < 2 ^ 64 ∧ (sipRound s).v3 < 2 ^ 64 := by
    intro s
    refine ⟨?_, ?_, ?_, ?_⟩ <;> simp [sipRound, rotl64] <;>
      first
        | exact Nat.xor_lt_two_pow (wrap64_lt _) (wrap64_lt _)
        | exact wrap64_lt _
  simp only []
  set s2 : SipState := _ with hs2
  have := h3 (sipRound (sipRound s2))
  exact Nat.xor_lt_two_pow (Nat.xor_lt_two_pow (Nat.xor_lt_two_pow this.1 this.2.1) this.2.2.1) this.2.2.2

/-! ## Players, bugs, pieces (`src/hive/piece`) -/

inductive Player where
  | White
  | Black
deriving Repr, DecidableEq

/-- `Player as u8` (its `repr(u8)` discriminant). -/
def Player.val : Player → Nat
  | .White => 0
  | .Black => 1

/-- `Player::flip`. -/
def Player.flip : Player → Player
  | .White => .Black
  | .Black => .White

/-- `Player::new(i)` (clamped to `0..=1`). -/
def Player.new (i : Nat) : Player :=
  if min i 1 = 0 then .White else .Black

inductive Bug where
  | Ant
  | Beetle
  | Grasshopper
  | Ladybug
  | Mosquito
  | Pillbug
  | Queen
  | Spider
deriving Repr, DecidableEq

/-- `Bug as u8` (its `repr(u8)` discriminant). -/
def Bug.val : Bug → Nat
  | .Ant => 0
  | .Beetle => 1
  | .Grasshopper => 2
  | .Ladybug => 3
  | .Mosquito => 4
  | .Pillbug => 5
  | .Queen => 6
  | .Spider => 7

/-- `Bug::offset`. -/
def Bug.offset : Bug → Nat
  | .Ant => 0
  | .Beetle => 3
  | .Grasshopper => 5
  | .Ladybug => 8
  | .Mosquito => 9
  | .Pillbug => 10
  | .Queen => 11
  | .Spider => 12

/-- `Bug::all`, in offset order. -/
def Bug.all : List Bug :=
  [.Ant, .Beetle, .Grasshopper, .Ladybug, .Mosquito, .Pillbug, .Queen, .Spider]

namespace piece.consts
def PER_PLAYER : Nat := 14
def COUNT : Nat := 2 * PER_PLAYER
def HEIGHT_RANGE : Nat := 8
end piece.consts

structure Piece where
  player : Player
  kind : Bug
  num : Nat
deriving Repr, DecidableEq

/-- `Piece::index` in player-kind-num order. -/
def Piece.index (p : Piece) : Nat :=
  piece.consts.PER_PLAYER * p.player.val + p.kind.offset + (p.num - 1)

/-! ## Hexes and directions (`src/hive/hex`) -/

/-- `Hex` is a `u16` lattice point; every hex produced by the engine is
already masked below `SIZE`. -/
abbrev Hex := Nat

namespace hex.consts
def FACT : Nat := 5
def ROWS : Nat := 2 ^ FACT
def SIZE : Nat := ROWS * ROWS
def MASK : Nat := SIZE - 1
def ROOT : Nat := ROWS / 2 * (ROWS + 1)
end hex.consts

inductive Direction where
  | East
  | Southeast
  | Southwest
  | West
  | Northwest
  | Northeast
deriving Repr, DecidableEq

/-- `Direction as u16` (its `repr(u16)` discriminant, wrapping-negated and
masked exactly as in the source). -/
def Direction.val : Direction → Nat
  | .East => 1
  | .Southeast => hex.consts.ROWS + 1
  | .Southwest => hex.consts.ROWS
  | .West => hex.consts.MASK &&& (2 ^ 16 - 1)
  | .Northwest => hex.consts.MASK &&& (2 ^ 16 - (hex.consts.ROWS + 1))
  | .Northeast => hex.consts.MASK &&& (2 ^ 16 - hex.consts.ROWS)

/-- `Direction::all`, in clockwise order. -/
def Direction.all : List Direction :=
  [.East, .Southeast, .Southwest, .West, .Northwest, .Northeast]

/-- `Direction::clockwise`. -/
def Direction.clockwise : Direction → Direction
  | .East => .Southeast
  | .Southeast => .Southwest
  | .Southwest => .West
  | .West => .Northwest
  | .Northwest => .Northeast
  | .Northeast => .East

/-- `Direction::counterclockwise`. -/
def Direction.counterclockwise : Direction → Direction
  | .East => .Northeast
  | .Northeast => .Northwest
  | .Northwest => .West
  | .West => .Southwest
  | .Southwest => .Southeast
  | .Southeast => .East

/-- `Hex + Direction`: `MASK & self.wrapping_add(rhs as Hex)`. -/
def hexAdd (h : Hex) (d : Direction) : Hex :=
  ((h + d.val) % 2 ^ 16) &&& hex.consts.MASK

/-- `Direction::to`. -/
def Direction.toDir (src dst : Hex) : Option Direction :=
  Direction.all.find? (fun d => hexAdd src d == dst)

namespace hex

/-- `hex::neighbours`, the six neighbours of a hex in clockwise order. -/
def neighbours (h : Hex) : List Hex :=
  Direction.all.map (hexAdd h)

/-- `hex::common_neighbours`. -/
def common_neighbours (a b : Hex) : Option (Hex × Hex) :=
  (Direction.toDir a b).map (fun d => (hexAdd a d.clockwise, hexAdd a d.counterclockwise))

end hex

/-! ## Errors (`src/error.rs`)

The textual message of a Rust `Error` is irrelevant to every claim; we keep
its `kind` and, in place of the concatenated message, the list of kinds of
the chained causes (`Error::chain(base)` produces an error with the *base's*
kind whose message is the base message followed by the inner error). -/

inductive Kind where
  | ConstantContact
  | FreedomToMove
  | GameNotStarted
  | ImmuneToPillbug
  | InternalError
  | InvalidMove
  | InvalidOption
  | InvalidState
  | InvalidTime
  | IoError
  | LoggerError
  | LogicError
  | MismatchError
  | OneHivePrinciple
  | ParseError
  | PleaseOpenAGithubIssue
  | TooManyUndos
  | UnknownPiece
  | UnrecognizedCommand
deriving Repr, DecidableEq

structure Error where
  kind : Kind
  /-- kinds mentioned in the chained message, outermost first -/
  trail : List Kind
deriving Repr, DecidableEq

/-- `Error::new(kind, msg)`. -/
def Error.new (kind : Kind) : Error := { kind := kind, trail := [] }

/-- `err.chain(base)`: the result has the base's kind; the message chains the
base's message and then `err`'s own rendering (which names `err.kind`). -/
def Error.chain (err base : Error) : Error :=
  { kind := base.kind, trail := base.trail ++ err.kind :: err.trail }

abbrev Result (α : Type) := Except Error α

/-! ## Tokens and stacks (`src/hive/board/token.rs`) -/

/-- A `Token` is a piece packed into a byte:
bits 0-1 `num`, bits 2-4 `kind`, bit 5 `player`. -/
abbrev Token := Nat

/-- `Token::from(Piece)`. -/
def Token.ofPiece (p : Piece) : Token :=
  (p.player.val <<< 5) ||| (p.kind.val <<< 2) ||| p.num

/-- inverse of `Bug as u8`, used by `Token::kind`'s 3-bit transmute. -/
def Bug.ofVal (n : Nat) : Bug :=
  match n with
  | 0 => .Ant
  | 1 => .Beetle
  | 2 => .Grasshopper
  | 3 => .Ladybug
  | 4 => .Mosquito
  | 5 => .Pillbug
  | 6 => .Queen
  | _ => .Spider

/-- `Token::number`. -/
def Token.number (t : Token) : Nat := t &&& 0x3

/-- `Token::kind`. -/
def Token.kind (t : Token) : Bug := Bug.ofVal ((t >>> 2) &&& 0x7)

/-- `Token::player`. -/
def Token.player (t : Token) : Player := Player.new ((t >>> 5) &&& 0x1)

/-- `Token::valid`. -/
def Token.valid (t : Token) : Bool := 1 ≤ t.number && t.number ≤ 3

/-- `Option::<Piece>::from(Token)`. -/
def Token.toPiece (t : Token) : Option Piece :=
  if t.valid then some { player := t.player, kind := t.kind, num := t.number }
  else none

/-- A `Stack` is a `u64` word: byte 0 is the height, bytes `1..=h` are the
tokens from bottom to top. -/
abbrev Stack := Nat

namespace Stack

/-- `Stack::height`. -/
def height (s : Stack) : Nat := s &&& 0xFF

/-- private `Stack::_at`. -/
def at_ (s : Stack) (h : Nat) : Nat := (s >>> (8 * h)) &&& 0xFF

/-- private `Stack::_height` (clamped to `0..=7`). -/
def setHeight (s : Stack) (h : Nat) : Stack :=
  (s &&& ((2 ^ 64 - 1) ^^^ 0xFF)) ||| (min h 7 &&& 0xFF)

/-- private `Stack::_set` (height clamped to `1..=7`). -/
def set_ (s : Stack) (h : Nat) (t : Token) : Stack :=
  let w := 8 * max 1 (min h 7)
  (s &&& rotl64 ((2 ^ 64 - 1) ^^^ 0xFF) w) ||| ((t <<< w) % 2 ^ 64)

/-- `Stack::push` (no-op on a full stack). -/
def push (s : Stack) (t : Token) : Stack :=
  let h := height s
  if h = 7 then s else set_ (setHeight s (h + 1)) (h + 1) t

/-- private `Stack::_pop`. -/
def pop (s : Stack) : Stack :=
  let h := height s
  if h = 0 then s else set_ (setHeight s (h - 1)) h 0

/-- `Stack::top`. -/
def top (s : Stack) : Token := at_ s (height s)

/-- `Stack::empty`. -/
def isEmpty (s : Stack) : Bool := height s = 0

/-- `Stack::full`. -/
def full (s : Stack) : Bool := height s = 7

end Stack

/-! ## Collections and fields (`src/hive/hex/mod.rs`, `src/hive/hex/field.rs`)

The Rust `Collection` is a fixed 1024-bit set with a permuted internal bit
layout; the layout is a memory detail, so we model a collection as a natural
number whose bit `h` records membership of hex `h`. -/

abbrev Collection := Nat

namespace Collection

def new : Collection := 0

def contains (c : Collection) (h : Hex) : Bool := c.testBit h

def insert (c : Collection) (h : Hex) : Collection := c ||| (1 <<< h)

def remove (c : Collection) (h : Hex) : Collection :=
  c &&& ((2 ^ 1024 - 1) ^^^ (1 <<< h))

end Collection

/-- A `Field` is a multiset of hexes: a map from hex to stack height plus a
dense membership collection.  The Rust `HashMap` is modelled as an
association list with unique keys (new keys appended at the end, so the
arbitrary `keys().next()` of the source becomes the oldest key). -/
structure Field where
  map : List (Hex × Nat)
  markers : Collection
deriving Repr, DecidableEq

namespace Field

def empty : Field := { map := [], markers := Collection.new }

/-- `Field::contains`. -/
def contains (f : Field) (h : Hex) : Bool := f.markers.contains h

/-- `Field::height`. -/
def height (f : Field) (h : Hex) : Option Nat := f.map.lookup h

/-- `Field::len`. -/
def len (f : Field) : Nat := f.map.length

/-- `Field::is_empty`. -/
def isEmpty (f : Field) : Bool := f.map.isEmpty

/-- `Field::push`. -/
def push (f : Field) (h : Hex) : Field :=
  if (f.map.lookup h).isSome then
    { f with map := f.map.map (fun e => if e.1 = h then (e.1, e.2 + 1) else e) }
  else
    { map := f.map ++ [(h, 1)], markers := f.markers.insert h }

/-- `Field::pop`. -/
def pop (f : Field) (h : Hex) : Field :=
  match f.map.lookup h with
  | none => f
  | some n =>
    if n = 1 then
      { map := f.map.filter (fun e => e.1 ≠ h), markers := f.markers.remove h }
    else
      { f with map := f.map.map (fun e => if e.1 = h then (e.1, e.2 - 1) else e) }

/-- `Field::neighbours`: the neighbours of `h` that are in the field. -/
def neighbours (f : Field) (h : Hex) : List Hex :=
  (hex.neighbours h).filter f.contains

/-- `Field::is_gated`. -/
def is_gated (f : Field) (h : Hex) : Bool := (f.neighbours h).length ≥ 5

/-- `FromIterator<Hex> for Field`: every collected hex gets height 1
(duplicate keys collapse in the `HashMap`). -/
def fromHexes (l : List Hex) : Field :=
  l.foldl (fun f h => if f.contains h then f else
    { map := f.map ++ [(h, 1)], markers := f.markers.insert h }) empty

/-- `Field::ensure_common_neighbours`. -/
def ensure_common_neighbours (_f : Field) (src dst : Hex) : Result (Hex × Hex) :=
  match hex.common_neighbours src dst with
  | none => .error (Error.new .InvalidState)
  | some p => .ok p

/-- `Field::ensure_constant_contact`. -/
def ensure_constant_contact (f : Field) (src dst : Hex) (ghosting : Bool) : Result Unit := do
  let base := Error.new .ConstantContact
  let (cw, ccw) ← (f.ensure_common_neighbours src dst).mapError (fun e => e.chain base)
  let g := if ghosting then 1 else 0
  let height_f := (f.height src).getD 1 + g
  let height_t := ((f.height dst).map (· + 1)).getD 1
  if max height_f height_t > 1 then
    pure ()
  else if !(f.contains cw || f.contains ccw) then
    .error ((Error.new .InvalidState).chain base)
  else
    pure ()

/-- `Field::ensure_freedom_to_move`. -/
def ensure_freedom_to_move (f : Field) (src dst : Hex) (ghosting : Bool) : Result Unit := do
  let base := Error.new .FreedomToMove
  let (cw, ccw) ← (f.ensure_common_neighbours src dst).mapError (fun e => e.chain base)
  if f.contains cw && f.contains ccw then
    let height_cw := (f.height cw).getD 0
    let height_ccw := (f.height ccw).getD 0
    let g := if ghosting then 1 else 0
    let height_f := (f.height src).getD 1 + g
    let height_t := ((f.height dst).map (· + 1)).getD 1
    let height_path := max height_f height_t
    let height_gate := min height_cw height_ccw
    if height_gate ≥ height_path then
      .error ((Error.new .InvalidState).chain base)
    else
      pure ()
  else
    pure ()

end Field

/-- `Perimeter(perimeter_field, underlying_field)`. -/
structure Perimeter where
  perim : Field
  under : Field
deriving Repr, DecidableEq

namespace Field

/-- `Field::perimeter`. -/
def perimeter (f : Field) (as_if_without : Option Hex) : Perimeter :=
  let field := match as_if_without with
    | some hex => f.pop hex
    | none => f
  let perim := Field.fromHexes
    (((field.map.map Prod.fst).flatMap hex.neighbours).filter
      (fun h => !field.contains h && !field.is_gated h))
  { perim := perim, under := field }

end Field

namespace Perimeter

/-- The recursion of `Perimeter::reachable` (`reachable_recurse`), with fuel.
Every recursive call inserts a previously unvisited hex into `visited`, so
fuel `1025` (one more than the number of hexes) can never run out. -/
def reachable_recurse (p : Perimeter) (fuel : Nat) (src : Hex) (visited : List Hex) : List Hex :=
  match fuel with
  | 0 => visited
  | fuel + 1 =>
    (p.perim.neighbours src).foldl
      (fun visited n =>
        if !visited.contains n
            && (p.under.ensure_freedom_to_move src n false).isOk
            && (p.under.ensure_constant_contact src n false).isOk then
          p.reachable_recurse fuel n visited
        else visited)
      (visited ++ [src])

/-- `Perimeter::reachable`. -/
def reachable (p : Perimeter) (src : Hex) : List Hex :=
  if p.perim.contains src then p.reachable_recurse 1025 src [] else []

/-- The recursion of `Perimeter::exact_distance` (`exact_distance_recurse`),
with fuel; the recursion depth is bounded by the requested path length. -/
def exact_distance_recurse (p : Perimeter) (fuel : Nat) (hex : Hex)
    (depth : Nat) (visited reached : List Hex) : List Hex × List Hex :=
  match fuel with
  | 0 => (visited, reached)
  | fuel + 1 =>
    if depth = 0 then
      (visited, reached ++ [hex])
    else
      (p.perim.neighbours hex).foldl
        (fun (acc : List Hex × List Hex) n =>
          if acc.1.contains n
              || !(p.under.ensure_freedom_to_move hex n false).isOk
              || !(p.under.ensure_constant_contact hex n false).isOk then
            acc
          else
            let rec_ := p.exact_distance_recurse fuel n (depth - 1) (acc.1 ++ [n]) acc.2
            (rec_.1.filter (· ≠ n), rec_.2))
        (visited, reached)

/-- `Perimeter::exact_distance`. -/
def exact_distance (p : Perimeter) (src : Hex) (length : Nat) : List Hex :=
  if p.perim.contains src then
    (p.exact_distance_recurse (length + 1) src length [src] []).2
  else []

end Perimeter

namespace Field

/-- `Field::find_crawls`. -/
def find_crawls (f : Field) (src : Hex) (distance : Option Nat) : List Hex :=
  let perimeter := f.perimeter (some src)
  match distance with
  | some length => perimeter.exact_distance src length
  | none => perimeter.reachable src

/-- `Field::ensure_perimeter_crawl`. -/
def ensure_perimeter_crawl (f : Field) (src dst : Hex) (distance : Option Nat) : Result Unit :=
  if !(f.find_crawls src distance).contains dst then
    .error (Error.new .LogicError)
  else
    .ok ()

end Field

/-! ## Articulation points (`Field::find_pins`, Hopcroft–Tarjan)

The Rust DFS mutates a `DescentRecord`; we thread it explicitly.  The
counter is a `u8` that the source bumps with `+= 1`, which wraps modulo
`2 ^ 8` in release builds, so the model increments it with an explicit
`% 2 ^ 8`; every value stored into the `[u8; SIZE]` arrays `num`/`low` is
such a wrapped counter value (always below 256) or a `min` of two of them,
so holding the array entries in `Nat`-valued functions is exact.  The
`HashSet` iteration over neighbours is
fixed to the clockwise order of `hex::neighbours`.  The recursion is given
fuel `1025`: every call immediately marks an unvisited hex visited and only
recurses into unvisited hexes, so on 1024 hexes the fuel cannot run out. -/

structure DescentRecord where
  visited : Collection
  pinned : Collection
  num : Hex → Nat
  low : Hex → Nat
  count : Nat

def DescentRecord.default : DescentRecord :=
  { visited := Collection.new, pinned := Collection.new
    num := fun _ => 0, low := fun _ => 0, count := 0 }

namespace Field

/-- `Field::find_pins_recurse`. -/
def find_pins_recurse (f : Field) : Nat → Hex → Option Hex → DescentRecord → DescentRecord
  | 0, _, _, state => state
  | fuel + 1, hex, parent, state =>
    let state := { state with
      visited := state.visited.insert hex
      num := Function.update state.num hex state.count
      low := Function.update state.low hex state.count
      count := (state.count + 1) % 2 ^ 8 }
    let step := (f.neighbours hex).foldl
      (fun (acc : DescentRecord × Nat) neighbour =>
        let (state, children) := acc
        if parent = some neighbour then
          acc
        else if state.visited.contains neighbour then
          ({ state with
              low := Function.update state.low hex (min (state.low hex) (state.num neighbour)) },
            children)
        else
          let state := f.find_pins_recurse fuel neighbour (some hex) state
          let children := children + 1
          let state := { state with
            low := Function.update state.low hex (min (state.low hex) (state.low neighbour)) }
          let state :=
            if parent.isSome ∧ state.low neighbour ≥ state.num hex then
              { state with pinned := state.pinned.insert hex }
            else state
          (state, children))
      (state, 0)
    if parent = none ∧ step.2 > 1 then
      { step.1 with pinned := step.1.pinned.insert hex }
    else step.1

/-- `Field::find_pins`. -/
def find_pins (f : Field) : Collection :=
  match f.map.head? with
  | some start =>
    (f.find_pins_recurse 1025 start.1 none { DescentRecord.default with count := 1 }).pinned
  | none => Collection.new

end Field

/-! ## Articulation-point correctness (claim C3) -/


theorem hexAdd_lt (h : Hex) (d : Direction) : hexAdd h d < hex.consts.SIZE := by
  have h1 : hexAdd h d ≤ hex.consts.MASK := Nat.and_le_right
  have h2 : (hexAdd h d : Nat) ≤ 1023 := le_trans h1 (by decide)
  have h3 : hex.consts.SIZE = 1024 := by decide
  rw [h3]
  exact lt_of_le_of_lt h2 (by norm_num)

theorem hexAdd_eq_mod (h : Nat) (d : Direction) (hh : h < 1024) :
    hexAdd h d = (h + d.val) % 2 ^ 10 := by
  have hv : d.val ≤ 1023 := by cases d <;> decide
  have hv2 : (Direction.val d : Nat) ≤ 1023 := hv
  rw [hexAdd, Nat.mod_eq_of_lt (by omega : h + d.val < 2 ^ 16),
    show hex.consts.MASK = 2 ^ 10 - 1 from by decide,
    Nat.and_pow_two_sub_one_eq_mod]

theorem hexAdd_val (x : Nat) (hx : x < 1024) (d : Direction) (v : Nat) (hv : d.val = v) :
    hexAdd x d = (x + v) % 2 ^ 10 := by
  rw [hexAdd_eq_mod x d hx, hv]

theorem hex_neighbours_symm (a b : Nat) (ha0 : a < hex.consts.SIZE) (hb0 : b < hex.consts.SIZE)
    (h : b ∈ hex.neighbours a) : a ∈ hex.neighbours b := by
  have hs : hex.consts.SIZE = 1024 := by decide
  rw [hs] at ha0 hb0
  simp only [hex.neighbours, Direction.all, List.map_cons, List.map_nil, List.mem_cons,
    List.not_mem_nil, or_false] at h
  rcases h with h | h | h | h | h | h
  · refine List.mem_map.mpr ⟨.West, by decide, ?_⟩
    rw [hexAdd_val b hb0 .West 1023 (by decide)]
    rw [hexAdd_val a ha0 .East 1 (by decide)] at h
    have h2 : b = (a + 1) % 2 ^ 10 := h
    show (b + 1023) % 2 ^ 10 = a
    omega
  · refine List.mem_map.mpr ⟨.Northwest, by decide, ?_⟩
    rw [hexAdd_val b hb0 .Northwest 991 (by decide)]
    rw [hexAdd_val a ha0 .Southeast 33 (by decide)] at h
    have h2 : b = (a + 33) % 2 ^ 10 := h
    show (b + 991) % 2 ^ 10 = a
    omega
  · refine List.mem_map.mpr ⟨.Northeast, by decide, ?_⟩
    rw [hexAdd_val b hb0 .Northeast 992 (by decide)]
    rw [hexAdd_val a ha0 .Southwest 32 (by decide)] at h
    have h2 : b = (a + 32) % 2 ^ 10 := h
    show (b + 992) % 2 ^ 10 = a
    omega
  · refine List.mem_map.mpr ⟨.East, by decide, ?_⟩
    rw [hexAdd_val b hb0 .East 1 (by decide)]
    rw [hexAdd_val a ha0 .West 1023 (by decide)] at h
    have h2 : b = (a + 1023) % 2 ^ 10 := h
    show (b + 1) % 2 ^ 10 = a
    omega
  · refine List.mem_map.mpr ⟨.Southeast, by decide, ?_⟩
    rw [hexAdd_val b hb0 .Southeast 33 (by decide)]
    rw [hexAdd_val a ha0 .Northwest 991 (by decide)] at h
    have h2 : b = (a + 991) % 2 ^ 10 := h
    show (b + 33) % 2 ^ 10 = a
    omega
  · refine List.mem_map.mpr ⟨.Southwest, by decide, ?_⟩
    rw [hexAdd_val b hb0 .Southwest 32 (by decide)]
    rw [hexAdd_val a ha0 .Northeast 992 (by decide)] at h
    have h2 : b = (a + 992) % 2 ^ 10 := h
    show (b + 32) % 2 ^ 10 = a
    omega

/-- well-formedness of a field: keys on the board, markers agreeing with the map. -/
structure FieldWF (f : Field) : Prop where
  keys_lt : ∀ e ∈ f.map, e.1 < hex.consts.SIZE
  mark_iff : ∀ h : Hex, f.contains h = true ↔ (f.map.lookup h).isSome = true

theorem lookup_isSome_mem {α β : Type} [BEq α] [LawfulBEq α] (l : List (α × β)) (a : α)
    (h : (l.lookup a).isSome = true) : ∃ b, (a, b) ∈ l := by
  induction l with
  | nil => simp [List.lookup] at h
  | cons e t ih =>
    rw [List.lookup] at h
    cases hbe : a == e.1 with
    | false =>
      rw [hbe] at h
      obtain ⟨v, hv⟩ := ih h
      exact ⟨v, List.mem_cons_of_mem e hv⟩
    | true =>
      refine ⟨e.2, ?_⟩
      have ha : a = e.1 := eq_of_beq hbe
      rw [ha, show (e.1, e.2) = e from rfl]
      exact List.mem_cons_self e t

theorem occ_lt {f : Field} (hWF : FieldWF f) {h : Hex} (ho : f.contains h = true) :
    h < hex.consts.SIZE := by
  obtain ⟨v, hv⟩ := lookup_isSome_mem f.map h ((hWF.mark_iff h).mp ho)
  exact hWF.keys_lt (h, v) hv

/-- the edge relation of the occupied subgraph: `b` is an occupied neighbour of `a`. -/
def EF (f : Field) (a b : Hex) : Prop := b ∈ f.neighbours a

theorem EF_occ {f : Field} {a b : Hex} (h : EF f a b) : f.contains b = true := by
  simp only [EF, Field.neighbours, List.mem_filter] at h
  exact h.2

theorem EF_hexmem {f : Field} {a b : Hex} (h : EF f a b) : b ∈ hex.neighbours a := by
  simp only [EF, Field.neighbours, List.mem_filter] at h
  exact h.1

theorem EF_symm {f : Field} (hWF : FieldWF f) {a b : Hex} (hoa : f.contains a = true)
    (h : EF f a b) : EF f b a := by
  have hb := EF_occ h
  simp only [EF, Field.neighbours, List.mem_filter] at h ⊢
  exact ⟨hex_neighbours_symm a b (occ_lt hWF hoa) (occ_lt hWF hb) h.1, hoa⟩

/-- connectivity avoiding a vertex `x`. -/
def ConnAway (f : Field) (x : Hex) (a b : Hex) : Prop :=
  Relation.ReflTransGen (fun p q => EF f p q ∧ p ≠ x ∧ q ≠ x) a b

/-- plain connectivity of the occupied subgraph. -/
def Conn (f : Field) (a b : Hex) : Prop :=
  Relation.ReflTransGen (fun p q => EF f p q) a b

/-- the occupied hexes form a connected graph. -/
def connectedField (f : Field) : Prop :=
  ∀ a b, f.contains a = true → f.contains b = true → Conn f a b

/-- spec articulation point: an occupied hex whose removal disconnects the
occupied subgraph. -/
def articulation (f : Field) (x : Hex) : Prop :=
  f.contains x = true ∧ ∃ a b, f.contains a = true ∧ f.contains b = true ∧
    a ≠ x ∧ b ≠ x ∧ ¬ ConnAway f x a b

/-- a set closed except through `x` separates: nothing inside reaches anything
outside while avoiding `x`. -/
theorem sep_of_closed (f : Field) (x : Hex) (T : Hex → Prop)
    (hT : ∀ a, T a → ∀ t, EF f a t → t = x ∨ T t) {a b : Hex}
    (hta : T a) (htb : ¬ T b) : ¬ ConnAway f x a b := by
  intro h
  have key : ∀ c, ConnAway f x a c → T c := by
    intro c hc
    induction hc with
    | refl => exact hta
    | tail hstep hedge ih =>
      rcases hT _ ih _ hedge.1 with he | he
      · exact absurd he hedge.2.2
      · exact he
  exact htb (key b h)

-- Collection membership lemmas
theorem Collection.contains_insert_self (c : Collection) (h : Hex) :
    (c.insert h).contains h = true := by
  simp only [Collection.contains, Collection.insert, Nat.testBit_lor, Nat.shiftLeft_eq, one_mul]
  simp [Nat.testBit_two_pow_self]

theorem Collection.contains_insert_of (c : Collection) (h h' : Hex)
    (hc : c.contains h' = true) : (c.insert h).contains h' = true := by
  simp only [Collection.contains, Collection.insert, Nat.testBit_lor]
  simp [Collection.contains] at hc
  simp [hc]

theorem Collection.contains_insert_elim (c : Collection) (h h' : Hex)
    (hc : (c.insert h).contains h' = true) : h' = h ∨ c.contains h' = true := by
  simp only [Collection.contains, Collection.insert, Nat.testBit_lor, Nat.shiftLeft_eq,
    one_mul, Bool.or_eq_true] at hc
  rcases hc with hc | hc
  · right; exact hc
  · left
    by_contra hne
    rw [Nat.testBit_two_pow_of_ne (fun he => hne (he.symm)) ] at hc
    exact Bool.false_ne_true hc

/-! ### DFS state predicates -/

def Vis (σ : DescentRecord) (x : Hex) : Prop := σ.visited.contains x = true

def Pin (σ : DescentRecord) (x : Hex) : Prop := σ.pinned.contains x = true

instance Vis.dec (σ : DescentRecord) (x : Hex) : Decidable (Vis σ x) :=
  inferInstanceAs (Decidable (_ = true))

instance Pin.dec (σ : DescentRecord) (x : Hex) : Decidable (Pin σ x) :=
  inferInstanceAs (Decidable (_ = true))

/-- newly visited between two states. -/
def NV (σ₀ σ : DescentRecord) (y : Hex) : Prop := Vis σ y ∧ ¬ Vis σ₀ y

/-- hexes still occupied-but-unvisited: the DFS recursion measure. -/
def freeCount (f : Field) (σ : DescentRecord) : Nat :=
  ((Finset.range hex.consts.SIZE).filter
    (fun h => f.contains h = true ∧ ¬ Vis σ h)).card

theorem freeCount_lt {f : Field} {σ σ' : DescentRecord} (hmono : ∀ y, Vis σ y → Vis σ' y)
    (c : Hex) (hc : f.contains c = true) (hlt : c < hex.consts.SIZE)
    (hv0 : ¬ Vis σ c) (hv1 : Vis σ' c) : freeCount f σ' < freeCount f σ := by
  unfold freeCount
  apply Finset.card_lt_card
  constructor
  · intro x hx
    simp only [Finset.mem_filter, Finset.mem_range] at hx ⊢
    exact ⟨hx.1, hx.2.1, fun hvx => hx.2.2 (hmono x hvx)⟩
  · intro hsub
    have hc2 : c ∈ (Finset.range hex.consts.SIZE).filter
        (fun h => f.contains h = true ∧ ¬ Vis σ h) := by
      simp only [Finset.mem_filter, Finset.mem_range]
      exact ⟨hlt, hc, hv0⟩
    have := hsub hc2
    simp only [Finset.mem_filter, Finset.mem_range] at this
    exact this.2.2 hv1

theorem freeCount_congr {f : Field} {σ' σ : DescentRecord} (h : σ'.visited = σ.visited) :
    freeCount f σ' = freeCount f σ := by
  unfold freeCount Vis
  simp only [h]

theorem freeCount_le_len {f : Field} (hWF : FieldWF f) (σ : DescentRecord) :
    freeCount f σ ≤ f.map.length := by
  unfold freeCount
  have hsub : (Finset.range hex.consts.SIZE).filter
      (fun h => f.contains h = true ∧ ¬ Vis σ h) ⊆ (f.map.map Prod.fst).toFinset := by
    intro x hx
    simp only [Finset.mem_filter] at hx
    obtain ⟨b, hb⟩ := lookup_isSome_mem f.map x ((hWF.mark_iff x).mp hx.2.1)
    rw [List.mem_toFinset]
    exact List.mem_map.mpr ⟨(x, b), hb, rfl⟩
  exact le_trans (le_trans (Finset.card_le_card hsub) (List.toFinset_card_le _))
    (le_of_eq (List.length_map _ _))

theorem rtg_mono {α : Type} {r s : α → α → Prop} (h : ∀ a b, r a b → s a b) {a b : α}
    (hr : Relation.ReflTransGen r a b) : Relation.ReflTransGen s a b := by
  induction hr with
  | refl => exact Relation.ReflTransGen.refl
  | tail _ hstep ih => exact Relation.ReflTransGen.tail ih (h _ _ hstep)

theorem connAway_occ {f : Field} {x a b : Hex} (hoa : f.contains a = true)
    (h : ConnAway f x a b) : f.contains b = true := by
  induction h with
  | refl => exact hoa
  | tail _ hstep _ => exact EF_occ hstep.1

theorem connAway_symm {f : Field} (hWF : FieldWF f) {x a b : Hex}
    (hoa : f.contains a = true) (h : ConnAway f x a b) : ConnAway f x b a := by
  induction h with
  | refl => exact Relation.ReflTransGen.refl
  | tail hpath hstep ih =>
    exact Relation.ReflTransGen.head
      ⟨EF_symm hWF (connAway_occ hoa hpath) hstep.1, hstep.2.2, hstep.2.1⟩ ih

theorem conn_occ {f : Field} {a b : Hex} (hoa : f.contains a = true) (h : Conn f a b) :
    f.contains b = true := by
  induction h with
  | refl => exact hoa
  | tail _ hstep _ => exact EF_occ hstep

theorem conn_symm {f : Field} (hWF : FieldWF f) {a b : Hex} (hoa : f.contains a = true)
    (h : Conn f a b) : Conn f b a := by
  induction h with
  | refl => exact Relation.ReflTransGen.refl
  | tail hp hstep ih =>
    exact Relation.ReflTransGen.head (EF_symm hWF (conn_occ hoa hp) hstep) ih

instance EF.dec (f : Field) (a b : Hex) : Decidable (EF f a b) :=
  inferInstanceAs (Decidable (b ∈ f.neighbours a))

/-- a computable walk check: each list entry is an occupied neighbour of the
previous one. -/
def chainB (f : Field) : Hex → List Hex → Bool
  | _, [] => true
  | a, b :: t => decide (EF f a b) && chainB f b t

theorem chainB_conn {f : Field} : ∀ (l : List Hex) (a : Hex), chainB f a l = true →
    ∀ y ∈ l, Conn f a y := by
  intro l
  induction l with
  | nil =>
    intro a _ y hy
    exact absurd hy (List.not_mem_nil y)
  | cons b t ih =>
    intro a hch y hy
    simp only [chainB, Bool.and_eq_true] at hch
    have hab : EF f a b := of_decide_eq_true hch.1
    rcases List.mem_cons.mp hy with he | he
    · rw [he]
      exact Relation.ReflTransGen.single hab
    · exact Relation.ReflTransGen.trans (Relation.ReflTransGen.single hab) (ih b hch.2 y he)

/-! ### the per-call specification bundle -/

/-- the nonroot separation witness: a set `T` around a neighbour `y` of `x`,
closed except through `x`, missing `x` and the DFS root `r`. -/
def SepAt (f : Field) (r x : Hex) : Prop :=
  x ≠ r ∧ ∃ y, ∃ T : Hex → Prop, EF f x y ∧ T y ∧ ¬ T x ∧ ¬ T r ∧
    (∀ a, T a → ∀ t, EF f a t → t = x ∨ T t) ∧ (∀ a, T a → f.contains a = true)

/-- the root separation witness: two neighbours of `x` separated by a set
closed except through `x`. -/
def RootSepAt (f : Field) (x : Hex) : Prop :=
  ∃ y1 y2, ∃ T : Hex → Prop, EF f x y1 ∧ EF f x y2 ∧ T y1 ∧ ¬ T y2 ∧ ¬ T x ∧
    (∀ a, T a → ∀ t, EF f a t → t = x ∨ T t) ∧ (∀ a, T a → f.contains a = true)

/-- everything established about one completed `find_pins_recurse` call. -/
structure DfsOut (f : Field) (r : Hex) (parent : Option Hex) (c : Hex)
    (σ₀ σ₁ : DescentRecord) : Prop where
  mono : ∀ y, Vis σ₀ y → Vis σ₁ y
  visc : Vis σ₁ c
  nvOcc : ∀ x, NV σ₀ σ₁ x → f.contains x = true
  frameNum : ∀ y, ¬ NV σ₀ σ₁ y → σ₁.num y = σ₀.num y
  frameLow : ∀ y, ¬ NV σ₀ σ₁ y → σ₁.low y = σ₀.low y
  framePin : ∀ y, ¬ NV σ₀ σ₁ y → (Pin σ₁ y ↔ Pin σ₀ y)
  pinMono : ∀ y, Pin σ₀ y → Pin σ₁ y
  pinVis : ∀ y, Pin σ₁ y → Vis σ₁ y
  countMono : σ₀.count ≤ σ₁.count
  budget : σ₁.count + freeCount f σ₁ ≤ σ₀.count + freeCount f σ₀
  numc : σ₁.num c = σ₀.count
  window : ∀ x, NV σ₀ σ₁ x → σ₀.count ≤ σ₁.num x ∧ σ₁.num x < σ₁.count
  gi : ∀ y, Vis σ₁ y → σ₁.num y < σ₁.count
  closure : ∀ x, NV σ₀ σ₁ x → ∀ t, EF f x t → Vis σ₁ t
  wconn : ∀ x, NV σ₀ σ₁ x →
    Relation.ReflTransGen (fun p q => NV σ₀ σ₁ p ∧ NV σ₀ σ₁ q ∧ EF f p q) c x
  callParent : ∀ x, NV σ₀ σ₁ x → ∃ po : Option Hex,
    (x = c → po = parent) ∧
    (x ≠ c → ∃ w, po = some w ∧ NV σ₀ σ₁ w ∧ EF f w x ∧ σ₁.num w < σ₁.num x) ∧
    (∀ t, EF f x t → Vis σ₁ t → σ₁.num t < σ₁.num x → po ≠ some t → σ₁.low x ≤ σ₁.num t)
  lowLe : ∀ x, NV σ₀ σ₁ x → σ₁.low x ≤ σ₁.num x
  lowChain : ∀ x, NV σ₀ σ₁ x → σ₁.low c ≤ σ₁.low x
  lowAttained : σ₁.low c = σ₁.num c ∨
    ∃ a t, NV σ₀ σ₁ a ∧ EF f a t ∧ Vis σ₁ t ∧ σ₁.low c = σ₁.num t
  marked : ∀ x, NV σ₀ σ₁ x → ¬ Pin σ₀ x → Pin σ₁ x →
    (x = c ∧ parent = none ∧ RootSepAt f x) ∨ SepAt f r x
  unmarked : ∀ x, NV σ₀ σ₁ x → ¬ Pin σ₁ x → ¬(x = c ∧ parent = none) →
    ∀ z, EF f x z → Vis σ₁ z → σ₁.num x < σ₁.num z →
      ∃ e, Vis σ₁ e ∧ σ₁.num e < σ₁.num x ∧ ConnAway f x z e
  rootUnmarked : parent = none → ¬ Pin σ₁ c →
    ∀ z1 z2, NV σ₀ σ₁ z1 → NV σ₀ σ₁ z2 → z1 ≠ c → z2 ≠ c → ConnAway f c z1 z2

/-- the fold body of `find_pins_recurse`, named for the loop lemma. -/
def dfsBody (f : Field) (fuel : Nat) (hex : Hex) (parent : Option Hex) :
    DescentRecord × Nat → Hex → DescentRecord × Nat := fun acc neighbour =>
  let (state, children) := acc
  if parent = some neighbour then
    acc
  else if state.visited.contains neighbour then
    ({ state with
        low := Function.update state.low hex (min (state.low hex) (state.num neighbour)) },
      children)
  else
    let state := f.find_pins_recurse fuel neighbour (some hex) state
    let children := children + 1
    let state := { state with
      low := Function.update state.low hex (min (state.low hex) (state.low neighbour)) }
    let state :=
      if parent.isSome ∧ state.low neighbour ≥ state.num hex then
        { state with pinned := state.pinned.insert hex }
      else state
    (state, children)

theorem find_pins_recurse_succ (f : Field) (fuel : Nat) (hex : Hex) (parent : Option Hex)
    (σ₀ : DescentRecord) :
    f.find_pins_recurse (fuel + 1) hex parent σ₀ =
      (let σ := { σ₀ with
        visited := σ₀.visited.insert hex
        num := Function.update σ₀.num hex σ₀.count
        low := Function.update σ₀.low hex σ₀.count
        count := (σ₀.count + 1) % 2 ^ 8 }
      let step := (f.neighbours hex).foldl (dfsBody f fuel hex parent) (σ, 0)
      if parent = none ∧ step.2 > 1 then
        { step.1 with pinned := step.1.pinned.insert hex }
      else step.1) := rfl

theorem freeCount_mono {f : Field} {σ σ' : DescentRecord}
    (hmono : ∀ y, Vis σ y → Vis σ' y) : freeCount f σ' ≤ freeCount f σ := by
  unfold freeCount
  apply Finset.card_le_card
  intro x hx
  simp only [Finset.mem_filter, Finset.mem_range] at hx ⊢
  exact ⟨hx.1, hx.2.1, fun hv => hx.2.2 (hmono x hv)⟩

/-- what any loop-prefix execution preserves. -/
structure LoopStep (c : Hex) (σa σb : DescentRecord) : Prop where
  mono : ∀ y, Vis σa y → Vis σb y
  numStable : ∀ y, Vis σa y → σb.num y = σa.num y
  lowStable : ∀ y, Vis σa y → y ≠ c → σb.low y = σa.low y
  pinStable : ∀ y, Vis σa y → y ≠ c → (Pin σb y ↔ Pin σa y)
  pinMonoAll : ∀ y, Pin σa y → Pin σb y
  countMono : σa.count ≤ σb.count
  lowcAnti : σb.low c ≤ σa.low c

theorem LoopStep.id (c : Hex) (σ : DescentRecord) : LoopStep c σ σ :=
  ⟨fun _ h => h, fun _ _ => Eq.refl _, fun _ _ _ => Eq.refl _, fun _ _ _ => Iff.rfl,
    fun _ h => h, le_refl _, le_refl _⟩

theorem LoopStep.comp {c : Hex} {σa σb σc : DescentRecord} (h1 : LoopStep c σa σb)
    (h2 : LoopStep c σb σc) : LoopStep c σa σc where
  mono y hy := h2.mono y (h1.mono y hy)
  numStable y hy := (h2.numStable y (h1.mono y hy)).trans (h1.numStable y hy)
  lowStable y hy hne := (h2.lowStable y (h1.mono y hy) hne).trans (h1.lowStable y hy hne)
  pinStable y hy hne := (h2.pinStable y (h1.mono y hy) hne).trans (h1.pinStable y hy hne)
  pinMonoAll y hy := h2.pinMonoAll y (h1.pinMonoAll y hy)
  countMono := le_trans h1.countMono h2.countMono
  lowcAnti := le_trans h2.lowcAnti h1.lowcAnti

/-- the invariant maintained along `find_pins_recurse`'s neighbour loop. -/
structure LoopInv (f : Field) (r : Hex) (parent : Option Hex) (c : Hex)
    (σ₀ : DescentRecord) (σ : DescentRecord) (k : Nat) : Prop where
  visc : Vis σ c
  ncv : ¬ Vis σ₀ c
  visr : Vis σ r
  visr0 : parent ≠ none → Vis σ₀ r
  mono : ∀ y, Vis σ₀ y → Vis σ y
  visOcc : ∀ y, Vis σ y → f.contains y = true
  frameNum : ∀ y, ¬ NV σ₀ σ y → σ.num y = σ₀.num y
  frameLow : ∀ y, ¬ NV σ₀ σ y → σ.low y = σ₀.low y
  framePin : ∀ y, ¬ NV σ₀ σ y → (Pin σ y ↔ Pin σ₀ y)
  pinMono : ∀ y, Pin σ₀ y → Pin σ y
  pinVis : ∀ y, Pin σ y → Vis σ y
  countLb : σ₀.count < σ.count
  budget : σ.count + freeCount f σ ≤ σ₀.count + freeCount f σ₀
  numc : σ.num c = σ₀.count
  window : ∀ x, NV σ₀ σ x → σ₀.count ≤ σ.num x ∧ σ.num x < σ.count
  gi : ∀ y, Vis σ y → σ.num y < σ.count
  mclosure : ∀ x, NV σ₀ σ x → x ≠ c → ∀ t, EF f x t → Vis σ t
  wconn : ∀ x, NV σ₀ σ x →
    Relation.ReflTransGen (fun p q => NV σ₀ σ p ∧ NV σ₀ σ q ∧ EF f p q) c x
  callParent : ∀ x, NV σ₀ σ x → x ≠ c → ∃ w, NV σ₀ σ w ∧ EF f w x ∧ σ.num w < σ.num x ∧
    (∀ t, EF f x t → Vis σ t → σ.num t < σ.num x → w ≠ t → σ.low x ≤ σ.num t)
  lowc_le : σ.low c ≤ σ₀.count
  lowLeM : ∀ x, NV σ₀ σ x → x ≠ c → σ.low x ≤ σ.num x
  lowChain : ∀ x, NV σ₀ σ x → x ≠ c → σ.low c ≤ σ.low x
  lowAttained : σ.low c = σ₀.count ∨
    ∃ a t, NV σ₀ σ a ∧ EF f a t ∧ Vis σ t ∧ σ.low c = σ.num t
  markedM : ∀ x, NV σ₀ σ x → x ≠ c → ¬ Pin σ₀ x → Pin σ x → SepAt f r x
  markedC : ¬ Pin σ₀ c → Pin σ c → parent ≠ none ∧ SepAt f r c
  unmarkedM : ∀ x, NV σ₀ σ x → x ≠ c → ¬ Pin σ x →
    ∀ z, EF f x z → Vis σ z → σ.num x < σ.num z →
      ∃ e, Vis σ e ∧ σ.num e < σ.num x ∧ ConnAway f x z e
  unmarkedAcc : parent ≠ none → ¬ Pin σ c → ∀ z, NV σ₀ σ z → z ≠ c →
    ∃ e, Vis σ e ∧ σ.num e < σ₀.count ∧ ConnAway f c z e
  rootAcc : parent = none → k ≤ 1 →
    ∀ z1 z2, NV σ₀ σ z1 → NV σ₀ σ z2 → z1 ≠ c → z2 ≠ c → ConnAway f c z1 z2
  firstCh : parent = none → 1 ≤ k → ∃ y1, ∃ T : Hex → Prop, EF f c y1 ∧ T y1 ∧ ¬ T c ∧
    (∀ a, T a → ∀ t, EF f a t → t = c ∨ T t) ∧ (∀ a, T a → f.contains a = true) ∧
    (∀ a, T a → Vis σ a ∧ ¬ Vis σ₀ a)
  rootSepAcc : parent = none → 2 ≤ k → RootSepAt f c
  rootEmpty : parent = none → k = 0 → ∀ z, NV σ₀ σ z → z = c

theorem visited_step {f : Field} {r : Hex} {parent : Option Hex} {c : Hex}
    {σ₀ σ : DescentRecord} {k : Nat} (inv : LoopInv f r parent c σ₀ σ k)
    (t : Hex) (ht : EF f c t) (hvt : Vis σ t) :
    LoopInv f r parent c σ₀
      { σ with low := Function.update σ.low c (min (σ.low c) (σ.num t)) } k ∧
    LoopStep c σ { σ with low := Function.update σ.low c (min (σ.low c) (σ.num t)) } ∧
    ({ σ with low := Function.update σ.low c (min (σ.low c) (σ.num t)) } :
        DescentRecord).low c ≤ σ.num t := by
  have hlc : ({ σ with low := Function.update σ.low c (min (σ.low c) (σ.num t)) } :
      DescentRecord).low c = min (σ.low c) (σ.num t) := Function.update_same c _ σ.low
  have hlne : ∀ y, y ≠ c →
      ({ σ with low := Function.update σ.low c (min (σ.low c) (σ.num t)) } :
        DescentRecord).low y = σ.low y := fun y hy => Function.update_noteq hy _ σ.low
  have hFrameLow : ∀ y, ¬ NV σ₀
      { σ with low := Function.update σ.low c (min (σ.low c) (σ.num t)) } y →
      ({ σ with low := Function.update σ.low c (min (σ.low c) (σ.num t)) } :
        DescentRecord).low y = σ₀.low y := by
    intro y hy
    have hyne : y ≠ c := fun he => hy (by rw [he]; exact ⟨inv.visc, inv.ncv⟩)
    rw [hlne y hyne]
    exact inv.frameLow y hy
  have hCallParent : ∀ x, NV σ₀ σ x → x ≠ c → ∃ w, NV σ₀ σ w ∧ EF f w x ∧
      σ.num w < σ.num x ∧ (∀ t', EF f x t' → Vis σ t' → σ.num t' < σ.num x → w ≠ t' →
        ({ σ with low := Function.update σ.low c (min (σ.low c) (σ.num t)) } :
          DescentRecord).low x ≤ σ.num t') := by
    intro x hx hne
    obtain ⟨w, hw1, hw2, hw3, hw4⟩ := inv.callParent x hx hne
    refine ⟨w, hw1, hw2, hw3, ?_⟩
    intro t' ht' hvt' hnt' hwt'
    rw [hlne x hne]
    exact hw4 t' ht' hvt' hnt' hwt'
  have hLowAtt : ({ σ with low := Function.update σ.low c (min (σ.low c) (σ.num t)) } :
      DescentRecord).low c = σ₀.count ∨ ∃ a t'', NV σ₀ σ a ∧ EF f a t'' ∧ Vis σ t'' ∧
      ({ σ with low := Function.update σ.low c (min (σ.low c) (σ.num t)) } :
        DescentRecord).low c = σ.num t'' := by
    rcases le_total (σ.low c) (σ.num t) with hle | hle
    · rw [hlc, min_eq_left hle]
      exact inv.lowAttained
    · right
      exact ⟨c, t, ⟨inv.visc, inv.ncv⟩, ht, hvt, by rw [hlc, min_eq_right hle]⟩
  refine ⟨?_, ?_, ?_⟩
  · exact {
      visc := inv.visc
      ncv := inv.ncv
      visr := inv.visr
      visr0 := inv.visr0
      mono := inv.mono
      visOcc := inv.visOcc
      frameNum := inv.frameNum
      frameLow := hFrameLow
      framePin := inv.framePin
      pinMono := inv.pinMono
      pinVis := inv.pinVis
      countLb := inv.countLb
      budget := inv.budget
      numc := inv.numc
      window := inv.window
      gi := inv.gi
      mclosure := inv.mclosure
      wconn := inv.wconn
      callParent := hCallParent
      lowc_le := by rw [hlc]; exact le_trans (min_le_left _ _) inv.lowc_le
      lowLeM := fun x hx hne => by rw [hlne x hne]; exact inv.lowLeM x hx hne
      lowChain := fun x hx hne => by
        rw [hlc, hlne x hne]; exact le_trans (min_le_left _ _) (inv.lowChain x hx hne)
      lowAttained := hLowAtt
      markedM := inv.markedM
      markedC := inv.markedC
      unmarkedM := inv.unmarkedM
      unmarkedAcc := inv.unmarkedAcc
      rootAcc := inv.rootAcc
      firstCh := inv.firstCh
      rootSepAcc := inv.rootSepAcc
      rootEmpty := inv.rootEmpty }
  · exact ⟨fun _ h => h, fun _ _ => Eq.refl _, fun y _ hy => hlne y hy,
      fun _ _ _ => Iff.rfl, fun _ h => h, le_refl _, by rw [hlc]; exact min_le_left _ _⟩
  · rw [hlc]
    exact min_le_right _ _

/-- the state transform the loop applies after a recursive child call (stated
with the updates pre-resolved at `t ≠ c`). -/
def childUpd (parent : Option Hex) (c t : Hex) (σB : DescentRecord) : DescentRecord :=
  if parent.isSome ∧ σB.low t ≥ σB.num c then
    { σB with pinned := σB.pinned.insert c, low := Function.update σB.low c (min (σB.low c) (σB.low t)) }
  else
    { σB with low := Function.update σB.low c (min (σB.low c) (σB.low t)) }

theorem childUpd_visited (parent : Option Hex) (c t : Hex) (σB : DescentRecord) :
    (childUpd parent c t σB).visited = σB.visited := by
  unfold childUpd
  split <;> rfl

theorem childUpd_num (parent : Option Hex) (c t : Hex) (σB : DescentRecord) :
    (childUpd parent c t σB).num = σB.num := by
  unfold childUpd
  split <;> rfl

theorem childUpd_count (parent : Option Hex) (c t : Hex) (σB : DescentRecord) :
    (childUpd parent c t σB).count = σB.count := by
  unfold childUpd
  split <;> rfl

theorem childUpd_low (parent : Option Hex) (c t : Hex) (σB : DescentRecord) :
    (childUpd parent c t σB).low =
      Function.update σB.low c (min (σB.low c) (σB.low t)) := by
  unfold childUpd
  split <;> rfl

theorem childUpd_pin_of (parent : Option Hex) (c t : Hex) (σB : DescentRecord) (y : Hex)
    (h : Pin σB y) : Pin (childUpd parent c t σB) y := by
  unfold Pin at h ⊢
  unfold childUpd
  split
  · exact Collection.contains_insert_of _ c y h
  · exact h

theorem childUpd_pin_elim (parent : Option Hex) (c t : Hex) (σB : DescentRecord) (y : Hex)
    (h : Pin (childUpd parent c t σB) y) : Pin σB y ∨ y = c := by
  unfold childUpd Pin at h
  split at h
  · rcases Collection.contains_insert_elim _ c y h with he | he
    · right; exact he
    · left; exact he
  · left; exact h

theorem childUpd_pin_c (parent : Option Hex) (c t : Hex) (σB : DescentRecord)
    (hcond : parent.isSome ∧ σB.low t ≥ σB.num c) : Pin (childUpd parent c t σB) c := by
  unfold childUpd Pin
  rw [if_pos hcond]
  exact Collection.contains_insert_self _ c

theorem childUpd_pin_c_elim (parent : Option Hex) (c t : Hex) (σB : DescentRecord)
    (h : Pin (childUpd parent c t σB) c) :
    Pin σB c ∨ (parent.isSome ∧ σB.low t ≥ σB.num c) := by
  unfold childUpd Pin at h
  split at h
  · rename_i hc
    right
    exact hc
  · left; exact h

theorem child_step {f : Field} (hWF : FieldWF f) {r : Hex} {parent : Option Hex} {c : Hex}
    {σ₀ σ : DescentRecord} {k : Nat} (inv : LoopInv f r parent c σ₀ σ k)
    (hempty : parent = none → ∀ y, ¬ Vis σ₀ y)
    (hgi0 : ∀ y, Vis σ₀ y → σ₀.num y < σ₀.count)
    (t : Hex) (ht : EF f c t) (hnvt : ¬ Vis σ t)
    {σB : DescentRecord} (sub : DfsOut f r (some c) t σ σB) :
    LoopInv f r parent c σ₀ (childUpd parent c t σB) (k + 1) ∧
    LoopStep c σ (childUpd parent c t σB) ∧
    Vis (childUpd parent c t σB) t ∧
    (childUpd parent c t σB).low c ≤ (childUpd parent c t σB).num t := by
  set σD := childUpd parent c t σB with hσD
  have htc : t ≠ c := fun he => hnvt (by rw [he]; exact inv.visc)
  have hvisD : ∀ y, Vis σD y ↔ Vis σB y := by
    intro y
    unfold Vis
    rw [hσD, childUpd_visited]
  have hnumD : ∀ y, σD.num y = σB.num y := by
    intro y
    rw [hσD, childUpd_num]
  have hcountD : σD.count = σB.count := by rw [hσD, childUpd_count]
  have hfreeD : freeCount f σD = freeCount f σB :=
    freeCount_congr (by rw [hσD, childUpd_visited])
  have hlowDc : σD.low c = min (σB.low c) (σB.low t) := by
    rw [hσD, childUpd_low]
    exact Function.update_same c _ σB.low
  have hlowDne : ∀ y, y ≠ c → σD.low y = σB.low y := by
    intro y hy
    rw [hσD, childUpd_low]
    exact Function.update_noteq hy _ σB.low
  -- basic numbers
  have hnumBc : σB.num c = σ₀.count := by
    rw [sub.frameNum c (fun hnv => hnv.2 inv.visc)]
    exact inv.numc
  have hnumBt : σB.num t = σ.count := sub.numc
  have hlowBc : σB.low c = σ.low c := sub.frameLow c (fun hnv => hnv.2 inv.visc)
  have hWt : NV σ σB t := ⟨sub.visc, hnvt⟩
  have hnumStable : ∀ y, Vis σ y → σB.num y = σ.num y :=
    fun y hy => sub.frameNum y (fun hnv => hnv.2 hy)
  have hlowStable : ∀ y, Vis σ y → σB.low y = σ.low y :=
    fun y hy => sub.frameLow y (fun hnv => hnv.2 hy)
  have hpinStable : ∀ y, Vis σ y → (Pin σB y ↔ Pin σ y) :=
    fun y hy => sub.framePin y (fun hnv => hnv.2 hy)
  have hNVD_old : ∀ x, NV σ₀ σ x → NV σ₀ σD x :=
    fun x hx => ⟨(hvisD x).mpr (sub.mono x hx.1), hx.2⟩
  have hNVD_sub : ∀ x, NV σ σB x → NV σ₀ σD x :=
    fun x hx => ⟨(hvisD x).mpr hx.1, fun h0 => hx.2 (inv.mono x h0)⟩
  have hNVD_split : ∀ x, NV σ₀ σD x → NV σ₀ σ x ∨ NV σ σB x := by
    intro x hx
    by_cases hv : Vis σ x
    · left; exact ⟨hv, hx.2⟩
    · right; exact ⟨(hvisD x).mp hx.1, hv⟩
  have hNVDc : NV σ₀ σD c := ⟨(hvisD c).mpr (sub.mono c inv.visc), inv.ncv⟩
  have hNVDt : NV σ₀ σD t := hNVD_sub t hWt
  -- the subtree neighbourhood trichotomy
  have hsubnb : ∀ a, NV σ σB a → ∀ u, EF f a u →
      u = c ∨ NV σ σB u ∨ (Vis σ₀ u ∧ σB.num u < σ₀.count) := by
    intro a ha u hu
    have hvu : Vis σB u := sub.closure a ha u hu
    by_cases hvσ : Vis σ u
    · by_cases huc : u = c
      · left; exact huc
      · by_cases h0 : Vis σ₀ u
        · right; right
          refine ⟨h0, ?_⟩
          rw [hnumStable u hvσ, inv.frameNum u (fun hnv => hnv.2 h0)]
          exact hgi0 u h0
        · exfalso
          have hefua : EF f u a := EF_symm hWF (sub.nvOcc a ha) hu
          exact ha.2 (inv.mclosure u ⟨hvσ, h0⟩ huc a hefua)
    · right; left
      exact ⟨hvu, hvσ⟩
  -- the escape bound from the subtree to previously visited hexes
  have hesc : ∀ a, NV σ σB a → ∀ u, EF f a u → Vis σ₀ u → σB.low t ≤ σB.num u := by
    intro a ha u hu h0u
    have hvu : Vis σB u := sub.closure a ha u hu
    have hnumu : σB.num u < σ₀.count := by
      have hvσu : Vis σ u := inv.mono u h0u
      rw [hnumStable u hvσu, inv.frameNum u (fun hnv => hnv.2 h0u)]
      exact hgi0 u h0u
    have hnuma : σ.count ≤ σB.num a := (sub.window a ha).1
    have huc : u ≠ c := fun he => inv.ncv (he ▸ h0u)
    have hclb : σ₀.count < σ.count := inv.countLb
    obtain ⟨po, hpo1, hpo2, hpo3⟩ := sub.callParent a ha
    have hlowa : σB.low a ≤ σB.num u := by
      by_cases hat : a = t
      · rw [hpo1 hat] at hpo3
        exact hpo3 u hu hvu (by omega)
          (fun hce => huc (Option.some_injective _ hce).symm)
      · obtain ⟨w, hw1, hw2, hw3, hw4⟩ := hpo2 hat
        rw [hw1] at hpo3
        refine hpo3 u hu hvu (by omega) ?_
        intro hwe
        have hwu : w = u := Option.some_injective _ hwe
        rw [hwu] at hw2
        exact hw2.2 (inv.mono u h0u)
    exact le_trans (sub.lowChain a ha) hlowa
  -- connectivity through the subtree, avoiding c
  have hWpath : ∀ z, NV σ σB z → ConnAway f c t z := by
    intro z hz
    refine rtg_mono ?_ (sub.wconn z hz)
    intro p q hpq
    exact ⟨hpq.2.2, fun he => hpq.1.2 (he ▸ inv.visc), fun he => hpq.2.1.2 (he ▸ inv.visc)⟩
  -- pin bookkeeping through childUpd
  have hpinD_iff : ∀ y, y ≠ c → (Pin σD y ↔ Pin σB y) := by
    intro y hyc
    constructor
    · intro h
      rw [hσD] at h
      exact (childUpd_pin_elim parent c t σB y h).resolve_right hyc
    · intro h
      rw [hσD]
      exact childUpd_pin_of parent c t σB y h
  have hpinD_of : ∀ y, Pin σB y → Pin σD y := by
    intro y h
    rw [hσD]
    exact childUpd_pin_of parent c t σB y h
  have hpinD_elim : ∀ y, Pin σD y → Pin σB y ∨ y = c := by
    intro y h
    rw [hσD] at h
    exact childUpd_pin_elim parent c t σB y h
  -- the invariant fields, one at a time
  have hVisOccD : ∀ y, Vis σD y → f.contains y = true := by
    intro y hy
    by_cases hv : Vis σ y
    · exact inv.visOcc y hv
    · exact sub.nvOcc y ⟨(hvisD y).mp hy, hv⟩
  have hFrameNumD : ∀ y, ¬ NV σ₀ σD y → σD.num y = σ₀.num y := by
    intro y hy
    rw [hnumD y, sub.frameNum y (fun h => hy (hNVD_sub y h)),
      inv.frameNum y (fun h => hy (hNVD_old y h))]
  have hFrameLowD : ∀ y, ¬ NV σ₀ σD y → σD.low y = σ₀.low y := by
    intro y hy
    have hyc : y ≠ c := fun he => hy (he ▸ hNVDc)
    rw [hlowDne y hyc, sub.frameLow y (fun h => hy (hNVD_sub y h)),
      inv.frameLow y (fun h => hy (hNVD_old y h))]
  have hFramePinD : ∀ y, ¬ NV σ₀ σD y → (Pin σD y ↔ Pin σ₀ y) := by
    intro y hy
    have hyc : y ≠ c := fun he => hy (he ▸ hNVDc)
    exact (hpinD_iff y hyc).trans ((sub.framePin y (fun h => hy (hNVD_sub y h))).trans
      (inv.framePin y (fun h => hy (hNVD_old y h))))
  have hPinVisD : ∀ y, Pin σD y → Vis σD y := by
    intro y hy
    rcases hpinD_elim y hy with h | h
    · exact (hvisD y).mpr (sub.pinVis y h)
    · rw [h]
      exact (hvisD c).mpr (sub.mono c inv.visc)
  have hWindowD : ∀ x, NV σ₀ σD x → σ₀.count ≤ σD.num x ∧ σD.num x < σD.count := by
    intro x hx
    rcases hNVD_split x hx with h | h
    · obtain ⟨h1, h2⟩ := inv.window x h
      rw [hnumD x, hcountD, hnumStable x h.1]
      exact ⟨h1, lt_of_lt_of_le h2 sub.countMono⟩
    · obtain ⟨h1, h2⟩ := sub.window x h
      rw [hnumD x, hcountD]
      exact ⟨le_trans (le_of_lt inv.countLb) h1, h2⟩
  have hGiD : ∀ y, Vis σD y → σD.num y < σD.count := by
    intro y hy
    rw [hnumD y, hcountD]
    exact sub.gi y ((hvisD y).mp hy)
  have hMclosureD : ∀ x, NV σ₀ σD x → x ≠ c → ∀ u, EF f x u → Vis σD u := by
    intro x hx hne u hu
    rcases hNVD_split x hx with h | h
    · exact (hvisD u).mpr (sub.mono u (inv.mclosure x h hne u hu))
    · exact (hvisD u).mpr (sub.closure x h u hu)
  have hWconnD : ∀ x, NV σ₀ σD x →
      Relation.ReflTransGen (fun p q => NV σ₀ σD p ∧ NV σ₀ σD q ∧ EF f p q) c x := by
    intro x hx
    rcases hNVD_split x hx with h | h
    · exact rtg_mono (fun p q hpq => ⟨hNVD_old p hpq.1, hNVD_old q hpq.2.1, hpq.2.2⟩)
        (inv.wconn x h)
    · refine Relation.ReflTransGen.head ⟨hNVDc, hNVDt, ht⟩ ?_
      exact rtg_mono (fun p q hpq => ⟨hNVD_sub p hpq.1, hNVD_sub q hpq.2.1, hpq.2.2⟩)
        (sub.wconn x h)
  have hCallParentD : ∀ x, NV σ₀ σD x → x ≠ c → ∃ w, NV σ₀ σD w ∧ EF f w x ∧
      σD.num w < σD.num x ∧ (∀ u, EF f x u → Vis σD u → σD.num u < σD.num x → w ≠ u →
        σD.low x ≤ σD.num u) := by
    intro x hx hne
    rcases hNVD_split x hx with h | h
    · obtain ⟨w, hw1, hw2, hw3, hw4⟩ := inv.callParent x h hne
      refine ⟨w, hNVD_old w hw1, hw2, ?_, ?_⟩
      · rw [hnumD w, hnumD x, hnumStable w hw1.1, hnumStable x h.1]
        exact hw3
      · intro u hu hvu hnu hwu
        rw [hlowDne x hne, hlowStable x h.1, hnumD u]
        rw [hnumD u, hnumD x, hnumStable x h.1] at hnu
        by_cases hvσ : Vis σ u
        · rw [hnumStable u hvσ] at hnu ⊢
          exact hw4 u hu hvσ hnu hwu
        · exfalso
          have h1 : σ.count ≤ σB.num u := (sub.window u ⟨(hvisD u).mp hvu, hvσ⟩).1
          have h2 : σ.num x < σ.count := inv.gi x h.1
          omega
    · obtain ⟨po, hpo1, hpo2, hpo3⟩ := sub.callParent x h
      by_cases hxt : x = t
      · rw [hpo1 hxt] at hpo3
        refine ⟨c, hNVDc, ?_, ?_, ?_⟩
        · rw [hxt]
          exact ht
        · rw [hnumD c, hnumD x, hnumBc, hxt, hnumBt]
          exact inv.countLb
        · intro u hu hvu hnu hcu
          rw [hlowDne x hne, hnumD u]
          rw [hnumD u, hnumD x] at hnu
          exact hpo3 u hu ((hvisD u).mp hvu) hnu
            (fun he => hcu (Option.some_injective _ he))
      · obtain ⟨w, hw1, hw2, hw3, hw4⟩ := hpo2 hxt
        rw [hw1] at hpo3
        refine ⟨w, hNVD_sub w hw2, hw3, ?_, ?_⟩
        · rw [hnumD w, hnumD x]
          exact hw4
        · intro u hu hvu hnu hwu
          rw [hlowDne x hne, hnumD u]
          rw [hnumD u, hnumD x] at hnu
          exact hpo3 u hu ((hvisD u).mp hvu) hnu
            (fun he => hwu (Option.some_injective _ he))
  have hLowLeMD : ∀ x, NV σ₀ σD x → x ≠ c → σD.low x ≤ σD.num x := by
    intro x hx hne
    rw [hlowDne x hne, hnumD x]
    rcases hNVD_split x hx with h | h
    · rw [hlowStable x h.1, hnumStable x h.1]
      exact inv.lowLeM x h hne
    · exact sub.lowLe x h
  have hLowChainD : ∀ x, NV σ₀ σD x → x ≠ c → σD.low c ≤ σD.low x := by
    intro x hx hne
    rw [hlowDc, hlowDne x hne]
    rcases hNVD_split x hx with h | h
    · rw [hlowStable x h.1]
      exact le_trans (min_le_left _ _) (by rw [hlowBc]; exact inv.lowChain x h hne)
    · exact le_trans (min_le_right _ _) (sub.lowChain x h)
  have hLowAttD : σD.low c = σ₀.count ∨
      ∃ a u, NV σ₀ σD a ∧ EF f a u ∧ Vis σD u ∧ σD.low c = σD.num u := by
    rcases le_total (σB.low c) (σB.low t) with hle | hle
    · rcases inv.lowAttained with h | ⟨a, u, ha, hu, hvu, heq⟩
      · left
        rw [hlowDc, min_eq_left hle, hlowBc]
        exact h
      · right
        refine ⟨a, u, hNVD_old a ha, hu, (hvisD u).mpr (sub.mono u hvu), ?_⟩
        rw [hlowDc, min_eq_left hle, hlowBc, hnumD u, hnumStable u hvu]
        exact heq
    · rcases sub.lowAttained with h | ⟨a, u, ha, hu, hvu, heq⟩
      · right
        refine ⟨c, t, hNVDc, ht, (hvisD t).mpr hWt.1, ?_⟩
        rw [hlowDc, min_eq_right hle, hnumD t]
        exact h
      · right
        refine ⟨a, u, hNVD_sub a ha, hu, (hvisD u).mpr hvu, ?_⟩
        rw [hlowDc, min_eq_right hle, hnumD u]
        exact heq
  have hMarkedMD : ∀ x, NV σ₀ σD x → x ≠ c → ¬ Pin σ₀ x → Pin σD x → SepAt f r x := by
    intro x hx hne hnp hpD
    have hpB : Pin σB x := (hpinD_elim x hpD).resolve_right hne
    rcases hNVD_split x hx with h | h
    · exact inv.markedM x h hne hnp ((hpinStable x h.1).mp hpB)
    · rcases sub.marked x h (fun hp => h.2 (inv.pinVis x hp)) hpB with ⟨_, habs, _⟩ | hsep
      · exact absurd habs (Option.some_ne_none c)
      · exact hsep
  have hMarkedCD : ¬ Pin σ₀ c → Pin σD c → parent ≠ none ∧ SepAt f r c := by
    intro hnp hpD
    rw [hσD] at hpD
    rcases childUpd_pin_c_elim parent c t σB hpD with hpB | ⟨hps, hge⟩
    · exact inv.markedC hnp ((hpinStable c inv.visc).mp hpB)
    · have hpne : parent ≠ none := by
        intro he
        rw [he] at hps
        simp at hps
      refine ⟨hpne, ?_⟩
      refine ⟨fun he => inv.ncv (by rw [he]; exact inv.visr0 hpne), t, NV σ σB, ht, hWt,
          fun hn => hn.2 inv.visc, fun hn => hn.2 inv.visr, ?_,
          fun a ha => sub.nvOcc a ha⟩
      intro a ha u hu
      rcases hsubnb a ha u hu with h | h | ⟨h0, hlt⟩
      · left; exact h
      · right; exact h
      · exfalso
        have h1 := hesc a ha u hu h0
        omega
  have hUnmarkedMD : ∀ x, NV σ₀ σD x → x ≠ c → ¬ Pin σD x →
      ∀ z, EF f x z → Vis σD z → σD.num x < σD.num z →
        ∃ e, Vis σD e ∧ σD.num e < σD.num x ∧ ConnAway f x z e := by
    intro x hx hne hnp z hz hvz hnz
    have hnpB : ¬ Pin σB x := fun hp => hnp (hpinD_of x hp)
    rcases hNVD_split x hx with h | h
    · by_cases hvσ : Vis σ z
      · have hnpσ : ¬ Pin σ x := fun hp => hnpB (sub.pinMono x hp)
        rw [hnumD x, hnumD z, hnumStable x h.1, hnumStable z hvσ] at hnz
        obtain ⟨e, he1, he2, he3⟩ := inv.unmarkedM x h hne hnpσ z hz hvσ hnz
        refine ⟨e, (hvisD e).mpr (sub.mono e he1), ?_, he3⟩
        rw [hnumD e, hnumD x, hnumStable e he1, hnumStable x h.1]
        exact he2
      · exact absurd (inv.mclosure x h hne z hz) hvσ
    · rw [hnumD x, hnumD z] at hnz
      obtain ⟨e, he1, he2, he3⟩ := sub.unmarked x h hnpB
        (fun hxe => Option.some_ne_none c hxe.2) z hz ((hvisD z).mp hvz) hnz
      refine ⟨e, (hvisD e).mpr he1, ?_, he3⟩
      rw [hnumD e, hnumD x]
      exact he2
  have hUnmarkedAccD : parent ≠ none → ¬ Pin σD c → ∀ z, NV σ₀ σD z → z ≠ c →
      ∃ e, Vis σD e ∧ σD.num e < σ₀.count ∧ ConnAway f c z e := by
    intro hpne hnpD z hz hzc
    have hnpB : ¬ Pin σB c := fun hp => hnpD (hpinD_of c hp)
    have hps : parent.isSome = true := by
      cases parent with
      | none => exact absurd rfl hpne
      | some p => rfl
    have hlowt : σB.low t < σ₀.count := by
      rcases Nat.lt_or_ge (σB.low t) σ₀.count with hlt | hge2
      · exact hlt
      · exact absurd (by
          rw [hσD]
          exact childUpd_pin_c parent c t σB ⟨hps, by rw [hnumBc]; exact hge2⟩) hnpD
    rcases hNVD_split z hz with h | h
    · have hnpσ : ¬ Pin σ c := fun hp => hnpB (sub.pinMono c hp)
      obtain ⟨e, he1, he2, he3⟩ := inv.unmarkedAcc hpne hnpσ z h hzc
      refine ⟨e, (hvisD e).mpr (sub.mono e he1), ?_, he3⟩
      rw [hnumD e, hnumStable e he1]
      exact he2
    · rcases sub.lowAttained with habs | ⟨a, u, ha, hu, hvu, heq⟩
      · exfalso
        rw [hnumBt] at habs
        have hcl := inv.countLb
        omega
      · have hnumu : σB.num u < σ₀.count := by rw [← heq]; exact hlowt
        have hac : a ≠ c := fun he => ha.2 (he ▸ inv.visc)
        have huc2 : u ≠ c := by
          intro he
          rw [he, hnumBc] at hnumu
          exact lt_irrefl _ hnumu
        have hocct : f.contains t = true := sub.nvOcc t hWt
        refine ⟨u, (hvisD u).mpr hvu, by rw [hnumD u]; exact hnumu, ?_⟩
        exact Relation.ReflTransGen.trans (connAway_symm hWF hocct (hWpath z h))
          (Relation.ReflTransGen.tail (hWpath a ha) ⟨hu, hac, huc2⟩)
  have hRootAccD : parent = none → k + 1 ≤ 1 →
      ∀ z1 z2, NV σ₀ σD z1 → NV σ₀ σD z2 → z1 ≠ c → z2 ≠ c → ConnAway f c z1 z2 := by
    intro hpn hk1 z1 z2 hz1 hz2 hz1c hz2c
    have hk0 : k = 0 := by omega
    have hsub1 : NV σ σB z1 := by
      rcases hNVD_split z1 hz1 with h | h
      · exact absurd (inv.rootEmpty hpn hk0 z1 h) hz1c
      · exact h
    have hsub2 : NV σ σB z2 := by
      rcases hNVD_split z2 hz2 with h | h
      · exact absurd (inv.rootEmpty hpn hk0 z2 h) hz2c
      · exact h
    have hocct : f.contains t = true := sub.nvOcc t hWt
    exact Relation.ReflTransGen.trans (connAway_symm hWF hocct (hWpath z1 hsub1))
      (hWpath z2 hsub2)
  have hFirstChD : parent = none → 1 ≤ k + 1 → ∃ y1, ∃ T : Hex → Prop, EF f c y1 ∧ T y1 ∧
      ¬ T c ∧ (∀ a, T a → ∀ u, EF f a u → u = c ∨ T u) ∧
      (∀ a, T a → f.contains a = true) ∧ (∀ a, T a → Vis σD a ∧ ¬ Vis σ₀ a) := by
    intro hpn _
    rcases Nat.eq_zero_or_pos k with hk0 | hk1
    · refine ⟨t, NV σ σB, ht, hWt, fun hn => hn.2 inv.visc, ?_,
        fun a ha => sub.nvOcc a ha, ?_⟩
      · intro a ha u hu
        rcases hsubnb a ha u hu with h | h | ⟨h0, hlt2⟩
        · left; exact h
        · right; exact h
        · exact absurd h0 (hempty hpn u)
      · intro a ha
        exact ⟨(hvisD a).mpr ha.1, fun h0 => ha.2 (inv.mono a h0)⟩
    · obtain ⟨y1, T, h1, h2, h3, h4, h5, h6⟩ := inv.firstCh hpn hk1
      exact ⟨y1, T, h1, h2, h3, h4, h5, fun a ha =>
        ⟨(hvisD a).mpr (sub.mono a (h6 a ha).1), (h6 a ha).2⟩⟩
  have hRootSepD : parent = none → 2 ≤ k + 1 → RootSepAt f c := by
    intro hpn hk2
    rcases Nat.lt_or_ge k 2 with hk | hk
    · obtain ⟨y1, T, h1, h2, h3, h4, h5, h6⟩ := inv.firstCh hpn (by omega)
      exact ⟨y1, t, T, h1, ht, h2, fun hTt => hnvt (h6 t hTt).1, h3, h4, h5⟩
    · exact inv.rootSepAcc hpn hk
  refine ⟨?_, ?_, ?_, ?_⟩
  · exact {
      visc := (hvisD c).mpr (sub.mono c inv.visc)
      ncv := inv.ncv
      visr := (hvisD r).mpr (sub.mono r inv.visr)
      visr0 := inv.visr0
      mono := fun y hy => (hvisD y).mpr (sub.mono y (inv.mono y hy))
      visOcc := hVisOccD
      frameNum := hFrameNumD
      frameLow := hFrameLowD
      framePin := hFramePinD
      pinMono := fun y hy => hpinD_of y (sub.pinMono y (inv.pinMono y hy))
      pinVis := hPinVisD
      countLb := by rw [hcountD]; exact lt_of_lt_of_le inv.countLb sub.countMono
      budget := by rw [hcountD, hfreeD]; exact le_trans sub.budget inv.budget
      numc := by rw [hnumD c]; exact hnumBc
      window := hWindowD
      gi := hGiD
      mclosure := hMclosureD
      wconn := hWconnD
      callParent := hCallParentD
      lowc_le := by rw [hlowDc, hlowBc]; exact le_trans (min_le_left _ _) inv.lowc_le
      lowLeM := hLowLeMD
      lowChain := hLowChainD
      lowAttained := hLowAttD
      markedM := hMarkedMD
      markedC := hMarkedCD
      unmarkedM := hUnmarkedMD
      unmarkedAcc := hUnmarkedAccD
      rootAcc := hRootAccD
      firstCh := hFirstChD
      rootSepAcc := hRootSepD
      rootEmpty := fun _ hk => absurd hk (Nat.succ_ne_zero k) }
  · exact {
      mono := fun y hy => (hvisD y).mpr (sub.mono y hy)
      numStable := fun y hy => (hnumD y).trans (hnumStable y hy)
      lowStable := fun y hy hne => (hlowDne y hne).trans (hlowStable y hy)
      pinStable := fun y hy hne => (hpinD_iff y hne).trans (hpinStable y hy)
      pinMonoAll := fun y hy => hpinD_of y (sub.pinMono y hy)
      countMono := by rw [hcountD]; exact sub.countMono
      lowcAnti := by rw [hlowDc, ← hlowBc]; exact min_le_left _ _ }
  · exact (hvisD t).mpr hWt.1
  · rw [hlowDc, hnumD t]
    exact le_trans (min_le_right _ _) (sub.lowLe t hWt)

theorem dfsBody_skip (f : Field) (fuel : Nat) (c : Hex) (parent : Option Hex)
    (σ : DescentRecord) (k : Nat) (t : Hex) (hp : parent = some t) :
    dfsBody f fuel c parent (σ, k) t = (σ, k) := by
  simp only [dfsBody]
  rw [if_pos hp]

theorem dfsBody_vis (f : Field) (fuel : Nat) (c : Hex) (parent : Option Hex)
    (σ : DescentRecord) (k : Nat) (t : Hex) (hp : parent ≠ some t) (hv : Vis σ t) :
    dfsBody f fuel c parent (σ, k) t =
      ({ σ with low := Function.update σ.low c (min (σ.low c) (σ.num t)) }, k) := by
  simp only [dfsBody]
  have hv2 : σ.visited.contains t = true := hv
  rw [if_neg hp, if_pos hv2]

theorem dfsBody_unvis (f : Field) (fuel : Nat) (c : Hex) (parent : Option Hex)
    (σ : DescentRecord) (k : Nat) (t : Hex) (hp : parent ≠ some t) (hv : ¬ Vis σ t)
    (htc : t ≠ c) :
    dfsBody f fuel c parent (σ, k) t =
      (childUpd parent c t (f.find_pins_recurse fuel t (some c) σ), k + 1) := by
  simp only [dfsBody]
  have hv2 : ¬ σ.visited.contains t = true := hv
  rw [if_neg hp, if_neg hv2]
  have hupd : Function.update (f.find_pins_recurse fuel t (some c) σ).low c
      (min ((f.find_pins_recurse fuel t (some c) σ).low c)
        ((f.find_pins_recurse fuel t (some c) σ).low t)) t =
      (f.find_pins_recurse fuel t (some c) σ).low t := Function.update_noteq htc _ _
  unfold childUpd
  rw [hupd]

/-- the visit-marking update a call applies on entry. -/
def visUpd (σ : DescentRecord) (hex : Hex) : DescentRecord :=
  { σ with
    visited := σ.visited.insert hex
    num := Function.update σ.num hex σ.count
    low := Function.update σ.low hex σ.count
    count := (σ.count + 1) % 2 ^ 8 }

/-- the root-marking wrap a call applies on exit. -/
def rootWrap (parent : Option Hex) (hex : Hex) (sk : DescentRecord × Nat) : DescentRecord :=
  if parent = none ∧ sk.2 > 1 then { sk.1 with pinned := sk.1.pinned.insert hex } else sk.1

theorem find_pins_recurse_eq (f : Field) (fuel : Nat) (hex : Hex) (parent : Option Hex)
    (σ₀ : DescentRecord) :
    f.find_pins_recurse (fuel + 1) hex parent σ₀ =
      rootWrap parent hex
        ((f.neighbours hex).foldl (dfsBody f fuel hex parent) (visUpd σ₀ hex, 0)) := rfl

theorem init_inv {f : Field} (hWF : FieldWF f) {r : Hex} {parent : Option Hex} {c : Hex}
    {σ₀ : DescentRecord}
    (hbud : σ₀.count + freeCount f σ₀ ≤ 255)
    (hocc : f.contains c = true) (hnv : ¬ Vis σ₀ c)
    (hvo : ∀ y, Vis σ₀ y → f.contains y = true)
    (hgi0 : ∀ y, Vis σ₀ y → σ₀.num y < σ₀.count)
    (hpv0 : ∀ y, Pin σ₀ y → Vis σ₀ y)
    (hparn : parent = none → c = r ∧ ∀ y, ¬ Vis σ₀ y)
    (hpars : ∀ v, parent = some v → Vis σ₀ v ∧ EF f v c ∧ Vis σ₀ r) :
    LoopInv f r parent c σ₀ (visUpd σ₀ c) 0 := by
  have hfree1 : 0 < freeCount f σ₀ := by
    unfold freeCount
    apply Finset.card_pos.mpr
    refine ⟨c, ?_⟩
    simp only [Finset.mem_filter, Finset.mem_range]
    exact ⟨occ_lt hWF hocc, hocc, hnv⟩
  have hnw : σ₀.count + 1 < 2 ^ 8 := by
    have h8 : (2 : Nat) ^ 8 = 256 := by norm_num
    omega
  have hcnt : (visUpd σ₀ c).count = σ₀.count + 1 := Nat.mod_eq_of_lt hnw
  have hvis1 : ∀ y, Vis (visUpd σ₀ c) y ↔ (y = c ∨ Vis σ₀ y) := by
    intro y
    constructor
    · intro hy
      exact Collection.contains_insert_elim σ₀.visited c y hy
    · intro hy
      rcases hy with he | hv
      · rw [he]
        exact Collection.contains_insert_self σ₀.visited c
      · exact Collection.contains_insert_of σ₀.visited c y hv
  have hNV1 : ∀ y, NV σ₀ (visUpd σ₀ c) y → y = c :=
    fun y hy => ((hvis1 y).mp hy.1).resolve_right hy.2
  have hnum1c : (visUpd σ₀ c).num c = σ₀.count := Function.update_same c _ σ₀.num
  have hnum1ne : ∀ y, y ≠ c → (visUpd σ₀ c).num y = σ₀.num y :=
    fun y hy => Function.update_noteq hy _ σ₀.num
  have hlow1c : (visUpd σ₀ c).low c = σ₀.count := Function.update_same c _ σ₀.low
  have hlow1ne : ∀ y, y ≠ c → (visUpd σ₀ c).low y = σ₀.low y :=
    fun y hy => Function.update_noteq hy _ σ₀.low
  exact {
    visc := (hvis1 c).mpr (Or.inl rfl)
    ncv := hnv
    visr := by
      cases hpm : parent with
      | none => exact (hvis1 r).mpr (Or.inl (hparn hpm).1.symm)
      | some v => exact (hvis1 r).mpr (Or.inr (hpars v hpm).2.2)
    visr0 := by
      intro hpne
      cases hpm : parent with
      | none => exact absurd hpm hpne
      | some v => exact (hpars v hpm).2.2
    mono := fun y hy => (hvis1 y).mpr (Or.inr hy)
    visOcc := by
      intro y hy
      rcases (hvis1 y).mp hy with he | hv
      · rw [he]; exact hocc
      · exact hvo y hv
    frameNum := fun y hy => hnum1ne y
      (fun he => hy ⟨(hvis1 y).mpr (Or.inl he), fun hv => hnv (he ▸ hv)⟩)
    frameLow := fun y hy => hlow1ne y
      (fun he => hy ⟨(hvis1 y).mpr (Or.inl he), fun hv => hnv (he ▸ hv)⟩)
    framePin := fun _ _ => Iff.rfl
    pinMono := fun _ hy => hy
    pinVis := fun y hy => (hvis1 y).mpr (Or.inr (hpv0 y hy))
    countLb := by
      rw [hcnt]
      exact Nat.lt_succ_self _
    budget := by
      have hflt : freeCount f (visUpd σ₀ c) < freeCount f σ₀ :=
        freeCount_lt (fun y hy => (hvis1 y).mpr (Or.inr hy)) c hocc (occ_lt hWF hocc) hnv
          ((hvis1 c).mpr (Or.inl rfl))
      rw [hcnt]
      omega
    numc := hnum1c
    window := by
      intro x hx
      rw [hNV1 x hx, hnum1c, hcnt]
      exact ⟨le_refl _, Nat.lt_succ_self _⟩
    gi := by
      intro y hy
      rcases (hvis1 y).mp hy with he | hv
      · rw [he, hnum1c, hcnt]
        exact Nat.lt_succ_self _
      · by_cases hyc : y = c
        · rw [hyc, hnum1c, hcnt]
          exact Nat.lt_succ_self _
        · rw [hnum1ne y hyc, hcnt]
          exact lt_trans (hgi0 y hv) (Nat.lt_succ_self _)
    mclosure := fun x hx hne => absurd (hNV1 x hx) hne
    wconn := by
      intro x hx
      rw [hNV1 x hx]
    callParent := fun x hx hne => absurd (hNV1 x hx) hne
    lowc_le := le_of_eq hlow1c
    lowLeM := fun x hx hne => absurd (hNV1 x hx) hne
    lowChain := fun x hx hne => absurd (hNV1 x hx) hne
    lowAttained := Or.inl hlow1c
    markedM := fun x hx hne => absurd (hNV1 x hx) hne
    markedC := fun hnp hp => absurd hp hnp
    unmarkedM := fun x hx hne => absurd (hNV1 x hx) hne
    unmarkedAcc := fun _ _ z hz hzc => absurd (hNV1 z hz) hzc
    rootAcc := fun _ _ z1 _ hz1 _ hz1c _ => absurd (hNV1 z1 hz1) hz1c
    firstCh := fun _ h1 => absurd h1 (by omega)
    rootSepAcc := fun _ h2 => absurd h2 (by omega)
    rootEmpty := fun _ _ z hz => hNV1 z hz }

theorem loop_fold {f : Field} (hWF : FieldWF f) {r : Hex} {parent : Option Hex} {c : Hex}
    {σ₀ : DescentRecord} (fuel : Nat)
    (hempty : parent = none → ∀ y, ¬ Vis σ₀ y)
    (hgi0 : ∀ y, Vis σ₀ y → σ₀.num y < σ₀.count)
    (hbud : σ₀.count + freeCount f σ₀ ≤ 255)
    (hrec : ∀ t σ, f.contains t = true → ¬ Vis σ t → freeCount f σ < fuel →
      σ.count + freeCount f σ ≤ 255 →
      (∀ y, Vis σ y → f.contains y = true) → (∀ y, Vis σ y → σ.num y < σ.count) →
      (∀ y, Pin σ y → Vis σ y) → Vis σ c → EF f c t → Vis σ r →
      DfsOut f r (some c) t σ (f.find_pins_recurse fuel t (some c) σ)) :
    ∀ l : List Hex, (∀ t ∈ l, EF f c t) →
    ∀ σ k, LoopInv f r parent c σ₀ σ k → freeCount f σ < fuel →
    (∀ v, parent = some v → Vis σ v) →
    LoopInv f r parent c σ₀ (l.foldl (dfsBody f fuel c parent) (σ, k)).1
      (l.foldl (dfsBody f fuel c parent) (σ, k)).2 ∧
    LoopStep c σ (l.foldl (dfsBody f fuel c parent) (σ, k)).1 ∧
    (∀ t ∈ l, Vis (l.foldl (dfsBody f fuel c parent) (σ, k)).1 t) ∧
    (∀ t ∈ l, parent ≠ some t →
      (l.foldl (dfsBody f fuel c parent) (σ, k)).1.low c ≤
        (l.foldl (dfsBody f fuel c parent) (σ, k)).1.num t) := by
  intro l
  induction l with
  | nil =>
    intro _ σ k inv _ _
    simp only [List.foldl_nil]
    exact ⟨inv, LoopStep.id c σ,
      fun t ht => absurd ht (List.not_mem_nil t), fun t ht => absurd ht (List.not_mem_nil t)⟩
  | cons hd tl ih =>
    intro hmem σ k inv hfc hpv
    have hhd : EF f c hd := hmem hd (List.mem_cons_self hd tl)
    have htlmem : ∀ t ∈ tl, EF f c t := fun t ht => hmem t (List.mem_cons_of_mem hd ht)
    rw [List.foldl_cons]
    by_cases hp : parent = some hd
    · rw [dfsBody_skip f fuel c parent σ k hd hp]
      obtain ⟨I2, S2, V2, L2⟩ := ih htlmem σ k inv hfc hpv
      refine ⟨I2, S2, ?_, ?_⟩
      · intro t htl
        rcases List.mem_cons.mp htl with he | he
        · rw [he]
          exact S2.mono hd (hpv hd hp)
        · exact V2 t he
      · intro t htl hptne
        rcases List.mem_cons.mp htl with he | he
        · exact absurd hp (he ▸ hptne)
        · exact L2 t he hptne
    · by_cases hv : Vis σ hd
      · rw [dfsBody_vis f fuel c parent σ k hd hp hv]
        obtain ⟨I1, S1, B1⟩ := visited_step inv hd hhd hv
        have hfc1 : freeCount f
            { σ with low := Function.update σ.low c (min (σ.low c) (σ.num hd)) } < fuel :=
          lt_of_le_of_lt (freeCount_mono S1.mono) hfc
        have hpv1 : ∀ v, parent = some v →
            Vis { σ with low := Function.update σ.low c (min (σ.low c) (σ.num hd)) } v :=
          fun v hv2 => S1.mono v (hpv v hv2)
        obtain ⟨I2, S2, V2, L2⟩ := ih htlmem _ k I1 hfc1 hpv1
        refine ⟨I2, S1.comp S2, ?_, ?_⟩
        · intro t htl
          rcases List.mem_cons.mp htl with he | he
          · rw [he]
            exact S2.mono hd (S1.mono hd hv)
          · exact V2 t he
        · intro t htl hptne
          rcases List.mem_cons.mp htl with he | he
          · rw [he]
            have h1 := S2.lowcAnti
            have h2 := S2.numStable hd (S1.mono hd hv)
            have h3 : ({ σ with
                low := Function.update σ.low c (min (σ.low c) (σ.num hd)) } :
                  DescentRecord).num hd = σ.num hd := rfl
            rw [h2, h3]
            exact le_trans h1 B1
          · exact L2 t he hptne
      · have hoc : f.contains hd = true := EF_occ hhd
        have htc : hd ≠ c := fun he => hv (he ▸ inv.visc)
        have sub : DfsOut f r (some c) hd σ (f.find_pins_recurse fuel hd (some c) σ) :=
          hrec hd σ hoc hv hfc (le_trans inv.budget hbud) inv.visOcc inv.gi inv.pinVis
            inv.visc hhd inv.visr
        rw [dfsBody_unvis f fuel c parent σ k hd hp hv htc]
        obtain ⟨I1, S1, V1, B1⟩ := child_step hWF inv hempty hgi0 hd hhd hv sub
        have hfc1 : freeCount f
            (childUpd parent c hd (f.find_pins_recurse fuel hd (some c) σ)) < fuel :=
          lt_of_le_of_lt (freeCount_mono S1.mono) hfc
        have hpv1 : ∀ v, parent = some v →
            Vis (childUpd parent c hd (f.find_pins_recurse fuel hd (some c) σ)) v :=
          fun v hv2 => S1.mono v (hpv v hv2)
        obtain ⟨I2, S2, V2, L2⟩ := ih htlmem _ (k + 1) I1 hfc1 hpv1
        refine ⟨I2, S1.comp S2, ?_, ?_⟩
        · intro t htl
          rcases List.mem_cons.mp htl with he | he
          · rw [he]
            exact S2.mono hd V1
          · exact V2 t he
        · intro t htl hptne
          rcases List.mem_cons.mp htl with he | he
          · rw [he]
            have h1 := S2.lowcAnti
            have h2 := S2.numStable hd V1
            rw [h2]
            exact le_trans h1 B1
          · exact L2 t he hptne

theorem rootWrap_visited (parent : Option Hex) (c : Hex) (σF : DescentRecord) (kF : Nat) :
    (rootWrap parent c (σF, kF)).visited = σF.visited := by
  unfold rootWrap
  split <;> rfl

theorem rootWrap_num (parent : Option Hex) (c : Hex) (σF : DescentRecord) (kF : Nat) :
    (rootWrap parent c (σF, kF)).num = σF.num := by
  unfold rootWrap
  split <;> rfl

theorem rootWrap_low (parent : Option Hex) (c : Hex) (σF : DescentRecord) (kF : Nat) :
    (rootWrap parent c (σF, kF)).low = σF.low := by
  unfold rootWrap
  split <;> rfl

theorem rootWrap_count (parent : Option Hex) (c : Hex) (σF : DescentRecord) (kF : Nat) :
    (rootWrap parent c (σF, kF)).count = σF.count := by
  unfold rootWrap
  split <;> rfl

theorem rootWrap_pin_of (parent : Option Hex) (c : Hex) (σF : DescentRecord) (kF : Nat)
    (y : Hex) (h : Pin σF y) : Pin (rootWrap parent c (σF, kF)) y := by
  unfold Pin at h ⊢
  unfold rootWrap
  split
  · exact Collection.contains_insert_of _ c y h
  · exact h

theorem rootWrap_pin_elim (parent : Option Hex) (c : Hex) (σF : DescentRecord) (kF : Nat)
    (y : Hex) (h : Pin (rootWrap parent c (σF, kF)) y) : Pin σF y ∨ y = c := by
  unfold rootWrap Pin at h
  split at h
  · rcases Collection.contains_insert_elim _ c y h with he | he
    · right; exact he
    · left; exact he
  · left; exact h

theorem rootWrap_pin_c (parent : Option Hex) (c : Hex) (σF : DescentRecord) (kF : Nat)
    (hpn : parent = none) (hk : kF > 1) : Pin (rootWrap parent c (σF, kF)) c := by
  unfold rootWrap Pin
  rw [if_pos ⟨hpn, hk⟩]
  exact Collection.contains_insert_self _ c

theorem rootWrap_pin_c_elim (parent : Option Hex) (c : Hex) (σF : DescentRecord) (kF : Nat)
    (h : Pin (rootWrap parent c (σF, kF)) c) : Pin σF c ∨ (parent = none ∧ kF > 1) := by
  unfold rootWrap Pin at h
  split at h
  · rename_i hcond
    right
    exact hcond
  · left; exact h

theorem wrap_out {f : Field} {r : Hex} {parent : Option Hex} {c : Hex}
    {σ₀ σF : DescentRecord} {kF : Nat}
    (hgi0 : ∀ y, Vis σ₀ y → σ₀.num y < σ₀.count)
    (INV : LoopInv f r parent c σ₀ σF kF)
    (VALL : ∀ t, EF f c t → Vis σF t)
    (LOWN : ∀ t, EF f c t → parent ≠ some t → σF.low c ≤ σF.num t) :
    DfsOut f r parent c σ₀ (rootWrap parent c (σF, kF)) := by
  set σR := rootWrap parent c (σF, kF) with hR
  have hvisR : ∀ y, Vis σR y ↔ Vis σF y := by
    intro y
    unfold Vis
    rw [hR, rootWrap_visited]
  have hnumR : ∀ y, σR.num y = σF.num y := fun y => by rw [hR, rootWrap_num]
  have hlowR : ∀ y, σR.low y = σF.low y := fun y => by rw [hR, rootWrap_low]
  have hcountR : σR.count = σF.count := by rw [hR, rootWrap_count]
  have hpinR_of : ∀ y, Pin σF y → Pin σR y := by
    intro y h
    rw [hR]
    exact rootWrap_pin_of parent c σF kF y h
  have hpinR_elim : ∀ y, Pin σR y → Pin σF y ∨ y = c := by
    intro y h
    rw [hR] at h
    exact rootWrap_pin_elim parent c σF kF y h
  have hNVR : ∀ y, NV σ₀ σR y ↔ NV σ₀ σF y := by
    intro y
    exact ⟨fun h => ⟨(hvisR y).mp h.1, h.2⟩, fun h => ⟨(hvisR y).mpr h.1, h.2⟩⟩
  exact {
    mono := fun y hy => (hvisR y).mpr (INV.mono y hy)
    visc := (hvisR c).mpr INV.visc
    nvOcc := fun x hx => INV.visOcc x ((hvisR x).mp hx.1)
    frameNum := fun y hy => by
      rw [hnumR y]
      exact INV.frameNum y (fun h => hy ((hNVR y).mpr h))
    frameLow := fun y hy => by
      rw [hlowR y]
      exact INV.frameLow y (fun h => hy ((hNVR y).mpr h))
    framePin := fun y hy => by
      have hyc : y ≠ c :=
        fun he => hy ((hNVR y).mpr (by rw [he]; exact ⟨INV.visc, INV.ncv⟩))
      have h1 : Pin σR y ↔ Pin σF y :=
        ⟨fun h => (hpinR_elim y h).resolve_right hyc, hpinR_of y⟩
      exact h1.trans (INV.framePin y (fun h => hy ((hNVR y).mpr h)))
    pinMono := fun y hy => hpinR_of y (INV.pinMono y hy)
    pinVis := fun y hy => by
      rcases hpinR_elim y hy with h | h
      · exact (hvisR y).mpr (INV.pinVis y h)
      · rw [h]
        exact (hvisR c).mpr INV.visc
    countMono := by
      rw [hcountR]
      exact le_of_lt INV.countLb
    budget := by
      rw [hcountR,
        freeCount_congr (show σR.visited = σF.visited from by rw [hR, rootWrap_visited])]
      exact INV.budget
    numc := by
      rw [hnumR c]
      exact INV.numc
    window := fun x hx => by
      rw [hnumR x, hcountR]
      exact INV.window x ((hNVR x).mp hx)
    gi := fun y hy => by
      rw [hnumR y, hcountR]
      exact INV.gi y ((hvisR y).mp hy)
    closure := fun x hx t htf => by
      by_cases hxc : x = c
      · rw [hxc] at htf
        exact (hvisR t).mpr (VALL t htf)
      · exact (hvisR t).mpr (INV.mclosure x ((hNVR x).mp hx) hxc t htf)
    wconn := fun x hx => by
      refine rtg_mono ?_ (INV.wconn x ((hNVR x).mp hx))
      intro p q hpq
      exact ⟨(hNVR p).mpr hpq.1, (hNVR q).mpr hpq.2.1, hpq.2.2⟩
    callParent := fun x hx => by
      by_cases hxc : x = c
      · refine ⟨parent, fun _ => rfl, fun h => absurd hxc h, ?_⟩
        intro t htf hvt hnt hpt
        rw [hlowR x, hnumR t, hxc]
        rw [hxc] at htf
        exact LOWN t htf hpt
      · obtain ⟨w, hw1, hw2, hw3, hw4⟩ := INV.callParent x ((hNVR x).mp hx) hxc
        refine ⟨some w, fun he => absurd he hxc,
          fun _ => ⟨w, rfl, (hNVR w).mpr hw1, hw2, ?_⟩, ?_⟩
        · rw [hnumR w, hnumR x]
          exact hw3
        · intro t htf hvt hnt hpt
          rw [hlowR x, hnumR t]
          rw [hnumR t, hnumR x] at hnt
          exact hw4 t htf ((hvisR t).mp hvt) hnt (fun he => hpt (by rw [he]))
    lowLe := fun x hx => by
      by_cases hxc : x = c
      · rw [hlowR x, hnumR x, hxc, INV.numc]
        exact INV.lowc_le
      · rw [hlowR x, hnumR x]
        exact INV.lowLeM x ((hNVR x).mp hx) hxc
    lowChain := fun x hx => by
      by_cases hxc : x = c
      · rw [hlowR x, hlowR c, hxc]
      · rw [hlowR x, hlowR c]
        exact INV.lowChain x ((hNVR x).mp hx) hxc
    lowAttained := by
      rcases INV.lowAttained with h | ⟨a, u, ha, hu, hvu, heq⟩
      · left
        rw [hlowR c, hnumR c, INV.numc]
        exact h
      · right
        refine ⟨a, u, (hNVR a).mpr ha, hu, (hvisR u).mpr hvu, ?_⟩
        rw [hlowR c, hnumR u]
        exact heq
    marked := fun x hx hnp hpR => by
      by_cases hxc : x = c
      · have hpRc : Pin σR c := by rw [hxc] at hpR; exact hpR
        rw [hR] at hpRc
        rcases rootWrap_pin_c_elim parent c σF kF hpRc with hpF | ⟨hpn, hk⟩
        · have h2 := INV.markedC (by rw [hxc] at hnp; exact hnp) hpF
          refine Or.inr ?_
          rw [hxc]
          exact h2.2
        · exact Or.inl ⟨hxc, hpn, by rw [hxc]; exact INV.rootSepAcc hpn (by omega)⟩
      · have hpF : Pin σF x := (hpinR_elim x hpR).resolve_right hxc
        exact Or.inr (INV.markedM x ((hNVR x).mp hx) hxc hnp hpF)
    unmarked := fun x hx hnpR hguard z hz hvz hnz => by
      have hnpF : ¬ Pin σF x := fun h => hnpR (hpinR_of x h)
      by_cases hxc : x = c
      · have hpne : parent ≠ none := fun h => hguard ⟨hxc, h⟩
        have hvzF : Vis σF z := (hvisR z).mp hvz
        rw [hnumR x, hnumR z, hxc, INV.numc] at hnz
        have hz0 : ¬ Vis σ₀ z := by
          intro h0
          have h1 : σF.num z = σ₀.num z := INV.frameNum z (fun hn => hn.2 h0)
          have h2 : σ₀.num z < σ₀.count := hgi0 z h0
          omega
        have hzc : z ≠ c := by
          intro he
          rw [he, INV.numc] at hnz
          exact lt_irrefl _ hnz
        obtain ⟨e, he1, he2, he3⟩ := INV.unmarkedAcc hpne
          (fun h => hnpF (by rw [hxc]; exact h)) z ⟨hvzF, hz0⟩ hzc
        refine ⟨e, (hvisR e).mpr he1, ?_, ?_⟩
        · rw [hnumR e, hnumR x, hxc, INV.numc]
          exact he2
        · rw [hxc]
          exact he3
      · rw [hnumR x, hnumR z] at hnz
        obtain ⟨e, he1, he2, he3⟩ :=
          INV.unmarkedM x ((hNVR x).mp hx) hxc hnpF z hz ((hvisR z).mp hvz) hnz
        refine ⟨e, (hvisR e).mpr he1, ?_, he3⟩
        rw [hnumR e, hnumR x]
        exact he2
    rootUnmarked := fun hpn hnpc z1 z2 hz1 hz2 hz1c hz2c => by
      have hk1 : kF ≤ 1 := by
        by_contra hk
        push_neg at hk
        exact hnpc (by rw [hR]; exact rootWrap_pin_c parent c σF kF hpn hk)
      exact INV.rootAcc hpn hk1 z1 z2 ((hNVR z1).mp hz1) ((hNVR z2).mp hz2) hz1c hz2c }

theorem find_pins_recurse_bundle {f : Field} (hWF : FieldWF f) (r : Hex) :
    ∀ (fuel : Nat) (c : Hex) (parent : Option Hex) (σ₀ : DescentRecord),
    freeCount f σ₀ < fuel → σ₀.count + freeCount f σ₀ ≤ 255 →
    f.contains c = true → ¬ Vis σ₀ c →
    (∀ y, Vis σ₀ y → f.contains y = true) →
    (∀ y, Vis σ₀ y → σ₀.num y < σ₀.count) →
    (∀ y, Pin σ₀ y → Vis σ₀ y) →
    (parent = none → c = r ∧ ∀ y, ¬ Vis σ₀ y) →
    (∀ v, parent = some v → Vis σ₀ v ∧ EF f v c ∧ Vis σ₀ r) →
    DfsOut f r parent c σ₀ (f.find_pins_recurse fuel c parent σ₀) := by
  intro fuel
  induction fuel with
  | zero =>
    intro c parent σ₀ hfc
    exact absurd hfc (Nat.not_lt_zero _)
  | succ fuel ihf =>
    intro c parent σ₀ hfc hbud hocc hnv hvo hgi0 hpv0 hparn hpars
    rw [find_pins_recurse_eq]
    have I0 : LoopInv f r parent c σ₀ (visUpd σ₀ c) 0 :=
      init_inv hWF hbud hocc hnv hvo hgi0 hpv0 hparn hpars
    have hfc1 : freeCount f (visUpd σ₀ c) < fuel := by
      have h1 : freeCount f (visUpd σ₀ c) < freeCount f σ₀ :=
        freeCount_lt I0.mono c hocc (occ_lt hWF hocc) hnv I0.visc
      omega
    have hempty : parent = none → ∀ y, ¬ Vis σ₀ y := fun hp => (hparn hp).2
    have hrec : ∀ t σ, f.contains t = true → ¬ Vis σ t → freeCount f σ < fuel →
        σ.count + freeCount f σ ≤ 255 →
        (∀ y, Vis σ y → f.contains y = true) → (∀ y, Vis σ y → σ.num y < σ.count) →
        (∀ y, Pin σ y → Vis σ y) → Vis σ c → EF f c t → Vis σ r →
        DfsOut f r (some c) t σ (f.find_pins_recurse fuel t (some c) σ) := by
      intro t σ ht hnvt hfcσ hbudσ hvoσ hgiσ hpvσ hvc hef hvr
      refine ihf t (some c) σ hfcσ hbudσ ht hnvt hvoσ hgiσ hpvσ
        (fun h => absurd h (Option.some_ne_none c)) ?_
      intro v hv
      have hcv : c = v := Option.some_injective _ hv
      rw [← hcv]
      exact ⟨hvc, hef, hvr⟩
    have hpv : ∀ v, parent = some v → Vis (visUpd σ₀ c) v :=
      fun v hv => I0.mono v (hpars v hv).1
    obtain ⟨INV, LS, VALL, LOWN⟩ := loop_fold hWF fuel hempty hgi0 hbud hrec
      (f.neighbours c) (fun t ht => ht) (visUpd σ₀ c) 0 I0 hfc1 hpv
    exact wrap_out hgi0 INV (fun t htf => VALL t htf) (fun t htf => LOWN t htf)

theorem EF_irrefl {f : Field} (hWF : FieldWF f) (x : Nat) : ¬ EF f x x := by
  intro h
  have hlt : x < hex.consts.SIZE := occ_lt hWF (EF_occ h)
  have hs : hex.consts.SIZE = 1024 := by decide
  rw [hs] at hlt
  have hmem := EF_hexmem h
  simp only [hex.neighbours, Direction.all, List.map_cons, List.map_nil, List.mem_cons,
    List.not_mem_nil, or_false] at hmem
  rcases hmem with h1 | h1 | h1 | h1 | h1 | h1
  · rw [hexAdd_val x hlt .East 1 (by decide)] at h1
    have h2 : x = (x + 1) % 2 ^ 10 := h1
    omega
  · rw [hexAdd_val x hlt .Southeast 33 (by decide)] at h1
    have h2 : x = (x + 33) % 2 ^ 10 := h1
    omega
  · rw [hexAdd_val x hlt .Southwest 32 (by decide)] at h1
    have h2 : x = (x + 32) % 2 ^ 10 := h1
    omega
  · rw [hexAdd_val x hlt .West 1023 (by decide)] at h1
    have h2 : x = (x + 1023) % 2 ^ 10 := h1
    omega
  · rw [hexAdd_val x hlt .Northwest 991 (by decide)] at h1
    have h2 : x = (x + 991) % 2 ^ 10 := h1
    omega
  · rw [hexAdd_val x hlt .Northeast 992 (by decide)] at h1
    have h2 : x = (x + 992) % 2 ^ 10 := h1
    omega

theorem mem_lookup_isSome {α β : Type} [BEq α] [LawfulBEq α] (l : List (α × β)) (e : α × β)
    (h : e ∈ l) : (l.lookup e.1).isSome = true := by
  induction l with
  | nil => exact absurd h (List.not_mem_nil e)
  | cons hd tl ih =>
    rw [List.lookup]
    cases hbe : e.1 == hd.1 with
    | true => rfl
    | false =>
      rcases List.mem_cons.mp h with he | he
      · rw [he] at hbe
        simp at hbe
      · exact ih he

/-- C3 (amended): for every non-empty field with at most 254 occupied hexes
whose occupied hexes form a connected graph - below the wrap threshold of the
source's `u8` visit counter - `Field::find_pins` returns exactly the
articulation points of the occupied subgraph: the pinned collection contains
a hex iff removing that hex would disconnect the occupied hexes (the
Hopcroft-Tarjan root and `low`/`num` marking rules of the single DFS are
verified against this removal-disconnects specification). -/
theorem c3_find_pins_articulation_amended (f : Field) (hWF : FieldWF f) (hne : f.map ≠ [])
    (hsmall : f.map.length ≤ 254) (hconn : connectedField f) (x : Hex) :
    (f.find_pins).contains x = true ↔ articulation f x := by
  obtain ⟨start, l, hm⟩ : ∃ e l, f.map = e :: l := by
    cases hmm : f.map with
    | nil => exact absurd hmm hne
    | cons e l => exact ⟨e, l, rfl⟩
  have hhead : f.map.head? = some start := by rw [hm]; rfl
  set c := start.1 with hc
  set σ₀ : DescentRecord := { DescentRecord.default with count := 1 } with hσ0
  have hfp : f.find_pins = (f.find_pins_recurse 1025 c none σ₀).pinned := by
    unfold Field.find_pins
    rw [hhead]
  set σfin := f.find_pins_recurse 1025 c none σ₀ with hfin
  have hnew : ∀ y, ¬ Vis σ₀ y := by
    intro y hy
    have h0 : Nat.testBit 0 y = true := hy
    rw [Nat.zero_testBit] at h0
    exact Bool.false_ne_true h0
  have hnpin0 : ∀ y, ¬ Pin σ₀ y := by
    intro y hy
    have h0 : Nat.testBit 0 y = true := hy
    rw [Nat.zero_testBit] at h0
    exact Bool.false_ne_true h0
  have hocc : f.contains c = true := by
    rw [hWF.mark_iff]
    exact mem_lookup_isSome f.map start (by rw [hm]; exact List.mem_cons_self start l)
  have hfuel : freeCount f σ₀ < 1025 := by
    have h1 : freeCount f σ₀ ≤ hex.consts.SIZE := by
      unfold freeCount
      exact le_trans (Finset.card_filter_le _ _) (le_of_eq (Finset.card_range _))
    have h2 : hex.consts.SIZE = 1024 := by decide
    omega
  have hbud : σ₀.count + freeCount f σ₀ ≤ 255 := by
    have h1 := freeCount_le_len hWF σ₀
    have h2 : σ₀.count = 1 := rfl
    omega
  have OUT : DfsOut f c none c σ₀ σfin :=
    find_pins_recurse_bundle hWF c 1025 c none σ₀ hfuel hbud hocc (hnew c)
      (fun y hy => absurd hy (hnew y)) (fun y hy => absurd hy (hnew y))
      (fun y hy => absurd hy (hnpin0 y))
      (fun _ => ⟨rfl, hnew⟩) (fun v hv => Option.noConfusion hv)
  have hVisConn : ∀ z, Conn f c z → Vis σfin z := by
    intro z hcz
    induction hcz with
    | refl => exact OUT.visc
    | tail hp hstep ih => exact OUT.closure _ ⟨ih, hnew _⟩ _ hstep
  have hVisAll : ∀ z, f.contains z = true → Vis σfin z :=
    fun z hz => hVisConn z (hconn c z hocc hz)
  constructor
  · intro hpin
    rw [hfp] at hpin
    have hpin2 : Pin σfin x := hpin
    have hvx : Vis σfin x := OUT.pinVis x hpin2
    have hNx : NV σ₀ σfin x := ⟨hvx, hnew x⟩
    have hoccx : f.contains x = true := OUT.nvOcc x hNx
    rcases OUT.marked x hNx (hnpin0 x) hpin2 with ⟨hxc, _, hroot⟩ | hsep
    · obtain ⟨y1, y2, T, he1, he2, hT1, hT2, hTx, hclosed, hoccT⟩ := hroot
      refine ⟨hoccx, y1, y2, hoccT y1 hT1, EF_occ he2, ?_, ?_, ?_⟩
      · exact fun he => hTx (he ▸ hT1)
      · exact fun he => EF_irrefl hWF x (he ▸ he2)
      · exact sep_of_closed f x T hclosed hT1 hT2
    · obtain ⟨hxr, y, T, hey, hTy, hTx, hTr, hclosed, hoccT⟩ := hsep
      refine ⟨hoccx, y, c, hoccT y hTy, hocc, ?_, ?_, ?_⟩
      · exact fun he => hTx (he ▸ hTy)
      · exact fun he => hxr he.symm
      · exact sep_of_closed f x T hclosed hTy hTr
  · intro hart
    obtain ⟨hoccx, a, b, hoa, hob, hax, hbx, hnc⟩ := hart
    by_contra hnp
    rw [hfp] at hnp
    have hnp2 : ¬ Pin σfin x := hnp
    apply hnc
    by_cases hxc : x = c
    · have hncp : ¬ Pin σfin c := by rw [hxc] at hnp2; exact hnp2
      have h := OUT.rootUnmarked rfl hncp a b ⟨hVisAll a hoa, hnew a⟩
        ⟨hVisAll b hob, hnew b⟩ (fun he => hax (by rw [hxc]; exact he))
        (fun he => hbx (by rw [hxc]; exact he))
      rw [hxc]
      exact h
    · have key : ∀ n z, f.contains z = true → z ≠ x → σfin.num z < n → ConnAway f x z c := by
        intro n
        induction n with
        | zero =>
          intro z _ _ h
          exact absurd h (Nat.not_lt_zero _)
        | succ n ihn =>
          intro z hz hzx hn
          by_cases hzc : z = c
          · rw [hzc]
            exact Relation.ReflTransGen.refl
          · obtain ⟨po, hpo1, hpo2, hpo3⟩ := OUT.callParent z ⟨hVisAll z hz, hnew z⟩
            obtain ⟨w, hw1, hw2, hw3, hw4⟩ := hpo2 hzc
            by_cases hwx : w = x
            · have hefxz : EF f x z := by rw [← hwx]; exact hw3
              have hnumxz : σfin.num x < σfin.num z := by rw [← hwx]; exact hw4
              obtain ⟨e, he1, he2, he3⟩ := OUT.unmarked x ⟨hVisAll x hoccx, hnew x⟩ hnp2
                (fun hh => hxc hh.1) z hefxz (hVisAll z hz) hnumxz
              have hex2 : e ≠ x := by
                intro he
                rw [he] at he2
                exact lt_irrefl _ he2
              have hocce : f.contains e = true := OUT.nvOcc e ⟨he1, hnew e⟩
              exact Relation.ReflTransGen.trans he3 (ihn e hocce hex2 (by omega))
            · have hocw : f.contains w = true := OUT.nvOcc w hw2
              exact Relation.ReflTransGen.head ⟨EF_symm hWF hocw hw3, hzx, hwx⟩
                (ihn w hocw hwx (by omega))
      have hca : ConnAway f x a c := key (σfin.num a + 1) a hoa hax (Nat.lt_succ_self _)
      have hcb : ConnAway f x b c := key (σfin.num b + 1) b hob hbx (Nat.lt_succ_self _)
      exact Relation.ReflTransGen.trans hca (connAway_symm hWF hob hcb)

/-- a concrete three-hex chain 1 - 2 - 3 (hex 2 is its articulation point). -/
def c3field : Field := { map := [(1, 1), (2, 1), (3, 1)], markers := 14 }

theorem c3field_lt4 : ∀ y : Nat, c3field.contains y = true → y < 4 := by
  intro y hy
  by_contra hge
  push_neg at hge
  have hb : Nat.testBit 14 y = false :=
    Nat.testBit_lt_two_pow (lt_of_lt_of_le (by norm_num) (Nat.pow_le_pow_right (by norm_num) hge))
  have hy2 : Nat.testBit 14 y = true := hy
  rw [hb] at hy2
  exact Bool.false_ne_true hy2

theorem c3field_wf : FieldWF c3field := by
  constructor
  · intro e he
    simp only [c3field, List.mem_cons, List.not_mem_nil, or_false] at he
    rcases he with he | he | he <;> rw [he] <;> decide
  · intro h
    constructor
    · intro hc
      have h4 : h < 4 := c3field_lt4 h hc
      interval_cases h
      · exact absurd hc (by decide)
      · decide
      · decide
      · decide
    · intro hl
      obtain ⟨b, hb⟩ := lookup_isSome_mem c3field.map h hl
      simp only [c3field, List.mem_cons, List.not_mem_nil, or_false] at hb
      rcases hb with hb | hb | hb
      · have h1 : h = 1 := congrArg Prod.fst hb
        rw [h1]; decide
      · have h1 : h = 2 := congrArg Prod.fst hb
        rw [h1]; decide
      · have h1 : h = 3 := congrArg Prod.fst hb
        rw [h1]; decide

theorem c3field_conn : connectedField c3field := by
  have hmem : ∀ y : Nat, c3field.contains y = true → y = 1 ∨ y = 2 ∨ y = 3 := by
    intro y hy
    have h4 : y < 4 := c3field_lt4 y hy
    interval_cases y
    · exact absurd hy (by decide)
    · exact Or.inl rfl
    · exact Or.inr (Or.inl rfl)
    · exact Or.inr (Or.inr rfl)
  have e12 : EF c3field 1 2 := by decide
  have e21 : EF c3field 2 1 := by decide
  have e23 : EF c3field 2 3 := by decide
  have e32 : EF c3field 3 2 := by decide
  intro a b ha hb
  rcases hmem a ha with ha1 | ha1 | ha1 <;> rcases hmem b hb with hb1 | hb1 | hb1 <;>
    rw [ha1, hb1]
  · exact Relation.ReflTransGen.refl
  · exact Relation.ReflTransGen.single e12
  · exact Relation.ReflTransGen.tail (Relation.ReflTransGen.single e12) e23
  · exact Relation.ReflTransGen.single e21
  · exact Relation.ReflTransGen.refl
  · exact Relation.ReflTransGen.single e23
  · exact Relation.ReflTransGen.tail (Relation.ReflTransGen.single e32) e21
  · exact Relation.ReflTransGen.single e32
  · exact Relation.ReflTransGen.refl

theorem c3_find_pins_articulation_amended_witness : articulation c3field 2 :=
  (c3_find_pins_articulation_amended c3field c3field_wf (by decide) (by decide)
    c3field_conn 2).mp (by decide)

/-! The original C3 claim quantifies over *every* non-empty connected field.
The source's visit counter is a `u8`, so on a connected field of 256 occupied
hexes the counter wraps: the 256th hex visited gets `num = 0`, the zero
propagates through every `low`-merge on the way back up, and the
`low >= num` pin tests all fail.  `cpath` is such a field: a chordless
256-hex path (eight alternate rows of the hex grid linked end to start)
whose map head - the DFS start - is its middle hex, so the wrap lands at the
far end of the second branch and unpins the whole first branch. -/

def cpath : Field := { map := [(223, 1), (256, 1), (257, 1), (258, 1), (259, 1), (260, 1), (261, 1), (262, 1), (263, 1), (264, 1), (265, 1), (266, 1), (267, 1), (268, 1), (269, 1), (270, 1), (271, 1), (272, 1), (273, 1), (274, 1), (275, 1), (276, 1), (277, 1), (278, 1), (279, 1), (280, 1), (281, 1), (282, 1), (283, 1), (284, 1), (285, 1), (286, 1), (287, 1), (320, 1), (321, 1), (322, 1), (323, 1), (324, 1), (325, 1), (326, 1), (327, 1), (328, 1), (329, 1), (330, 1), (331, 1), (332, 1), (333, 1), (334, 1), (335, 1), (336, 1), (337, 1), (338, 1), (339, 1), (340, 1), (341, 1), (342, 1), (343, 1), (344, 1), (345, 1), (346, 1), (347, 1), (348, 1), (349, 1), (350, 1), (351, 1), (384, 1), (385, 1), (386, 1), (387, 1), (388, 1), (389, 1), (390, 1), (391, 1), (392, 1), (393, 1), (394, 1), (395, 1), (396, 1), (397, 1), (398, 1), (399, 1), (400, 1), (401, 1), (402, 1), (403, 1), (404, 1), (405, 1), (406, 1), (407, 1), (408, 1), (409, 1), (410, 1), (411, 1), (412, 1), (413, 1), (414, 1), (415, 1), (448, 1), (449, 1), (450, 1), (451, 1), (452, 1), (453, 1), (454, 1), (455, 1), (456, 1), (457, 1), (458, 1), (459, 1), (460, 1), (461, 1), (462, 1), (463, 1), (464, 1), (465, 1), (466, 1), (467, 1), (468, 1), (469, 1), (470, 1), (471, 1), (472, 1), (473, 1), (474, 1), (475, 1), (476, 1), (477, 1), (478, 1), (479, 1), (0, 1), (1, 1), (2, 1), (3, 1), (4, 1), (5, 1), (6, 1), (7, 1), (8, 1), (9, 1), (10, 1), (11, 1), (12, 1), (13, 1), (14, 1), (15, 1), (16, 1), (17, 1), (18, 1), (19, 1), (20, 1), (21, 1), (22, 1), (23, 1), (24, 1), (25, 1), (26, 1), (27, 1), (28, 1), (29, 1), (30, 1), (31, 1), (64, 1), (65, 1), (66, 1), (67, 1), (68, 1), (69, 1), (70, 1), (71, 1), (72, 1), (73, 1), (74, 1), (75, 1), (76, 1), (77, 1), (78, 1), (79, 1), (80, 1), (81, 1), (82, 1), (83, 1), (84, 1), (85, 1), (86, 1), (87, 1), (88, 1), (89, 1), (90, 1), (91, 1), (92, 1), (93, 1), (94, 1), (95, 1), (128, 1), (129, 1), (130, 1), (131, 1), (132, 1), (133, 1), (134, 1), (135, 1), (136, 1), (137, 1), (138, 1), (139, 1), (140, 1), (141, 1), (142, 1), (143, 1), (144, 1), (145, 1), (146, 1), (147, 1), (148, 1), (149, 1), (150, 1), (151, 1), (152, 1), (153, 1), (154, 1), (155, 1), (156, 1), (157, 1), (158, 1), (159, 1), (192, 1), (193, 1), (194, 1), (195, 1), (196, 1), (197, 1), (198, 1), (199, 1), (200, 1), (201, 1), (202, 1), (203, 1), (204, 1), (205, 1), (206, 1), (207, 1), (208, 1), (209, 1), (210, 1), (211, 1), (212, 1), (213, 1), (214, 1), (215, 1), (216, 1), (217, 1), (218, 1), (219, 1), (220, 1), (221, 1), (222, 1)], markers := 3121748549589153507255220667214744133005063442417264435278786581112765113115492710770662312255297115872319494912905282327171554901817584187867135 }

/-- the 256 occupied hexes of `cpath`, in path order, after the end hex `0`. -/
def cpathTail : List Hex := [1, 2, 3, 4, 5, 6, 7, 8, 9, 10, 11, 12, 13, 14, 15, 16, 17, 18, 19, 20, 21, 22, 23, 24, 25, 26, 27, 28, 29, 30, 31, 64, 65, 66, 67, 68, 69, 70, 71, 72, 73, 74, 75, 76, 77, 78, 79, 80, 81, 82, 83, 84, 85, 86, 87, 88, 89, 90, 91, 92, 93, 94, 95, 128, 129, 130, 131, 132, 133, 134, 135, 136, 137, 138, 139, 140, 141, 142, 143, 144, 145, 146, 147, 148, 149, 150, 151, 152, 153, 154, 155, 156, 157, 158, 159, 192, 193, 194, 195, 196, 197, 198, 199, 200, 201, 202, 203, 204, 205, 206, 207, 208, 209, 210, 211, 212, 213, 214, 215, 216, 217, 218, 219, 220, 221, 222, 223, 256, 257, 258, 259, 260, 261, 262, 263, 264, 265, 266, 267, 268, 269, 270, 271, 272, 273, 274, 275, 276, 277, 278, 279, 280, 281, 282, 283, 284, 285, 286, 287, 320, 321, 322, 323, 324, 325, 326, 327, 328, 329, 330, 331, 332, 333, 334, 335, 336, 337, 338, 339, 340, 341, 342, 343, 344, 345, 346, 347, 348, 349, 350, 351, 384, 385, 386, 387, 388, 389, 390, 391, 392, 393, 394, 395, 396, 397, 398, 399, 400, 401, 402, 403, 404, 405, 406, 407, 408, 409, 410, 411, 412, 413, 414, 415, 448, 449, 450, 451, 452, 453, 454, 455, 456, 457, 458, 459, 460, 461, 462, 463, 464, 465, 466, 467, 468, 469, 470, 471, 472, 473, 474, 475, 476, 477, 478, 479]

set_option maxRecDepth 8000 in
theorem cpath_wf : FieldWF cpath := by
  constructor
  · intro e he
    have hall : ∀ e2 ∈ cpath.map, e2.1 < hex.consts.SIZE := by decide
    exact hall e he
  · intro h
    constructor
    · intro hc
      have h480 : h < 480 := by
        by_contra hge
        push_neg at hge
        have hM : cpath.markers < 2 ^ 480 := by
          show (3121748549589153507255220667214744133005063442417264435278786581112765113115492710770662312255297115872319494912905282327171554901817584187867135 : Nat) < 2 ^ 480
          norm_num
        have hb : Nat.testBit cpath.markers h = false :=
          Nat.testBit_lt_two_pow
            (lt_of_lt_of_le hM (Nat.pow_le_pow_right (by norm_num) hge))
        have hc2 : Nat.testBit cpath.markers h = true := hc
        rw [hb] at hc2
        exact Bool.false_ne_true hc2
      have hall : ∀ h2 : Nat, h2 < 480 → cpath.contains h2 = true →
          (cpath.map.lookup h2).isSome = true := by decide
      exact hall h h480 hc
    · intro hl
      obtain ⟨b, hb⟩ := lookup_isSome_mem cpath.map h hl
      have hkeys : ∀ e ∈ cpath.map, cpath.contains e.1 = true := by decide
      exact hkeys (h, b) hb

set_option maxRecDepth 8000 in
theorem cpath_conn : connectedField cpath := by
  have hocc0 : cpath.contains 0 = true := by decide
  have hchain : chainB cpath 0 cpathTail = true := by decide
  have hsub : ∀ e ∈ cpath.map, e.1 ∈ (0 :: cpathTail) := by decide
  have h0 : ∀ y, cpath.contains y = true → Conn cpath 0 y := by
    intro y hy
    obtain ⟨b, hb⟩ := lookup_isSome_mem cpath.map y ((cpath_wf.mark_iff y).mp hy)
    rcases List.mem_cons.mp (hsub (y, b) hb) with he | he
    · rw [show y = 0 from he]
      exact Relation.ReflTransGen.refl
    · exact chainB_conn cpathTail 0 hchain y he
  intro a b ha hb
  exact Relation.ReflTransGen.trans (conn_symm cpath_wf hocc0 (h0 a ha)) (h0 b hb)

set_option maxRecDepth 150000 in
/-- C3 (counterexample): the claim's domain is every non-empty connected
field, but on the chordless 256-hex path `cpath` the source's `u8` visit
counter wraps to zero at the 256th visited hex, the zero poisons the
`low`-merges back up the spine, and `find_pins` leaves hex `1` unpinned even
though removing hex `1` disconnects its neighbour `0` from the rest - so
`find_pins` does *not* return the articulation points of every connected
field.  (A debug build panics on the same overflow instead.) -/
theorem c3_find_pins_overflow :
    cpath.map ≠ [] ∧ connectedField cpath ∧ articulation cpath 1 ∧
      (cpath.find_pins).contains 1 = false := by
  refine ⟨by decide, cpath_conn, ?_, by decide⟩
  refine ⟨by decide, 0, 2, by decide, by decide, by decide, by decide, ?_⟩
  have hnb : cpath.neighbours 0 = [1] := by decide
  refine sep_of_closed cpath 1 (fun z => z = 0) ?_ rfl (by decide)
  intro a ha t htf
  have ha2 : a = 0 := ha
  rw [ha2] at htf
  have hm : t ∈ cpath.neighbours 0 := htf
  rw [hnb] at hm
  left
  exact List.mem_singleton.mp hm

/-! ## The pouch (`src/hive/piece/pouch.rs`) -/

structure ExpansionOptions where
  ladybug : Bool
  mosquito : Bool
  pillbug : Bool
deriving Repr, DecidableEq

def ExpansionOptions.default : ExpansionOptions :=
  { ladybug := false, mosquito := false, pillbug := false }

def ExpansionOptions.all : ExpansionOptions :=
  { ladybug := true, mosquito := true, pillbug := true }

structure Options where
  tournament : Bool
  expansions : ExpansionOptions
deriving Repr, DecidableEq

def Options.default : Options :=
  { tournament := false, expansions := ExpansionOptions.default }

def Options.all : Options :=
  { tournament := true, expansions := ExpansionOptions.all }

/-- The `[[u8; 8]; 2]` / `[u8; 8]` arrays of the pouch are modelled as
`List Nat` rows indexed by `Player as u8` and `Bug as u8`. -/
structure Pouch where
  pieces : List (List Nat)
  totals : List Nat
deriving Repr, DecidableEq

namespace Pouch

/-- `Pouch::_extents`. -/
def extentsOf (options : Options) : List Nat :=
  let exp := options.expansions
  let base : List Nat := [3, 2, 3, 0, 0, 0, 1, 2]
  let mask : List Nat :=
    [0, 0, 0, if exp.ladybug then 1 else 0, if exp.mosquito then 1 else 0,
      if exp.pillbug then 1 else 0, 0, 0]
  List.zipWith (· + ·) base mask

/-- `Pouch::new`. -/
def new (options : Options) : Pouch :=
  let extents := extentsOf options
  { pieces := [extents, extents], totals := extents }

/-- `Pouch::hand`. -/
def hand (p : Pouch) (player : Player) : List Nat :=
  (p.pieces.getD player.val [])

/-- `Pouch::peek`: the lowest remaining discriminator, if any. -/
def peek (p : Pouch) (player : Player) (kind : Bug) : Option Nat :=
  let remaining := (p.pieces.getD player.val []).getD kind.val 0
  if remaining > 0 then
    some (1 + (p.totals.getD kind.val 0) - remaining)
  else
    none

/-- `Pouch::put`. -/
def put (p : Pouch) (piece : Piece) : Pouch :=
  { p with pieces := p.pieces.modify (fun row => row.modify (· + 1) piece.kind.val) piece.player.val }

/-- `Pouch::take`. -/
def take (p : Pouch) (player : Player) (kind : Bug) : Pouch × Option Piece :=
  match p.peek player kind with
  | some num =>
    ({ p with pieces := p.pieces.modify (fun row => row.modify (· - 1) kind.val) player.val },
      some { player := player, kind := kind, num := num })
  | none => (p, none)

end Pouch

/-! ## Moves and history (`src/hive/notation/moves.rs`, `src/hive/board/history.rs`) -/

structure NextTo where
  piece : Piece
  direction : Option Direction
deriving Repr, DecidableEq

inductive Move where
  | Place (piece : Piece) (next_to : Option NextTo)
  | Move (piece : Piece) (next_to : NextTo)
  | Pass
deriving Repr, DecidableEq

structure Patch where
  piece : Piece
  src : Option Hex
  dst : Hex
deriving Repr, DecidableEq

structure HEntry where
  mv : Move
  patch : Option Patch
  prev_stunned : Option Hex
deriving Repr, DecidableEq

/-- `History`: the `past`/`future` `Vec`s are stored most-recent-first, so
the `Vec::last` of the source is the list head here. -/
structure History where
  past : List HEntry
  future : List HEntry
deriving Repr, DecidableEq

namespace History

def default : History := { past := [], future := [] }

/-- `History::prev` (`past.last()`). -/
def prev (h : History) : Option HEntry := h.past.head?

/-- `History::next` (`future.last()`). -/
def next (h : History) : Option HEntry := h.future.head?

/-- `History::len`. -/
def len (h : History) : Nat := h.past.length

/-- `History::turn`. -/
def turn (h : History) : Nat := h.past.length

/-- `History::redo`. -/
def redo (h : History) : History :=
  match h.future with
  | mv :: rest => { past := mv :: h.past, future := rest }
  | [] => h

/-- `History::undo`. -/
def undo (h : History) : History :=
  match h.past with
  | mv :: rest => { past := rest, future := mv :: h.future }
  | [] => h

/-- `History::play`. -/
def play (h : History) (entry : HEntry) : History :=
  match h.next with
  | some mv =>
    if mv = entry then h.redo
    else { past := entry :: h.past, future := [] }
  | none => { h with past := entry :: h.past }

/-- `History::last_hex`: the most recent destination recorded for a piece. -/
def last_hex (h : History) (piece : Piece) : Option Hex :=
  ((h.past.find? (fun p => p.patch.isSome && (p.patch.map Patch.piece == some piece)))).map
    (fun p => (p.patch.map Patch.dst).getD 0)

end History

/-! ## Zobrist hashing (`src/hive/board/zobrist.rs`)

The `ZobristTable` carries a single `u128` key, modelled as a `Nat` with
explicit `% 2 ^ 128` where a Rust `u128` operation could wrap. -/

namespace zobrist

def HEIGHTS : Nat := piece.consts.HEIGHT_RANGE
def HEXES : Nat := hex.consts.SIZE
def PIECES : Nat := piece.consts.COUNT

def BITSTRING_MASK : Nat := 2 ^ 16 - 1

def OFFSET_LAST : Nat := 0x40
def OFFSET_LAST_VALID : Nat := 0x61
def OFFSET_STUN : Nat := 0x50
def OFFSET_STUN_VALID : Nat := 0x62
def OFFSET_PLAYER : Nat := 0x60
def EXTENT_PLAYER : Nat := 0x1
def EXTENT_HEX : Nat := 2 ^ 16 - 1
def EXTENT_OPT : Nat := 1

/-- `u128::rotate_left`. -/
def rotl128 (x n : Nat) : Nat := ((x <<< n) ||| (x >>> (128 - n))) % 2 ^ 128

/-- Rust `!x` on `u128`. -/
def comp128 (x : Nat) : Nat := (2 ^ 128 - 1) ^^^ (x % 2 ^ 128)

/-- `ZobristTable::hash`: XOR a piece at a hex and height into the key. -/
def hashPiece (z : Nat) (piece : Piece) (at_ : Hex) (height : Nat) : Nat :=
  let location := HEIGHTS * at_ + height
  let index := PIECES * location + piece.index
  z ^^^ (bitstrings index &&& BITSTRING_MASK)

/-- `ZobristTable::last`: record the pillbug-immune hex. -/
def setLast (z : Nat) (dst : Option Hex) : Nat :=
  let z := z &&& rotl128 (comp128 EXTENT_HEX) OFFSET_LAST
  let z := z ||| ((dst.getD 0 <<< OFFSET_LAST) % 2 ^ 128)
  let z := z &&& rotl128 (comp128 EXTENT_OPT) OFFSET_LAST_VALID
  z ||| (((if dst.isSome then 1 else 0) <<< OFFSET_LAST_VALID) % 2 ^ 128)

/-- `ZobristTable::stun`: record the pillbug-stunned hex. -/
def setStun (z : Nat) (dst : Option Hex) : Nat :=
  let z := z &&& rotl128 (comp128 EXTENT_HEX) OFFSET_STUN
  let z := z ||| ((dst.getD 0 <<< OFFSET_STUN) % 2 ^ 128)
  let z := z &&& rotl128 (comp128 EXTENT_OPT) OFFSET_STUN_VALID
  z ||| (((if dst.isSome then 1 else 0) <<< OFFSET_STUN_VALID) % 2 ^ 128)

/-- `zobrist::to_move`. -/
def to_move (z : Nat) : Player :=
  Player.new ((z >>> OFFSET_PLAYER) &&& EXTENT_PLAYER)

/-- `ZobristTable::player`: declare the player to move (note the `|=`). -/
def setPlayer (z : Nat) (player : Player) : Nat :=
  z ||| ((player.val <<< OFFSET_PLAYER) % 2 ^ 128)

/-- `ZobristTable::next`. -/
def next (z : Nat) : Nat := setPlayer z (to_move z).flip

/-- `ZobristTable::prev` (implemented as `next`). -/
def prev (z : Nat) : Nat := next z

end zobrist

/-! ## Results that can also panic

Rust code reached by the claims contains `unwrap`/`expect` calls on values
that are `None` for some inputs; a panic aborts the process.  `RO α` is a
Rust `Result<α>` extended with that third outcome. -/

inductive RO (α : Type) where
  | ok (a : α)
  | err (e : Error)
  | panicked
deriving Repr, DecidableEq

namespace RO

def bind {α β : Type} : RO α → (α → RO β) → RO β
  | .ok a, f => f a
  | .err e, _ => .err e
  | .panicked, _ => .panicked

instance : Monad RO where
  pure := .ok
  bind := RO.bind

def ofResult {α : Type} : Result α → RO α
  | .ok a => .ok a
  | .error e => .err e

def ofOption {α : Type} : Option α → RO α
  | some a => .ok a
  | none => .panicked

/-- `map_err` on the non-panic outcomes. -/
def mapErr {α : Type} (f : Error → Error) : RO α → RO α
  | .ok a => .ok a
  | .err e => .err (f e)
  | .panicked => .panicked

/-- `or_else` on the non-panic outcomes. -/
def orElse {α : Type} (x : RO α) (f : Error → RO α) : RO α :=
  match x with
  | .ok a => .ok a
  | .err e => f e
  | .panicked => .panicked

/-- iterator `.any` over effectful predicates, short-circuiting like the
Rust iterator adapters (a panic inside an unvisited element never fires). -/
def anyM {α : Type} (l : List α) (f : α → RO Bool) : RO Bool :=
  match l with
  | [] => .ok false
  | a :: rest => do
    let b ← f a
    if b then pure true else anyM rest f

def isOk {α : Type} : RO α → Bool
  | .ok _ => true
  | _ => false

end RO

/-! ## The board (`src/hive/board/mod.rs`, `ensures.rs`, `checks.rs`) -/

/-- `Turn::from(u8)`. -/
structure Turn where
  player : Player
  turn : Nat
deriving Repr, DecidableEq

def Turn.ofNat (value : Nat) : Turn :=
  { player := Player.new (value &&& 0x1), turn := (value >>> 1) + 1 }

structure Board where
  field : Field
  history : History
  immune : Option Hex
  options : Options
  /-- `pieces[28]`: the hex of each piece by `Piece::index` -/
  pieces : List (Option Hex)
  pinned : Collection
  pouch : Pouch
  /-- `stacks[SIZE]` -/
  stackAt : Hex → Stack
  stunned : Option Hex
  /-- the current key of the `ZobristTable` -/
  zobrist : Nat

namespace Board

/-- `Board::new`. -/
def new (options : Options) : Board :=
  { field := Field.empty
    history := History.default
    immune := none
    options := options
    pieces := List.replicate piece.consts.COUNT none
    pinned := Collection.new
    pouch := Pouch.new options
    stackAt := fun _ => 0
    stunned := none
    zobrist := 0 }

/-- `Board::location`. -/
def location (b : Board) (piece : Piece) : Option Hex :=
  (b.pieces.getD piece.index none)

/-- `Board::placed`. -/
def placed (b : Board) (piece : Piece) : Bool :=
  (b.location piece).isSome

/-- `Board::occupied`. -/
def occupied (b : Board) (hex : Hex) : Bool :=
  !(b.stackAt hex).isEmpty

/-- `Board::top`. -/
def top (b : Board) (hex : Hex) : Option Piece :=
  (b.stackAt hex).top.toPiece

/-- `Board::on_top`. -/
def on_top (b : Board) (piece : Piece) : Bool :=
  match b.location piece with
  | some hex => (b.stackAt hex).top == Token.ofPiece piece
  | none => false

/-- `Board::stacked`. -/
def stacked (b : Board) (piece : Piece) : Bool :=
  match b.location piece with
  | some hex => (b.stackAt hex).height > 1
  | none => false

/-- `Board::queen`. -/
def queen (b : Board) (player : Player) : Option Hex :=
  b.location { player := player, kind := .Queen, num := 1 }

/-- `Board::turn`. -/
def turn (b : Board) : Nat := b.history.turn

/-- `Board::to_move`. -/
def to_move (b : Board) : Player := (Turn.ofNat b.turn).player

/-- `Board::pieces_neighbouring`. -/
def pieces_neighbouring (b : Board) (hx : Hex) : List Piece :=
  (hex.neighbours hx).filterMap b.top

/-- `Board::neighbours`: the pieces atop the occupied neighbours of a hex. -/
def neighboursOf (b : Board) (hex : Hex) : List Piece :=
  (b.field.neighbours hex).filterMap b.top

/-- `Board::is_pinned`; panics (`top(..).unwrap()`) on a board whose `pieces`
index points at an empty stack. -/
def is_pinned (b : Board) (piece : Piece) : Option Bool :=
  match b.location piece with
  | none => some false
  | some hex =>
    match b.top hex with
    | none => none
    | some token =>
      if token ≠ piece then some true
      else if (b.stackAt hex).height > 1 then some false
      else some (b.pinned.contains hex)

/-- `Board::resolve`; `None` models the `expect` panic on an unplaced
reference piece. -/
def resolve (b : Board) (next_to : Option NextTo) : Option Hex :=
  match next_to with
  | some n =>
    (b.location n.piece).map (fun dest =>
      match n.direction with
      | some d => hexAdd dest d
      | none => dest)
  | none => some hex.consts.ROOT

/-- `Board::can_throw_another`. -/
def can_throw_another (b : Board) (piece : Piece) : RO Bool :=
  if !b.placed piece then .ok false
  else
    match b.location piece with
    | none => .panicked
    | some hx =>
      if (b.stunned.map (fun hex => hex == hx)).getD false || piece.player != b.to_move then
        .ok false
      else if piece.kind = .Pillbug then .ok true
      else if piece.kind = .Mosquito then
        .ok ((b.pieces_neighbouring hx).any (fun p => p.kind = .Pillbug))
      else .ok false

/-- `Board::ensure_active`: the piece must not stand on the stunned hex;
panics if the piece is unplaced (`pieces[..].unwrap()`). -/
def ensure_active (b : Board) (piece : Piece) : RO Unit :=
  match b.location piece with
  | none => .panicked
  | some hex =>
    if b.stunned.isSome && b.stunned.getD 0 == hex then
      .err (Error.new .InvalidState)
    else
      .ok ()

/-- `Board::ensure_correct_player`. -/
def ensure_correct_player (b : Board) (piece : Piece) : Result Unit :=
  if piece.player ≠ b.to_move then .error (Error.new .InvalidState) else .ok ()

/-- `Board::ensure_crawl`. -/
def ensure_crawl (b : Board) (src dst : Hex) (ghosting : Bool) : Result Unit := do
  b.field.ensure_constant_contact src dst ghosting
  b.field.ensure_freedom_to_move src dst ghosting

/-- `Board::ensure_drop`. -/
def ensure_drop (b : Board) (piece : Piece) (hx : Hex) : Result Unit :=
  let neighbours := b.neighboursOf hx
  if b.field.len > 2 then
    if (neighbours.find? (fun n => n.player == piece.player)).isNone then
      .error (Error.new .InvalidState)
    else if (neighbours.find? (fun n => n.player != piece.player)).isSome then
      .error (Error.new .InvalidState)
    else
      .ok ()
  else if b.field.len = 1 && !(hex.neighbours hex.consts.ROOT).contains hx then
    .error (Error.new .InvalidState)
  else
    .ok ()

/-- `Board::ensure_ground_movement`. -/
def ensure_ground_movement (b : Board) (src dst : Hex) : Result Unit :=
  let base := Error.new .LogicError
  let height_f := (b.field.height src).getD 0
  let height_t := ((b.field.height dst).map (· + 1)).getD 1
  if height_f > 1 then .error ((Error.new .LogicError).chain base)
  else if height_t > 1 then .error ((Error.new .LogicError).chain base)
  else .ok ()

/-- `Board::ensure_lowest_discriminator`. -/
def ensure_lowest_discriminator (b : Board) (piece : Piece) : Result Unit :=
  match b.pouch.peek piece.player piece.kind with
  | none => .error (Error.new .InvalidState)
  | some real_num =>
    if real_num ≠ piece.num then .error (Error.new .MismatchError) else .ok ()

/-- `Board::ensure_no_stack`; the error-message formatting unwraps the top
token as a piece, which panics on a malformed stack. -/
def ensure_no_stack (b : Board) (hx : Hex) : RO Unit :=
  if (b.stackAt hx).height ≠ 0 then
    match (b.stackAt hx).top.toPiece with
    | some _ => .err (Error.new .InvalidState)
    | none => .panicked
  else
    .ok ()

/-- `Board::ensure_one_hive`. -/
def ensure_one_hive (b : Board) (piece : Piece) : RO Unit :=
  match b.is_pinned piece with
  | none => .panicked
  | some true => .err (Error.new .OneHivePrinciple)
  | some false => .ok ()

/-- `Board::ensure_on_top`. -/
def ensure_on_top (b : Board) (piece : Piece) : Result Unit :=
  if !b.on_top piece then .error (Error.new .InvalidState) else .ok ()

/-- `Board::ensure_pieces_can_move`. -/
def ensure_pieces_can_move (b : Board) : Result Unit :=
  let turn := Turn.ofNat b.turn
  if (b.queen turn.player).isNone then .error (Error.new .InvalidState) else .ok ()

/-- `Board::ensure_placed`. -/
def ensure_placed (b : Board) (piece : Piece) : Result Unit :=
  if !b.placed piece then .error (Error.new .InvalidState) else .ok ()

/-- `Board::ensure_queen_placement`. -/
def ensure_queen_placement (b : Board) (piece : Piece) : Result Unit :=
  let turn := Turn.ofNat b.turn
  if turn.turn = 1 ∧ piece.kind = .Queen then
    .error (Error.new .InvalidState)
  else if turn.turn = 4 ∧ piece.kind ≠ .Queen ∧ (b.queen turn.player).isNone then
    .error (Error.new .InvalidState)
  else
    .ok ()

/-- `Board::ensure_unplaced`. -/
def ensure_unplaced (b : Board) (piece : Piece) : Result Unit :=
  if b.placed piece then .error (Error.new .InvalidState) else .ok ()

/-- `Board::failed_as`. -/
def failed_as (_b : Board) (_kind : Bug) : Error := Error.new .LogicError

/-- the straight-line scan of `check_grasshopper` (`while occupied`); the
Rust loop would diverge on a fully occupied ray, which at most 28 placed
pieces can never produce, so fuel `1025` is inexhaustible. -/
def jump_end (b : Board) : Nat → Hex → Direction → Hex
  | 0, hx, _ => hx
  | fuel + 1, hx, d => if b.occupied hx then b.jump_end fuel (hexAdd hx d) d else hx

/-- `Board::check_ant`. -/
def check_ant (b : Board) (src dst : Hex) : Result Unit := do
  b.ensure_ground_movement src dst
  b.field.ensure_perimeter_crawl src dst none

/-- `Board::check_beetle`. -/
def check_beetle (b : Board) (src dst : Hex) : Result Unit :=
  b.ensure_crawl src dst false

/-- `Board::check_grasshopper`. -/
def check_grasshopper (b : Board) (src dst : Hex) : Result Unit := do
  b.ensure_ground_movement src dst
  if (Direction.all.filter (fun d => b.occupied (hexAdd src d))).any
      (fun d => b.jump_end 1025 src d == dst) then
    .ok ()
  else
    .error (Error.new .LogicError)

/-- `Board::check_ladybug`. -/
def check_ladybug (b : Board) (src dst : Hex) : Result Unit := do
  b.ensure_ground_movement src dst
  let steps :=
    ((b.field.neighbours src).filterMap (fun onto =>
        if (b.ensure_crawl src onto false).isOk then
          some ((b.field.neighbours onto).map (fun h => (onto, h)))
        else none)).flatten
  if (steps.filter (fun s => s.2 ≠ src)).any (fun s =>
      (b.ensure_crawl s.1 s.2 true).isOk && (b.ensure_crawl s.2 dst true).isOk) then
    .ok ()
  else
    .error (Error.new .LogicError)

/-- `Board::check_pillbug`. -/
def check_pillbug (b : Board) (src dst : Hex) : Result Unit := do
  b.ensure_ground_movement src dst
  b.ensure_crawl src dst false

/-- `Board::check_queen`. -/
def check_queen (b : Board) (src dst : Hex) : Result Unit := do
  b.ensure_ground_movement src dst
  b.ensure_crawl src dst false

/-- `Board::check_spider`. -/
def check_spider (b : Board) (src dst : Hex) : Result Unit := do
  b.ensure_ground_movement src dst
  b.field.ensure_perimeter_crawl src dst (some 3)

/-- the dispatch of `check_motion_as` restricted to non-mosquito kinds
(the mosquito's own case only consults these). -/
def check_motion_nonmosquito (b : Board) (kind : Bug) (src dst : Hex) : Result Unit :=
  match kind with
  | .Ant => b.check_ant src dst
  | .Beetle => b.check_beetle src dst
  | .Grasshopper => b.check_grasshopper src dst
  | .Ladybug => b.check_ladybug src dst
  | .Pillbug => b.check_pillbug src dst
  | .Queen => b.check_queen src dst
  | .Spider => b.check_spider src dst
  | .Mosquito => .error (Error.new .LogicError)

/-- `Board::check_mosquito` (`mosquito_inner`); panics when the source hex
is not in the field (`height(from).unwrap()`). -/
def check_mosquito (b : Board) (src dst : Hex) : RO Unit :=
  match b.field.height src with
  | none => .panicked
  | some height =>
    if height > 1 then
      .ofResult ((b.check_beetle src dst).mapError (fun e => e.chain (b.failed_as .Beetle)))
    else if (b.pieces_neighbouring src).any (fun p =>
        p.kind ≠ .Mosquito && (b.check_motion_nonmosquito p.kind src dst).isOk) then
      .ok ()
    else
      .err (Error.new .LogicError)

/-- `Board::check_motion_as`. -/
def check_motion_as (b : Board) (kind : Bug) (src dst : Hex) : RO Unit :=
  match kind with
  | .Mosquito => (b.check_mosquito src dst).mapErr (fun e => e.chain (b.failed_as kind))
  | k => .ofResult ((b.check_motion_nonmosquito k src dst).mapError
      (fun e => e.chain (b.failed_as kind)))

/-- `Board::check_motion`; panics if the piece is unplaced. -/
def check_motion (b : Board) (piece : Piece) (dst : Hex) : RO Unit :=
  match b.location piece with
  | none => .panicked
  | some src => b.check_motion_as piece.kind src dst

/-- `Board::check_throw_via`; panics if the throwing piece is unplaced. -/
def check_throw_via (b : Board) (src : Hex) (via : Piece) (dst : Hex) : RO Unit :=
  let base := Error.new .InvalidMove
  match b.location via with
  | none => .panicked
  | some intermediate =>
    .ofResult ((do
      b.ensure_ground_movement src dst
      b.ensure_crawl src intermediate false
      b.ensure_crawl intermediate dst true : Result Unit).mapError (fun e => e.chain base))

/-- `Board::check_throw`. -/
def check_throw (b : Board) (src dst : Hex) : RO Unit := do
  let base := Error.new .LogicError
  if (b.immune.map (fun hex => hex == src)).getD false then
    .err ((Error.new .ImmuneToPillbug).chain base)
  else do
    let any ← RO.anyM (b.pieces_neighbouring src) (fun piece => do
      let throws ← b.can_throw_another piece
      if throws then pure (b.check_throw_via src piece dst).isOk else pure false)
    if !any then .err ((Error.new .LogicError).chain base)
    else .ok ()

/-- `Board::can_move`. -/
def can_move (b : Board) (piece : Piece) (hx : Hex) : RO Unit := do
  let base := Error.new .InvalidMove
  (do
    (RO.ofResult (b.ensure_pieces_can_move) : RO Unit)
    RO.ofResult (b.ensure_placed piece)
    RO.ofResult (b.ensure_on_top piece)
    b.ensure_active piece : RO Unit).mapErr (fun e => e.chain base)
  match b.location piece with
  | none => .panicked
  | some src =>
    (b.ensure_one_hive piece).mapErr (fun e => e.chain base) >>= fun _ =>
      (b.check_motion piece hx).orElse (fun mv_err =>
        (b.check_throw src hx).mapErr (fun e => e.chain (mv_err.chain base)))

/-- `Board::can_place`. -/
def can_place (b : Board) (piece : Piece) (hx : Hex) : RO Unit :=
  let base := Error.new .InvalidMove
  (do
    (RO.ofResult (b.ensure_queen_placement piece) : RO Unit)
    RO.ofResult (b.ensure_correct_player piece)
    RO.ofResult (b.ensure_unplaced piece)
    RO.ofResult (b.ensure_lowest_discriminator piece)
    b.ensure_no_stack hx
    RO.ofResult (b.ensure_drop piece hx) : RO Unit).mapErr (fun e => e.chain base)

/-- `Board::insert_unchecked`. -/
def insert_unchecked (b : Board) (piece : Piece) (hx : Hex) : Board :=
  let b := { b with pouch := (b.pouch.take piece.player piece.kind).1 }
  let b := { b with
    pieces := b.pieces.set piece.index (some hx)
    field := b.field.push hx }
  let token := Token.ofPiece piece
  let b := { b with stackAt := Function.update b.stackAt hx ((b.stackAt hx).push token) }
  let height := (b.stackAt hx).height
  { b with zobrist := zobrist.hashPiece b.zobrist piece hx height }

/-- `Board::remove_unchecked`; panics if the piece is unplaced. -/
def remove_unchecked (b : Board) (piece : Piece) : Option Board :=
  match b.location piece with
  | none => none
  | some hex =>
    let height := (b.stackAt hex).height
    let b := { b with zobrist := zobrist.hashPiece b.zobrist piece hex height }
    let b := { b with stackAt := Function.update b.stackAt hex ((b.stackAt hex).pop) }
    let b := { b with
      pieces := b.pieces.set piece.index none
      field := b.field.pop hex }
    some { b with pouch := b.pouch.put piece }

/-- `Board::set_immune`. -/
def set_immune (b : Board) (hex : Option Hex) : Board :=
  let b := { b with immune := hex }
  { b with zobrist := zobrist.setLast b.zobrist b.immune }

/-- `Board::set_stun`. -/
def set_stun (b : Board) (hex : Option Hex) : Board :=
  let b := { b with stunned := hex }
  { b with zobrist := zobrist.setStun b.zobrist b.stunned }

/-- `Board::patch_from`; the outer `Option` models the `resolve` panic. -/
def patch_from (b : Board) (mv : Move) : Option (Option Patch) :=
  match mv with
  | .Pass => some none
  | .Move piece next_to =>
    (b.resolve (some next_to)).map (fun dst =>
      some { piece := piece, src := b.history.last_hex piece, dst := dst })
  | .Place piece next_to =>
    (b.resolve next_to).map (fun dst =>
      some { piece := piece, src := b.history.last_hex piece, dst := dst })

/-- `Board::play_unchecked`; `none` models a panic (`resolve`/`remove`
unwraps on moves that never passed `Board::check`). -/
def play_unchecked (b : Board) (mv : Move) : Option Board := do
  let patch ← b.patch_from mv
  let entry : HEntry := { mv := mv, patch := patch, prev_stunned := b.stunned }
  let b ← match mv with
    | .Place piece next_to => do
      let hex ← b.resolve next_to
      let b := b.insert_unchecked piece hex
      pure ((b.set_immune (some hex)).set_stun none)
    | .Move piece next_to => do
      let b ← b.remove_unchecked piece
      let hex ← b.resolve (some next_to)
      let b := b.insert_unchecked piece hex
      pure ((b.set_immune (some hex)).set_stun (some hex))
    | .Pass =>
      pure ((b.set_immune none).set_stun none)
  let b := { b with pinned := b.field.find_pins }
  let b := { b with history := b.history.play entry }
  pure { b with zobrist := zobrist.next b.zobrist }

/-- `Board::undo_immune` (note: called *before* `history.undo()`, so
`history.prev()` is still the entry being undone). -/
def undo_immune (b : Board) : Result Board :=
  match b.history.prev with
  | none => .error (Error.new .InternalError)
  | some entry => .ok (b.set_immune (entry.patch.map Patch.dst))

/-- `Board::undo_stun` (same remark). -/
def undo_stun (b : Board) : Result Board :=
  match b.history.prev with
  | none => .error (Error.new .InternalError)
  | some entry => .ok (b.set_stun entry.prev_stunned)

/-- `Board::undo_one`; the outer `Option` models the panics on corrupted
history entries (`patch.unwrap().from.unwrap()`). -/
def undo_one (b : Board) : Option (Result Board) :=
  match b.history.prev with
  | none => some (.error (Error.new .InternalError))
  | some entry =>
    let step : Option Board :=
      match entry.mv with
      | .Place piece _ => b.remove_unchecked piece
      | .Move piece _ => do
        let b ← b.remove_unchecked piece
        let patch ← entry.patch
        let hex ← patch.src
        pure (b.insert_unchecked piece hex)
      | .Pass => some b
    match step with
    | none => none
    | some b =>
      let b := { b with pinned := b.field.find_pins }
      match b.undo_immune with
      | .error e => some (.error e)
      | .ok b =>
        match b.undo_stun with
        | .error e => some (.error e)
        | .ok b =>
          let b := { b with zobrist := zobrist.prev b.zobrist }
          some (.ok { b with history := b.history.undo })

/-- `Board::check`. -/
def check (b : Board) (mv : Move) : RO Unit :=
  match mv with
  | .Place piece next_to =>
    match b.resolve next_to with
    | none => .panicked
    | some hex => b.can_place piece hex
  | .Move piece next_to =>
    match b.resolve (some next_to) with
    | none => .panicked
    | some hex => b.can_move piece hex
  | .Pass => .ok ()

/-- `Board::play`: check, then apply.  The second component is the board
after the call — unchanged unless the move was applied. -/
def play (b : Board) (mv : Move) : RO Nat × Board :=
  match b.check mv with
  | .panicked => (.panicked, b)
  | .err e => (.err e, b)
  | .ok () =>
    match b.play_unchecked mv with
    | none => (.panicked, b)
    | some b2 => (.ok b2.zobrist, b2)

end Board

/-! ## Scalars (`src/agent/scalars`) -/

namespace scalars

/-- `Depth` stores `plies * PER_PLY` in an `i32`; claims only compare
depths, so we model the inner value as an integer. -/
abbrev Depth := Int

def PER_PLY : Int := 100

def Depth.new (v : Int) : Depth := v * PER_PLY

/-- `Depth::MAX = Depth::new(1 + i8::MAX as i32)`. -/
def Depth.MAX : Depth := Depth.new (1 + 127)

/-- `MAXIMUM_PLY = Depth::MAX.floor() as usize = 128`. -/
def MAXIMUM_PLY : Nat := (Depth.MAX / PER_PLY).toNat

end scalars

/-! ## The transposition table (`src/agent/table`)

The `DashMap<u128, TTEntryData>` is modelled as an association list with
unique keys; the packed `MoveToken` is modelled by the `Option Move` it
encodes (`MoveToken::is_some` is the option's `isSome`). -/

inductive TTBound where
  | None
  | Upper
  | Lower
  | Exact
deriving Repr, DecidableEq

structure TTAge where
  age : Nat
  bound : TTBound
deriving Repr, DecidableEq

structure TTEntry where
  key : Nat
  mv : Option Move
  depth : scalars.Depth
  score : Int
  age : TTAge
deriving Repr, DecidableEq

structure TTHit where
  key : Nat
  mv : Option Move
  depth : scalars.Depth
  score : Int
  bound : TTBound
deriving Repr, DecidableEq

structure TranspositionTable where
  map : List (Nat × TTEntry)
  age : Nat
  cap : Nat
deriving Repr, DecidableEq

/-- `DashMap::insert`: replace the value at the key, or add the key. -/
def mapInsert (m : List (Nat × TTEntry)) (k : Nat) (e : TTEntry) : List (Nat × TTEntry) :=
  if (m.lookup k).isSome then
    m.map (fun kv => if kv.1 = k then (k, e) else kv)
  else
    m ++ [(k, e)]

namespace TranspositionTable

def EXTENT_AGE : Nat := 0x3F

/-- `TranspositionTable::capacity_hash`. -/
def capacity_hash (t : TranspositionTable) (key : Nat) : Nat := key % t.cap

/-- private `TranspositionTable::get`. -/
def get (t : TranspositionTable) (key : Nat) : Option TTEntry :=
  t.map.lookup (t.capacity_hash key)

/-- private `TranspositionTable::put`. -/
def put (t : TranspositionTable) (key : Nat) (e : TTEntry) : TranspositionTable :=
  { t with map := mapInsert t.map (t.capacity_hash key) e }

/-- `TranspositionTable::load`. -/
def load (t : TranspositionTable) (key : Nat) : Option TTHit :=
  (t.get key).map (fun entry =>
    { key := entry.key, mv := entry.mv, depth := entry.depth
      bound := entry.age.bound, score := entry.score })

/-- `TranspositionTable::check`.  The in-out parameters `candidate`, `a`,
`b` are threaded explicitly; the result is
`(candidate', a', b', returned score)`, and the outer `Option` models the
`unreachable!()` panic on a deep-enough hit whose bound is `None`. -/
def check (t : TranspositionTable) (key : Nat) (depth : scalars.Depth)
    (candidate : Option Move) (a b : Int) :
    Option (Option Move × Int × Int × Option Int) :=
  match t.load key with
  | none => some (candidate, a, b, none)
  | some hit =>
    let candidate := hit.mv
    if hit.depth ≥ depth then
      match hit.bound with
      | .Exact => some (candidate, a, b, some hit.score)
      | .Lower =>
        let a := max a hit.score
        some (candidate, a, b, if a ≥ b then some hit.score else none)
      | .Upper =>
        let b := min b hit.score
        some (candidate, a, b, if a ≥ b then some hit.score else none)
      | .None => none
    else
      some (candidate, a, b, none)

/-- private `TranspositionTable::should_overwrite`. -/
def should_overwrite (t : TranspositionTable) (prev next : TTEntry) : Bool :=
  prev.age.age ≠ t.age || prev.depth ≤ next.depth

/-- `TranspositionTable::store`.  Note the replace branch inserts at the
raw `entry.key`, not at `capacity_hash(entry.key)`. -/
def store (t : TranspositionTable) (entry : TTEntry) : TranspositionTable :=
  match t.get entry.key with
  | some prev =>
    let entry := { entry with mv := if entry.mv.isSome then entry.mv else prev.mv }
    if entry.key ≠ prev.key
        || (entry.age.bound = .Exact ∧ prev.age.bound ≠ .Exact)
        || t.should_overwrite prev entry then
      { t with map := mapInsert t.map entry.key entry }
    else
      t
  | none => t.put entry.key entry

/-- `TranspositionTable::increment`. -/
def increment (t : TranspositionTable) : TranspositionTable :=
  { t with age := EXTENT_AGE &&& (t.age + 1) }

end TranspositionTable

/-! ## Principal-variation reconstruction (`get_principal_variation`) -/

structure ScoredMove where
  mv : Move
  score : Int
deriving Repr, DecidableEq

/-- the `while let Some(hit)` loop can end three ways: a miss or a key-cycle
(`done`), a panic (the `ArrayVec::push` beyond `MAXIMUM_PLY` capacity, or a
stored move on which `play_unchecked` panics), or fuel exhaustion of the
model (shown unreachable below). -/
inductive PVResult where
  | done (moves : List ScoredMove)
  | panicked
  | fuelOut
deriving Repr

namespace TranspositionTable

/-- the loop of `get_principal_variation`, with the `variation.moves`
`ArrayVec` (capacity `MAXIMUM_PLY`), the cloned board, the current key and
the visited-key `history` threaded explicitly. -/
def get_pv_loop (t : TranspositionTable) :
    Nat → Board → Nat → List Nat → List ScoredMove → PVResult
  | 0, _, _, _, _ => .fuelOut
  | fuel + 1, board, z, history, moves =>
    match t.load z with
    | none => .done moves
    | some hit =>
      let mv := hit.mv.getD .Pass
      if moves.length ≥ scalars.MAXIMUM_PLY then
        .panicked
      else
        let moves := moves ++ [{ mv := mv, score := hit.score }]
        match board.play_unchecked mv with
        | none => .panicked
        | some board =>
          let z := board.zobrist
          if history.contains z then .done moves
          else t.get_pv_loop fuel board z (history ++ [z]) moves

/-- `TranspositionTable::get_principal_variation` (the variation's final
`score` assignment is irrelevant to the claims and omitted). -/
def get_principal_variation (t : TranspositionTable) (board : Board) : PVResult :=
  t.get_pv_loop (scalars.MAXIMUM_PLY + 3) board board.zobrist [] []

end TranspositionTable

/-! ## The reserve term of the static evaluator (`src/strategy.rs`)

All quantities entering `reserve` are small non-negative integers, on which
`f64` arithmetic is exact, so scores are modelled as integers. -/

def K_RESERVE : Int := 1

/-- `strategy::bug_value`. -/
def bug_value : Bug → Int
  | .Ant => 7
  | .Beetle => 6
  | .Grasshopper => 3
  | .Ladybug => 6
  | .Mosquito => 8
  | .Pillbug => 6
  | .Queen => 12
  | .Spider => 2

/-- the inner `reserve_for` of `strategy::reserve`. -/
def reserve_for (board : Board) (player : Player) : Int :=
  Bug.all.foldl
    (fun score bug => score + (bug_value bug + ((board.pouch.peek player bug).getD 0 : Nat)))
    0

/-- `strategy::reserve`. -/
def reserve (board : Board) : Int :=
  let to_move := board.to_move
  K_RESERVE * (reserve_for board to_move - reserve_for board to_move.flip)

/-! ## Named pieces used by concrete scenarios -/

def wA1 : Piece := { player := .White, kind := .Ant, num := 1 }
def wQ : Piece := { player := .White, kind := .Queen, num := 1 }
def bA1 : Piece := { player := .Black, kind := .Ant, num := 1 }
def bQ : Piece := { player := .Black, kind := .Queen, num := 1 }

/-! ## C10 — a pass is never rejected -/

/-- C10: for every position, `Board::check(Move::Pass)` returns `Ok` (the
`Pass` arm of the match is unconditionally `Ok(())`), so `play(P, Pass)`
always succeeds: it reaches `play_unchecked`, whose `Pass` branch never
errs or panics. -/
theorem c10_pass_always_ok :
    ∀ b : Board, b.check .Pass = .ok () ∧ (b.play .Pass).1.isOk = true :=
  fun _ => ⟨rfl, rfl⟩

/-! ## C4 — transposition-table probe semantics -/

/-- C4: on a probe whose slot holds an entry for the probed key searched at
depth at least the requested depth: an `Exact` bound returns the stored
score unchanged; a `Lower` bound raises `alpha` to at least the stored
score; an `Upper` bound lowers `beta` to at most the stored score; whenever
the adjusted bounds satisfy `alpha ≥ beta` the stored score is returned;
and on *any* hit (deep enough or not) the stored move is written into the
candidate. -/
theorem c4_tt_check_behaviour
    (t : TranspositionTable) (key : Nat) (depth : scalars.Depth)
    (cand : Option Move) (a b : Int) (hit : TTHit)
    (hload : t.load key = some hit) (_hkey : hit.key = key) :
    (∀ res, t.check key depth cand a b = some res → res.1 = hit.mv) ∧
    (hit.depth ≥ depth →
      (hit.bound = .Exact →
        t.check key depth cand a b = some (hit.mv, a, b, some hit.score)) ∧
      (hit.bound = .Lower →
        t.check key depth cand a b =
          some (hit.mv, max a hit.score, b,
            if max a hit.score ≥ b then some hit.score else none) ∧
          max a hit.score ≥ hit.score) ∧
      (hit.bound = .Upper →
        t.check key depth cand a b =
          some (hit.mv, a, min b hit.score,
            if a ≥ min b hit.score then some hit.score else none) ∧
          min b hit.score ≤ hit.score)) := by
  constructor
  · intro res hres
    simp only [TranspositionTable.check, hload] at hres
    by_cases hd : hit.depth ≥ depth
    · simp only [if_pos hd] at hres
      cases hb : hit.bound <;> simp [hb] at hres <;> simp [← hres]
    · simp only [if_neg hd, Option.some.injEq] at hres
      simp [← hres]
  · intro hd
    refine ⟨?_, ?_, ?_⟩ <;> intro hb <;>
      simp [TranspositionTable.check, hload, if_pos hd, hb, le_max_right, min_le_right]

def c4_entry : TTEntry :=
  { key := 0, mv := some .Pass, depth := 200, score := 42,
    age := { age := 0, bound := .Exact } }

def c4_table : TranspositionTable := { map := [(0, c4_entry)], age := 0, cap := 1 }

def c4_hit : TTHit :=
  { key := 0, mv := some .Pass, depth := 200, score := 42, bound := .Exact }

/-- Witness for `c4_tt_check_behaviour` at a concrete one-slot table. -/
theorem c4_tt_check_behaviour_witness :
    c4_table.load 0 = some c4_hit ∧ c4_hit.key = 0 ∧ c4_hit.depth ≥ 100 ∧
      c4_table.check 0 100 none (-5) 5 = some (some .Pass, -5, 5, some 42) :=
  ⟨by decide, rfl, by decide,
    ((c4_tt_check_behaviour c4_table 0 100 none (-5) 5 c4_hit (by decide) rfl).2
      (by decide)).1 rfl⟩

/-! ## C5 — the replacement policy does not actually evict -/

/-- the resident entry of the failing input: a full one-slot table. -/
def c5_resident : TTEntry :=
  { key := 0, mv := none, depth := 100, score := 0, age := { age := 0, bound := .Exact } }

/-- the incoming entry: strictly deeper than every resident entry. -/
def c5_incoming : TTEntry :=
  { key := 1, mv := none, depth := 200, score := 5, age := { age := 0, bound := .Exact } }

def c5_table : TranspositionTable := { map := [(0, c5_resident)], age := 0, cap := 1 }

/-- C5 (code bug): storing a strictly deeper new entry into a full table
does *not* evict any resident entry.  `store` looks the old entry up under
`capacity_hash(entry.key)` but the replace branch inserts under the raw
`entry.key`, so the map grows from 1 entry to 2 and the resident entry is
still present in its slot (and the new entry sits under a key that
`get`/`load` can never probe, since `capacity_hash` is always `< cap`). -/
theorem c5_store_no_eviction :
    (c5_table.store c5_incoming).map = [(0, c5_resident), (1, c5_incoming)] ∧
    (c5_table.store c5_incoming).map.length = c5_table.map.length + 1 ∧
    (c5_table.store c5_incoming).map.lookup 0 = some c5_resident ∧
    c5_incoming.depth > c5_resident.depth ∧
    c5_table.cap = 1 ∧ c5_table.map.lookup 0 ≠ none := by
  refine ⟨by decide, by decide, by decide, by decide, rfl, by decide⟩

/-! ## C9 — rejecting the queen on turn 1 -/

def c9_board : Board := Board.new Options.default

/-- C9 (counterexample): playing the white queen from the empty game *is*
rejected with the board unchanged, but the returned error's kind is
`InvalidMove` (the kind of the base error that `can_place` chains onto every
failure), not `InvalidState`; the `InvalidState` queen-placement cause only
survives inside the message chain. -/
theorem c9_queen_rejection_kind :
    (c9_board.play (.Place wQ none)).1 =
      .err { kind := .InvalidMove, trail := [.InvalidState] } ∧
    ∀ e, (c9_board.play (.Place wQ none)).1 = .err e → e.kind ≠ .InvalidState := by
  have h : (c9_board.play (.Place wQ none)).1 =
      .err { kind := .InvalidMove, trail := [.InvalidState] } := by decide
  refine ⟨h, ?_⟩
  intro e he
  rw [h] at he
  cases he
  decide

/-- C9 (amended): from the empty game, `play wQ` returns an error whose
kind is `InvalidMove` and whose message chain carries the `InvalidState`
queen-placement cause, and the board is unchanged. -/
theorem c9_queen_rejection_amended :
    (c9_board.play (.Place wQ none)).1 =
      .err { kind := .InvalidMove, trail := [.InvalidState] } ∧
    (c9_board.play (.Place wQ none)).2 = c9_board := by
  exact ⟨by decide, rfl⟩

/-! ## C8 — the reserve term of the evaluator -/

/-- the position after the (legal) opening placement `wA1`. -/
def c8_board : Board := ((Board.new Options.default).play (.Place wA1 none)).2

/-- the claim's per-side reserve, written from the spec's words:
"sum over species of (piece-value + in-hand count)". -/
def reserve_for_claim (board : Board) (player : Player) : Int :=
  Bug.all.foldl
    (fun score bug => score + (bug_value bug + ((board.pouch.hand player).getD bug.val 0 : Nat)))
    0

/-- the claim's reserve contribution. -/
def reserve_claim (board : Board) : Int :=
  let to_move := board.to_move
  K_RESERVE * (reserve_for_claim board to_move - reserve_for_claim board to_move.flip)

/-- C8 (counterexample): after the legal opening placement `wA1`, the code's
reserve term is `-1` while the claim's formula gives `+1`: `reserve_for`
adds `pouch.peek`, the *lowest unused discriminator*
`1 + starting-count − in-hand-count`, not the in-hand count itself. -/
theorem c8_reserve_counterexample :
    ((Board.new Options.default).play (.Place wA1 none)).1.isOk = true ∧
    reserve c8_board = -1 ∧ reserve_claim c8_board = 1 ∧
    reserve c8_board ≠ reserve_claim c8_board := by
  refine ⟨by decide, by decide, by decide, by decide⟩

/-- the amended per-side reserve: sum over species of (piece-value plus the
lowest unused discriminator `1 + starting-count − in-hand-count` when any
piece of the species remains in hand, else plus nothing). -/
def reserve_for_amended (board : Board) (player : Player) : Int :=
  Bug.all.foldl
    (fun score bug =>
      let hand := (board.pouch.hand player).getD bug.val 0
      let total := board.pouch.totals.getD bug.val 0
      score + (bug_value bug + ((if hand > 0 then 1 + total - hand else 0 : Nat) : Int)))
    0

/-- C8 (amended): the reserve contribution is, per side, the sum over
species of (piece-value + lowest-unused-discriminator-if-any), with the
side-to-move difference multiplied by `K_RESERVE = 1`. -/
theorem c8_reserve_amended :
    ∀ board : Board,
      reserve board =
        K_RESERVE * (reserve_for_amended board board.to_move -
          reserve_for_amended board board.to_move.flip) := by
  intro board
  have hfor : ∀ player, reserve_for board player = reserve_for_amended board player := by
    intro player
    have hpeek : ∀ bug : Bug, ((board.pouch.peek player bug).getD 0 : Nat) =
        (if ((board.pouch.hand player).getD bug.val 0) > 0 then
          1 + board.pouch.totals.getD bug.val 0 - (board.pouch.hand player).getD bug.val 0
        else 0) := by
      intro bug
      simp only [Pouch.peek, Pouch.hand]
      split <;> simp_all
    simp only [reserve_for, reserve_for_amended, Bug.all, List.foldl, hpeek]
  simp only [reserve, hfor]

/-! ## C7 — principal-variation reconstruction terminates, capped -/

theorem c7_pv_loop_bound (t : TranspositionTable) :
    ∀ (fuel : Nat) (board : Board) (z : Nat) (history : List Nat)
      (moves : List ScoredMove),
      moves.length ≤ scalars.MAXIMUM_PLY →
      scalars.MAXIMUM_PLY + 2 ≤ fuel + moves.length →
      t.get_pv_loop fuel board z history moves ≠ .fuelOut ∧
      (∀ out, t.get_pv_loop fuel board z history moves = .done out →
        out.length ≤ scalars.MAXIMUM_PLY) := by
  intro fuel
  induction fuel with
  | zero =>
    intro board z history moves hlen hfuel
    exfalso
    have : scalars.MAXIMUM_PLY = 128 := by decide
    omega
  | succ fuel ih =>
    intro board z history moves hlen hfuel
    rw [TranspositionTable.get_pv_loop]
    cases hload : t.load z with
    | none => exact ⟨by simp, fun out h => by cases h; exact hlen⟩
    | some hit =>
      simp only []
      by_cases hful : moves.length ≥ scalars.MAXIMUM_PLY
      · simp only [if_pos hful]
        exact ⟨by simp, fun out h => by cases h⟩
      · simp only [if_neg hful]
        have hlen' : (moves ++ [({ mv := hit.mv.getD .Pass, score := hit.score } : ScoredMove)]).length ≤
            scalars.MAXIMUM_PLY := by
          simp only [List.length_append, List.length_cons, List.length_nil]
          omega
        cases hplay : board.play_unchecked (hit.mv.getD .Pass) with
        | none => exact ⟨by simp, fun out h => by cases h⟩
        | some board' =>
          simp only []
          by_cases hcyc : history.contains board'.zobrist
          · simp only [if_pos hcyc]
            exact ⟨by simp, fun out h => by cases h; exact hlen'⟩
          · simp only [if_neg hcyc]
            apply ih
            · exact hlen'
            · simp only [List.length_append, List.length_cons, List.length_nil]
              omega

/-- C7: for every board and table state, `get_principal_variation`
terminates — the model's fuel can never run out, because every iteration
either breaks (on a miss or a key-cycle), stops (the `ArrayVec` push or a
stored move panics), or pushes one move into the capacity-128 variation —
and any returned variation holds at most `MAXIMUM_PLY = 128` moves. -/
theorem c7_pv_reconstruction_terminates :
    ∀ (t : TranspositionTable) (board : Board),
      t.get_principal_variation board ≠ .fuelOut ∧
      (∀ out, t.get_principal_variation board = .done out →
        out.length ≤ scalars.MAXIMUM_PLY) := by
  intro t board
  exact c7_pv_loop_bound t (scalars.MAXIMUM_PLY + 3) board board.zobrist [] []
    (by simp) (by simp)

/-! ## C6 — what actually gets stunned -/

def c6m1 : Move := .Place wA1 none
def c6m2 : Move := .Place bA1 (some { piece := wA1, direction := some .East })
def c6m3 : Move := .Place wQ (some { piece := wA1, direction := some .West })
def c6m4 : Move := .Place bQ (some { piece := bA1, direction := some .East })
/-- an ordinary queen step (no pillbug exists in this game at all). -/
def c6m5 : Move := .Move wQ { piece := wA1, direction := some .Northwest }

def c6b0 : Board := Board.new Options.default
def c6b1 : Board := (c6b0.play c6m1).2
def c6b2 : Board := (c6b1.play c6m2).2
def c6b3 : Board := (c6b2.play c6m3).2
def c6b4 : Board := (c6b3.play c6m4).2
def c6b5 : Board := (c6b4.play c6m5).2

/-- C6 (counterexample): after a legal, ordinary queen *self move* in a
game whose options do not even include the pillbug, the board's stunned hex
is set (to the move's destination), whereas the claim says a hex is stunned
only after a pillbug throw. -/
theorem c6_stun_after_self_move :
    (c6b0.play c6m1).1.isOk = true ∧ (c6b1.play c6m2).1.isOk = true ∧
    (c6b2.play c6m3).1.isOk = true ∧ (c6b3.play c6m4).1.isOk = true ∧
    (c6b4.play c6m5).1.isOk = true ∧
    c6b0.options.expansions.pillbug = false ∧
    c6b5.stunned = some 495 := by
  exact ⟨by decide, by decide, by decide, by decide, by decide, rfl, by decide⟩

/-- C6 (amended): after every *movement* move (`Move::Move`) — an ordinary
self move just as much as a pillbug throw — the stunned hex is the move's
destination; after a placement or a pass no hex is stunned; and a placed
piece is barred by `ensure_active` exactly when it stands on the stunned
hex. -/
theorem c6_stun_amended :
    ∀ (b : Board) (mv : Move) (b' : Board), b.play_unchecked mv = some b' →
      (b'.stunned = match mv with
        | .Move _ next_to => b.resolve (some next_to)
        | _ => none) ∧
      (∀ piece hx, b.location piece = some hx →
        (b.ensure_active piece = .ok () ↔ b.stunned ≠ some hx)) := by
  intro b mv b' hplay
  constructor
  · cases mv with
    | Pass =>
      simp only [Board.play_unchecked, Board.patch_from, Option.pure_def,
        Option.bind_eq_bind, Option.some_bind, Option.some.injEq] at hplay
      subst hplay
      rfl
    | Place piece next_to =>
      cases hr : b.resolve next_to with
      | none =>
        simp [Board.play_unchecked, Board.patch_from, hr] at hplay
      | some hex =>
        simp only [Board.play_unchecked, Board.patch_from, hr, Option.map_some',
          Option.pure_def, Option.bind_eq_bind, Option.some_bind,
          Option.some.injEq] at hplay
        subst hplay
        rfl
    | Move piece next_to =>
      cases hr : b.resolve (some next_to) with
      | none =>
        simp [Board.play_unchecked, Board.patch_from, hr] at hplay
      | some dst =>
        cases hrm : b.remove_unchecked piece with
        | none =>
          simp [Board.play_unchecked, Board.patch_from, hr, hrm] at hplay
        | some brm =>
          have hpcs : brm.pieces = b.pieces.set piece.index none := by
            unfold Board.remove_unchecked at hrm
            cases hl : b.location piece with
            | none => rw [hl] at hrm; cases hrm
            | some hx => rw [hl] at hrm; cases hrm; rfl
          have hres : brm.resolve (some next_to) =
              if next_to.piece.index = piece.index then none
              else b.resolve (some next_to) := by
            by_cases hip : next_to.piece.index = piece.index
            · rw [if_pos hip]
              by_cases hlt : piece.index < b.pieces.length
              · simp only [Board.resolve, Board.location, hpcs, hip,
                  List.getD_eq_getElem?_getD, List.getElem?_set_self hlt]
                rfl
              · exfalso
                have hlen : b.pieces.length ≤ piece.index := Nat.le_of_not_lt hlt
                have hb : b.location next_to.piece = none := by
                  simp only [Board.location, hip, List.getD_eq_getElem?_getD]
                  simp [List.getElem?_eq_none_iff.mpr hlen]
                simp only [Board.resolve, hb, Option.map_none'] at hr
                cases hr
            · simp only [if_neg hip, Board.resolve, Board.location, hpcs,
                List.getD_eq_getElem?_getD, List.getElem?_set_ne (fun h => hip h.symm)]
          by_cases hip : next_to.piece.index = piece.index
          · rw [if_pos hip] at hres
            simp [Board.play_unchecked, Board.patch_from, hr, hrm, hres] at hplay
          · rw [if_neg hip] at hres
            simp only [Board.play_unchecked, Board.patch_from, hr, hrm,
              Option.map_some', Option.pure_def, Option.bind_eq_bind,
              Option.some_bind, Option.some.injEq] at hplay
            rw [hres, hr] at hplay
            simp only [Option.some_bind, Option.some.injEq] at hplay
            subst hplay
            simp [hr, Board.set_stun]
  · intro piece hx hloc
    simp only [Board.ensure_active, hloc]
    cases hs : b.stunned with
    | none => simp
    | some s =>
      by_cases hsx : s = hx
      · subst hsx; simp
      · simp [hsx, Ne.symm hsx]

/-- Witness for `c6_stun_amended` at the concrete queen self move above. -/
theorem c6_stun_amended_witness :
    c6b4.play_unchecked c6m5 = some c6b5 ∧
    c6b5.stunned = c6b4.resolve (some { piece := wA1, direction := some .Northwest }) ∧
    c6b4.location wQ = some 527 ∧
    (c6b4.ensure_active wQ = .ok () ↔ c6b4.stunned ≠ some 527) := by
  have h : c6b4.play_unchecked c6m5 = some c6b5 := rfl
  refine ⟨h, (c6_stun_amended c6b4 c6m5 c6b5 h).1, by decide,
    (c6_stun_amended c6b4 c6m5 c6b5 h).2 wQ 527 (by decide)⟩

/-! ## A view of well-formed zobrist keys

Every key the board ever holds decomposes into disjoint bit regions: the
piece fold in bits 0–15 (each XORed bitstring is masked to 16 bits), the
immune hex in bits 64–79 with its validity in bit 97, the stunned hex in
bits 80–95 with its validity in bit 98, and the player bit 96.  `ZView`
names the regions; the lemmas below show each `ZobristTable` operation acts
on one region. -/

structure ZView where
  fold : Nat
  imm : Option Hex
  stun : Option Hex
  pl : Nat

def optBit (o : Option Hex) : Nat := if o.isSome then 1 else 0

def ZView.val (v : ZView) : Nat :=
  v.fold ||| ((v.imm.getD 0) <<< 64) ||| (optBit v.imm <<< 97)
    ||| ((v.stun.getD 0) <<< 80) ||| (optBit v.stun <<< 98) ||| (v.pl <<< 96)

def ZView.WF (v : ZView) : Prop :=
  v.fold < 2 ^ 16 ∧ v.imm.getD 0 < 2 ^ 16 ∧ v.stun.getD 0 < 2 ^ 16 ∧ v.pl ≤ 1

theorem testBit_false_of_lt {x n : Nat} (h : x < 2 ^ n) :
    ∀ i, n ≤ i → x.testBit i = false := by
  intro i hi
  exact Nat.testBit_lt_two_pow (lt_of_lt_of_le h (Nat.pow_le_pow_right (by norm_num) hi))

theorem setLast_val (v : ZView) (hWF : v.WF) (dst : Option Hex)
    (hdst : dst.getD 0 < 2 ^ 16) :
    zobrist.setLast v.val dst = ZView.val { v with imm := dst } := by
  obtain ⟨hf, hi, hs, hp⟩ := hWF
  have rw1 : zobrist.rotl128 (zobrist.comp128 zobrist.EXTENT_HEX) 64 =
      (2 ^ 128 - 1) ^^^ ((2 ^ 16 - 1) <<< 64) := by decide
  have rw2 : zobrist.rotl128 (zobrist.comp128 zobrist.EXTENT_OPT) 97 =
      (2 ^ 128 - 1) ^^^ (1 <<< 97) := by decide
  apply Nat.eq_of_testBit_eq
  intro i
  simp only [zobrist.setLast, zobrist.OFFSET_LAST, zobrist.OFFSET_LAST_VALID, rw1, rw2,
    ZView.val, optBit, Nat.testBit_lor, Nat.testBit_land, Nat.testBit_xor,
    Nat.testBit_shiftLeft, Nat.testBit_mod_two_pow, Nat.testBit_two_pow_sub_one,
    ge_iff_le]
  have hF : ∀ j, 16 ≤ j → v.fold.testBit j = false := testBit_false_of_lt hf
  have hI : ∀ j, 16 ≤ j → (v.imm.getD 0).testBit j = false := testBit_false_of_lt hi
  have hS : ∀ j, 16 ≤ j → (v.stun.getD 0).testBit j = false := testBit_false_of_lt hs
  have hD : ∀ j, 16 ≤ j → (dst.getD 0).testBit j = false := testBit_false_of_lt hdst
  have hP : ∀ j, 1 ≤ j → v.pl.testBit j = false :=
    testBit_false_of_lt (lt_of_le_of_lt hp (by norm_num))
  have hO : ∀ (o : Option Hex) j, 1 ≤ j → (if o.isSome then (1 : Nat) else 0).testBit j = false := by
    intro o j hj
    refine testBit_false_of_lt ?_ j hj
    split <;> norm_num
  by_cases c0 : i < 16
  · simp [show ¬(64 ≤ i) by omega, show ¬(80 ≤ i) by omega, show ¬(96 ≤ i) by omega,
      show ¬(97 ≤ i) by omega, show ¬(98 ≤ i) by omega, show i < 128 by omega]
  by_cases c1 : i < 64
  · simp [hF i (by omega), show ¬(64 ≤ i) by omega, show ¬(80 ≤ i) by omega,
      show ¬(96 ≤ i) by omega, show ¬(97 ≤ i) by omega, show ¬(98 ≤ i) by omega,
      show i < 128 by omega]
  by_cases c2 : i < 80
  · simp [hF i (by omega), show 64 ≤ i by omega, show i - 64 < 16 by omega,
      show ¬(80 ≤ i) by omega, show ¬(96 ≤ i) by omega, show ¬(97 ≤ i) by omega,
      show ¬(98 ≤ i) by omega, show i < 128 by omega]
  by_cases c3 : i < 96
  · simp [hF i (by omega), hD (i - 64) (by omega), hI (i - 64) (by omega),
      show 64 ≤ i by omega, show ¬(i - 64 < 16) by omega, show 80 ≤ i by omega,
      show ¬(96 ≤ i) by omega, show ¬(97 ≤ i) by omega, show ¬(98 ≤ i) by omega,
      show i < 128 by omega]
  by_cases c4 : i = 96
  · subst c4
    simp [hF 96 (by omega), hD 32 (by omega), hI 32 (by omega), hS 16 (by omega)]
  by_cases c5 : i = 97
  · subst c5
    simp [hF 97 (by omega), hD 33 (by omega), hI 33 (by omega), hS 17 (by omega),
      hP 1 (by omega)]
  by_cases c6 : i = 98
  · subst c6
    simp [hF 98 (by omega), hD 34 (by omega), hI 34 (by omega), hS 18 (by omega),
      hP 2 (by omega), hO v.imm 1 (by omega), hO dst 1 (by omega)]
    exact fun _ => by decide
  by_cases c7 : i < 128
  · simp [hF i (by omega), hD (i - 64) (by omega), hI (i - 64) (by omega),
      hS (i - 80) (by omega), hP (i - 96) (by omega), hO v.imm (i - 97) (by omega),
      hO dst (i - 97) (by omega), hO v.stun (i - 98) (by omega),
      show 64 ≤ i by omega, show ¬(i - 64 < 16) by omega, show 80 ≤ i by omega,
      show 96 ≤ i by omega, show 97 ≤ i by omega, show 98 ≤ i by omega,
      show i < 128 by omega]
  · simp [hF i (by omega), hD (i - 64) (by omega), hI (i - 64) (by omega),
      hS (i - 80) (by omega), hP (i - 96) (by omega), hO v.imm (i - 97) (by omega),
      hO dst (i - 97) (by omega), hO v.stun (i - 98) (by omega),
      show ¬(i - 64 < 16) by omega, show ¬(i < 128) by omega]

theorem setStun_val (v : ZView) (hWF : v.WF) (dst : Option Hex)
    (hdst : dst.getD 0 < 2 ^ 16) :
    zobrist.setStun v.val dst = ZView.val { v with stun := dst } := by
  obtain ⟨hf, hi, hs, hp⟩ := hWF
  have rw1 : zobrist.rotl128 (zobrist.comp128 zobrist.EXTENT_HEX) 80 =
      (2 ^ 128 - 1) ^^^ ((2 ^ 16 - 1) <<< 80) := by decide
  have rw2 : zobrist.rotl128 (zobrist.comp128 zobrist.EXTENT_OPT) 98 =
      (2 ^ 128 - 1) ^^^ (1 <<< 98) := by decide
  apply Nat.eq_of_testBit_eq
  intro i
  simp only [zobrist.setStun, zobrist.OFFSET_STUN, zobrist.OFFSET_STUN_VALID, rw1, rw2,
    ZView.val, optBit, Nat.testBit_lor, Nat.testBit_land, Nat.testBit_xor,
    Nat.testBit_shiftLeft, Nat.testBit_mod_two_pow, Nat.testBit_two_pow_sub_one,
    ge_iff_le]
  have hF : ∀ j, 16 ≤ j → v.fold.testBit j = false := testBit_false_of_lt hf
  have hI : ∀ j, 16 ≤ j → (v.imm.getD 0).testBit j = false := testBit_false_of_lt hi
  have hS : ∀ j, 16 ≤ j → (v.stun.getD 0).testBit j = false := testBit_false_of_lt hs
  have hD : ∀ j, 16 ≤ j → (dst.getD 0).testBit j = false := testBit_false_of_lt hdst
  have hP : ∀ j, 1 ≤ j → v.pl.testBit j = false :=
    testBit_false_of_lt (lt_of_le_of_lt hp (by norm_num))
  have hO : ∀ (o : Option Hex) j, 1 ≤ j → (if o.isSome then (1 : Nat) else 0).testBit j = false := by
    intro o j hj
    refine testBit_false_of_lt ?_ j hj
    split <;> norm_num
  by_cases c0 : i < 16
  · simp [show ¬(64 ≤ i) by omega, show ¬(80 ≤ i) by omega, show ¬(96 ≤ i) by omega,
      show ¬(97 ≤ i) by omega, show ¬(98 ≤ i) by omega, show i < 128 by omega]
  by_cases c1 : i < 64
  · simp [hF i (by omega), show ¬(64 ≤ i) by omega, show ¬(80 ≤ i) by omega,
      show ¬(96 ≤ i) by omega, show ¬(97 ≤ i) by omega, show ¬(98 ≤ i) by omega,
      show i < 128 by omega]
  by_cases c2 : i < 80
  · simp [hF i (by omega), show 64 ≤ i by omega, show ¬(80 ≤ i) by omega,
      show ¬(96 ≤ i) by omega, show ¬(97 ≤ i) by omega, show ¬(98 ≤ i) by omega,
      show i < 128 by omega]
  by_cases c3 : i < 96
  · simp [hF i (by omega), hI (i - 64) (by omega),
      show 64 ≤ i by omega, show i - 80 < 16 by omega, show 80 ≤ i by omega,
      show ¬(96 ≤ i) by omega, show ¬(97 ≤ i) by omega, show ¬(98 ≤ i) by omega,
      show i < 128 by omega]
  by_cases c4 : i = 96
  · subst c4
    simp [hF 96 (by omega), hD 16 (by omega), hI 32 (by omega), hS 16 (by omega)]
  by_cases c5 : i = 97
  · subst c5
    simp [hF 97 (by omega), hD 17 (by omega), hI 33 (by omega), hS 17 (by omega),
      hP 1 (by omega)]
  by_cases c6 : i = 98
  · subst c6
    simp [hF 98 (by omega), hD 18 (by omega), hI 34 (by omega), hS 18 (by omega),
      hP 2 (by omega), hO v.imm 1 (by omega), hO v.stun 1 (by omega)]
  by_cases c7 : i < 128
  · simp [hF i (by omega), hD (i - 80) (by omega), hI (i - 64) (by omega),
      hS (i - 80) (by omega), hP (i - 96) (by omega), hO v.imm (i - 97) (by omega),
      hO dst (i - 98) (by omega), hO v.stun (i - 98) (by omega),
      show 64 ≤ i by omega, show ¬(i - 80 < 16) by omega, show 80 ≤ i by omega,
      show 96 ≤ i by omega, show 97 ≤ i by omega, show 98 ≤ i by omega,
      show i < 128 by omega]
  · simp [hF i (by omega), hD (i - 80) (by omega), hI (i - 64) (by omega),
      hS (i - 80) (by omega), hP (i - 96) (by omega), hO v.imm (i - 97) (by omega),
      hO dst (i - 98) (by omega), hO v.stun (i - 98) (by omega),
      show ¬(i - 80 < 16) by omega, show ¬(i < 128) by omega]

theorem hashPiece_val (v : ZView) (hWF : v.WF) (p : Piece) (at_ : Hex) (height : Nat) :
    zobrist.hashPiece v.val p at_ height =
      ZView.val { v with fold := v.fold ^^^
        (bitstrings (zobrist.PIECES * (zobrist.HEIGHTS * at_ + height) + p.index) &&&
          zobrist.BITSTRING_MASK) } := by
  obtain ⟨hf, hi, hs, hp⟩ := hWF
  have hT : (bitstrings (zobrist.PIECES * (zobrist.HEIGHTS * at_ + height) + p.index) &&&
      zobrist.BITSTRING_MASK) < 2 ^ 16 :=
    lt_of_le_of_lt Nat.and_le_right (by norm_num [zobrist.BITSTRING_MASK])
  have hTf : ∀ j, 16 ≤ j →
      (bitstrings (zobrist.PIECES * (zobrist.HEIGHTS * at_ + height) + p.index) &&&
        zobrist.BITSTRING_MASK).testBit j = false := testBit_false_of_lt hT
  apply Nat.eq_of_testBit_eq
  intro i
  simp only [zobrist.hashPiece, ZView.val, optBit, Nat.testBit_lor, Nat.testBit_xor,
    Nat.testBit_shiftLeft, ge_iff_le]
  by_cases c0 : i < 16
  · simp [show ¬(64 ≤ i) by omega, show ¬(80 ≤ i) by omega, show ¬(96 ≤ i) by omega,
      show ¬(97 ≤ i) by omega, show ¬(98 ≤ i) by omega, Bool.xor_comm]
  · simp [hTf i (by omega)]

theorem toMove_val (v : ZView) (hWF : v.WF) :
    zobrist.to_move v.val = Player.new v.pl := by
  obtain ⟨hf, hi, hs, hp⟩ := hWF
  have hval : (v.val >>> 96) &&& 1 = v.pl := by
    have hF : ∀ j, 16 ≤ j → v.fold.testBit j = false := testBit_false_of_lt hf
    have hI : ∀ j, 16 ≤ j → (v.imm.getD 0).testBit j = false := testBit_false_of_lt hi
    have hS : ∀ j, 16 ≤ j → (v.stun.getD 0).testBit j = false := testBit_false_of_lt hs
    have hP : ∀ j, 1 ≤ j → v.pl.testBit j = false :=
      testBit_false_of_lt (lt_of_le_of_lt hp (by norm_num))
    apply Nat.eq_of_testBit_eq
    intro i
    simp only [ZView.val, optBit, Nat.testBit_lor, Nat.testBit_land,
      Nat.testBit_shiftRight, Nat.testBit_shiftLeft, ge_iff_le]
    by_cases c0 : i = 0
    · subst c0
      simp [hF 96 (by omega), hI 32 (by omega), hS 16 (by omega)]
    · simp [hP i (by omega), show (1 : Nat).testBit i = false from
        testBit_false_of_lt (show (1 : Nat) < 2 ^ 1 by norm_num) i (by omega)]
  simp [zobrist.to_move, zobrist.OFFSET_PLAYER, zobrist.EXTENT_PLAYER, hval]

theorem next_val (v : ZView) (hWF : v.WF) :
    zobrist.next v.val = ZView.val { v with pl := 1 } := by
  have hWF' := hWF
  obtain ⟨hf, hi, hs, hp⟩ := hWF'
  rw [zobrist.next, toMove_val v hWF]
  interval_cases hpl : v.pl
  · have : Player.new 0 = .White := by decide
    rw [this]
    show v.val ||| ((1 <<< 96) % 2 ^ 128) = _
    apply Nat.eq_of_testBit_eq
    intro i
    simp only [ZView.val, optBit, Nat.testBit_lor, Nat.testBit_shiftLeft,
      Nat.testBit_mod_two_pow, ge_iff_le, hpl]
    by_cases c0 : i = 96
    · subst c0
      simp
    · by_cases c1 : 96 ≤ i
      · simp [show (1 : Nat).testBit (i - 96) = false from
          testBit_false_of_lt (show (1 : Nat) < 2 ^ 1 by norm_num) (i - 96) (by omega)]
      · simp [c1]
  · have : Player.new 1 = .Black := by decide
    rw [this]
    show v.val ||| ((0 <<< 96) % 2 ^ 128) = _
    have hv : ({ v with pl := 1 } : ZView) = v := by
      cases v
      simp_all
    rw [hv]
    simp

/-! ## C1 — play followed by undo does not restore the position -/

theorem maskedLt (x : Nat) : x &&& zobrist.BITSTRING_MASK < 2 ^ 16 :=
  lt_of_le_of_lt Nat.and_le_right (by norm_num [zobrist.BITSTRING_MASK])

/-- the zobrist key and stack array produced by playing a checked placement. -/
theorem play_place_parts (b : Board) (piece : Piece) (n : Option NextTo) (hx : Hex)
    (hr : b.resolve n = some hx) (hck : b.check (.Place piece n) = .ok ()) :
    ((b.play (.Place piece n)).2).zobrist =
      zobrist.next (zobrist.setStun (zobrist.setLast
        (zobrist.hashPiece b.zobrist piece hx
          (Stack.height (Stack.push (b.stackAt hx) (Token.ofPiece piece)))) (some hx)) none) ∧
    ((b.play (.Place piece n)).2).stackAt =
      Function.update b.stackAt hx (Stack.push (b.stackAt hx) (Token.ofPiece piece)) ∧
    ((b.play (.Place piece n)).2).field = b.field.push hx := by
  refine ⟨?_, ?_, ?_⟩ <;>
    simp [Board.play, hck, Board.play_unchecked, Board.patch_from, hr,
      Board.insert_unchecked, Board.set_immune, Board.set_stun, Function.update]

/-- the zobrist key and stack array produced by undoing a placement entry. -/
theorem undo_place_parts (b : Board) (piece : Piece) (n : Option NextTo)
    (patch : Patch) (prevst : Option Hex) (hx : Hex)
    (hprev : b.history.prev = some { mv := .Place piece n, patch := some patch, prev_stunned := prevst })
    (hloc : b.location piece = some hx) :
    ∃ b2, b.undo_one = some (.ok b2) ∧
      b2.zobrist = zobrist.next (zobrist.setStun (zobrist.setLast
        (zobrist.hashPiece b.zobrist piece hx (Stack.height (b.stackAt hx)))
        (some patch.dst)) prevst) ∧
      b2.stackAt = Function.update b.stackAt hx (Stack.pop (b.stackAt hx)) ∧
      b2.field = b.field.pop hx := by
  simp only [Board.undo_one, hprev, Board.remove_unchecked, hloc, Board.undo_immune,
    Board.undo_stun, Board.set_immune, Board.set_stun, zobrist.prev]
  exact ⟨_, rfl, rfl, rfl, rfl⟩

def c1_b0 : Board := Board.new Options.default
def c1_mv : Move := .Place wA1 none
def c1_b1 : Board := (c1_b0.play c1_mv).2

/-- the board after undoing the single move. -/
def c1_b2 : Board :=
  match c1_b1.undo_one with
  | some (.ok b) => b
  | _ => c1_b0

theorem c1_parts1 : c1_b1.zobrist =
      zobrist.next (zobrist.setStun (zobrist.setLast
        (zobrist.hashPiece 0 wA1 528 1) (some 528)) none) ∧
    c1_b1.stackAt = Function.update c1_b0.stackAt 528
      (Stack.push (c1_b0.stackAt 528) (Token.ofPiece wA1)) ∧
    c1_b1.field = c1_b0.field.push 528 := by
  have h := play_place_parts c1_b0 wA1 none 528 (by decide) (by decide)
  have hz : c1_b0.zobrist = 0 := rfl
  have hh : Stack.height (Stack.push (c1_b0.stackAt 528) (Token.ofPiece wA1)) = 1 := by decide
  rw [hz, hh] at h
  exact h

theorem place_chain_val (v : ZView) (hWF : v.WF) (p : Piece) (at_ : Hex) (height : Nat)
    (hcap : at_ < 2 ^ 16) :
    zobrist.next (zobrist.setStun (zobrist.setLast
      (zobrist.hashPiece (ZView.val v) p at_ height) (some at_)) none) =
    ZView.val { fold := v.fold ^^^ (bitstrings (zobrist.PIECES * (zobrist.HEIGHTS * at_ + height) + p.index) &&& zobrist.BITSTRING_MASK), imm := some at_, stun := none, pl := 1 } := by
  obtain ⟨hf, hi, hs, hp⟩ := hWF
  have hT : (bitstrings (zobrist.PIECES * (zobrist.HEIGHTS * at_ + height) + p.index) &&&
      zobrist.BITSTRING_MASK) < 2 ^ 16 := maskedLt _
  have hf2 : v.fold ^^^
      (bitstrings (zobrist.PIECES * (zobrist.HEIGHTS * at_ + height) + p.index) &&&
        zobrist.BITSTRING_MASK) < 2 ^ 16 := Nat.xor_lt_two_pow hf hT
  have hc : (some at_).getD 0 < 2 ^ 16 := by simpa using hcap
  rw [hashPiece_val v ⟨hf, hi, hs, hp⟩ p at_ height]
  rw [setLast_val { v with fold := v.fold ^^^ (bitstrings (zobrist.PIECES * (zobrist.HEIGHTS * at_ + height) + p.index) &&& zobrist.BITSTRING_MASK) } ⟨hf2, hi, hs, hp⟩ (some at_) hc]
  rw [setStun_val { v with fold := v.fold ^^^ (bitstrings (zobrist.PIECES * (zobrist.HEIGHTS * at_ + height) + p.index) &&& zobrist.BITSTRING_MASK), imm := some at_ } ⟨hf2, hc, hs, hp⟩ none (by norm_num)]
  rw [next_val { v with fold := v.fold ^^^ (bitstrings (zobrist.PIECES * (zobrist.HEIGHTS * at_ + height) + p.index) &&& zobrist.BITSTRING_MASK), imm := some at_, stun := none } ⟨hf2, hc, by norm_num, hp⟩]

theorem c1_undo_parts : ∃ b2, c1_b1.undo_one = some (.ok b2) ∧
    b2.zobrist = zobrist.next (zobrist.setStun (zobrist.setLast
      (zobrist.hashPiece c1_b1.zobrist wA1 528 1) (some 528)) none) ∧
    b2.stackAt = Function.update c1_b1.stackAt 528 (Stack.pop (c1_b1.stackAt 528)) ∧
    b2.field = c1_b1.field.pop 528 := by
  have h := undo_place_parts c1_b1 wA1 none
    { piece := wA1, src := none, dst := 528 } none 528 (by decide) (by decide)
  have hh : Stack.height (c1_b1.stackAt 528) = 1 := by decide
  rw [hh] at h
  exact h

theorem c1_b2_spec : c1_b1.undo_one = some (.ok c1_b2) := by
  obtain ⟨b2, hu, _, _, _⟩ := c1_undo_parts
  unfold c1_b2
  rw [hu]

theorem c1_b2_parts :
    c1_b2.zobrist = zobrist.next (zobrist.setStun (zobrist.setLast
      (zobrist.hashPiece c1_b1.zobrist wA1 528 1) (some 528)) none) ∧
    c1_b2.stackAt = Function.update c1_b1.stackAt 528 (Stack.pop (c1_b1.stackAt 528)) ∧
    c1_b2.field = c1_b1.field.pop 528 := by
  obtain ⟨b2, hu, hz, hstk, hfld⟩ := c1_undo_parts
  have he : c1_b2 = b2 := by
    unfold c1_b2
    rw [hu]
  rw [he]
  exact ⟨hz, hstk, hfld⟩

theorem place_undo_val (v : ZView) (hWF : v.WF) (p : Piece) (at_ : Hex) (h1 : Nat)
    (hcap : at_ < 2 ^ 16) :
    zobrist.next (zobrist.setStun (zobrist.setLast
      (zobrist.hashPiece (zobrist.next (zobrist.setStun (zobrist.setLast
        (zobrist.hashPiece (ZView.val v) p at_ h1) (some at_)) none)) p at_ h1)
      (some at_)) none) =
    ZView.val { fold := v.fold, imm := some at_, stun := none, pl := 1 } := by
  obtain ⟨hf, hi, hs, hp⟩ := hWF
  have hT : (bitstrings (zobrist.PIECES * (zobrist.HEIGHTS * at_ + h1) + p.index) &&& zobrist.BITSTRING_MASK) < 2 ^ 16 := maskedLt _
  have hc : (some at_).getD 0 < 2 ^ 16 := by simpa using hcap
  rw [place_chain_val v ⟨hf, hi, hs, hp⟩ p at_ h1 hcap]
  rw [place_chain_val { fold := v.fold ^^^ (bitstrings (zobrist.PIECES * (zobrist.HEIGHTS * at_ + h1) + p.index) &&& zobrist.BITSTRING_MASK), imm := some at_, stun := none, pl := 1 }
    ⟨Nat.xor_lt_two_pow hf hT, hc, by norm_num, by norm_num⟩ p at_ h1 hcap]
  have hx : ZView.fold ⟨v.fold ^^^ (bitstrings (zobrist.PIECES * (zobrist.HEIGHTS * at_ + h1) + p.index) &&& zobrist.BITSTRING_MASK), some at_, none, 1⟩ ^^^ (bitstrings (zobrist.PIECES * (zobrist.HEIGHTS * at_ + h1) + p.index) &&& zobrist.BITSTRING_MASK) = v.fold := by
    rw [show ZView.fold ⟨v.fold ^^^ (bitstrings (zobrist.PIECES * (zobrist.HEIGHTS * at_ + h1) + p.index) &&& zobrist.BITSTRING_MASK), some at_, none, 1⟩ = v.fold ^^^ (bitstrings (zobrist.PIECES * (zobrist.HEIGHTS * at_ + h1) + p.index) &&& zobrist.BITSTRING_MASK) from rfl]
    rw [Nat.xor_assoc, Nat.xor_self, Nat.xor_zero]
  exact congrArg (fun x => ZView.val ⟨x, some at_, none, 1⟩) hx

set_option maxRecDepth 4000 in
theorem c1_z2 : c1_b2.zobrist = ZView.val { fold := 0, imm := some 528, stun := none, pl := 1 } := by
  rw [c1_b2_parts.1, c1_parts1.1]
  have h0 : (0 : Nat) = ZView.val ⟨0, none, none, 0⟩ := by decide
  conv_lhs => rw [h0]
  have wf0 : ZView.WF ⟨0, none, none, 0⟩ :=
    ⟨by norm_num, by norm_num, by norm_num, by norm_num⟩
  have hb : ZView.fold ⟨0, none, none, 0⟩ = 0 := rfl
  exact (place_undo_val ⟨0, none, none, 0⟩ wf0 wA1 528 1 (by norm_num)).trans
    (congrArg (fun x => ZView.val ⟨x, some 528, none, 1⟩) hb)

theorem c1_stacks_restored : c1_b2.stackAt = c1_b0.stackAt := by
  rw [c1_b2_parts.2.1, c1_parts1.2.1]
  have h1 : Function.update c1_b0.stackAt 528
      (Stack.push (c1_b0.stackAt 528) (Token.ofPiece wA1)) 528 =
      Stack.push (c1_b0.stackAt 528) (Token.ofPiece wA1) :=
    Function.update_same 528 _ c1_b0.stackAt
  rw [h1, Function.update_idem]
  have h2 : Stack.pop (Stack.push (c1_b0.stackAt 528) (Token.ofPiece wA1)) =
      c1_b0.stackAt 528 := by decide
  rw [h2]
  exact Function.update_eq_self 528 c1_b0.stackAt

theorem coll_roundtrip : (Collection.new.insert 528).remove 528 = Collection.new := by
  apply Nat.eq_of_testBit_eq
  intro i
  simp only [Collection.new, Collection.insert, Collection.remove, Nat.testBit_lor,
    Nat.testBit_land, Nat.testBit_xor, Nat.testBit_shiftLeft, Nat.testBit_two_pow_sub_one,
    Nat.zero_testBit, Bool.false_or, ge_iff_le]
  by_cases c : i = 528
  · subst c
    simp
  · rcases Nat.lt_or_ge i 528 with h | h
    · simp [show ¬(528 ≤ i) by omega]
    · have h1 : (1 : Nat).testBit (i - 528) = false :=
        testBit_false_of_lt (show (1 : Nat) < 2 ^ 1 by norm_num) (i - 528) (by omega)
      simp [h1]

theorem c1_field_restored : c1_b2.field = c1_b0.field := by
  rw [c1_b2_parts.2.2, c1_parts1.2.2]
  have hf0 : c1_b0.field = Field.empty := rfl
  rw [hf0]
  have hpush : Field.push Field.empty 528 =
      { map := [(528, 1)], markers := Collection.new.insert 528 } := rfl
  rw [hpush]
  have hpop : Field.pop { map := [(528, 1)], markers := Collection.new.insert 528 } 528 =
      { map := [], markers := (Collection.new.insert 528).remove 528 } := rfl
  rw [hpop, coll_roundtrip]
  rfl

/-- C1 (code bug): playing the one legal opening placement and undoing it
restores the stacks, pieces index, field, pouch, pins and stunned hex, but
*not* the immune hex (undo reads the not-yet-popped entry being undone, so
`immune` keeps that move's destination instead of reverting to `None`) and
*not* the Zobrist key (the player bit is OR-ed, never cleared, and the
immune fields stay written), contradicting the byte-equal-state /
equal-Zobrist round-trip claim. -/
theorem c1_play_undo_divergence :
    (c1_b0.play c1_mv).1.isOk = true ∧
    c1_b1.undo_one = some (.ok c1_b2) ∧
    c1_b2.pieces = c1_b0.pieces ∧
    c1_b2.field = c1_b0.field ∧
    c1_b2.pouch = c1_b0.pouch ∧
    c1_b2.pinned = c1_b0.pinned ∧
    c1_b2.stunned = c1_b0.stunned ∧
    c1_b2.stackAt = c1_b0.stackAt ∧
    c1_b2.immune = some 528 ∧
    c1_b0.immune = none ∧
    c1_b2.zobrist = ZView.val { fold := 0, imm := some 528, stun := none, pl := 1 } ∧
    c1_b0.zobrist = 0 ∧
    c1_b2.zobrist ≠ c1_b0.zobrist := by
  refine ⟨by decide, c1_b2_spec, by decide, c1_field_restored, by decide, by decide, by decide,
    c1_stacks_restored, by decide, rfl, c1_z2, rfl, ?_⟩
  rw [c1_z2]
  have h0 : c1_b0.zobrist = 0 := rfl
  rw [h0]
  decide

/-! ## C2 — the zobrist key versus the specified XOR-fold formula -/

/-- The saturation of the packed player bit: `ZobristTable::next` always leaves
bit `0x60` set, whichever side is actually to move. -/
theorem next_testBit96 (z : Nat) : Nat.testBit (zobrist.next z) 96 = true := by
  have hb : (z >>> 96) &&& 1 = z / 2 ^ 96 % 2 := by
    rw [Nat.and_one_is_mod, Nat.shiftRight_eq_div_pow]
  rcases Nat.mod_two_eq_zero_or_one (z / 2 ^ 96) with h | h
  · simp only [zobrist.next, zobrist.setPlayer, zobrist.to_move, zobrist.OFFSET_PLAYER,
      zobrist.EXTENT_PLAYER, hb, h]
    norm_num [Player.new, Player.flip, Player.val]
    exact Or.inr (by decide)
  · simp only [zobrist.next, zobrist.setPlayer, zobrist.to_move, zobrist.OFFSET_PLAYER,
      zobrist.EXTENT_PLAYER, hb, h]
    norm_num [Player.new, Player.flip, Player.val]
    simp only [Nat.testBit_to_div_mod]
    rw [decide_eq_true_eq]
    exact h

/-- The index format the claim specifies: `k * HEXES * PIECES + h * PIECES + p`. -/
def claimIndex (k h p : Nat) : Nat :=
  k * (hex.consts.SIZE * piece.consts.COUNT) + h * piece.consts.COUNT + p

/-- Spec-modelled: the full (unmasked) static entry the claim assigns to level
`j` (height `j + 1`) of the stack on hex `h`. -/
def claimEntryAt (b : Board) (h : Hex) (j : Nat) : Nat :=
  bitstrings (claimIndex (j + 1) h
    ((Token.toPiece (Stack.at_ (b.stackAt h) (j + 1))).map Piece.index |>.getD 0))

/-- Spec-modelled: XOR-fold of the claim's entries over one hex's stack. -/
def hexClaimFold (b : Board) (h : Hex) : Nat :=
  (List.range (Stack.height (b.stackAt h))).foldl (fun acc j => acc ^^^ claimEntryAt b h j) 0

/-- Spec-modelled: XOR-fold of the claim's full entries over all pieces on the board. -/
def specFoldClaim (b : Board) : Nat :=
  (List.range hex.consts.SIZE).foldl (fun acc h => acc ^^^ hexClaimFold b h) 0

/-- Spec-modelled: the claim's value of the hash - the XOR-fold combined with the
packed immune, stunned and side-to-move fields of the documented layout. -/
def specZobristClaim (b : Board) : Nat :=
  specFoldClaim b ||| ((b.immune.getD 0) <<< 64) |||
    ((if b.immune.isSome then 1 else 0) <<< 97) ||| ((b.stunned.getD 0) <<< 80) |||
    ((if b.stunned.isSome then 1 else 0) <<< 98) ||| ((Board.to_move b).val <<< 96)

theorem xorFoldl_lt (g : Nat → Nat) (hg : ∀ x, g x < 2 ^ 64) (l : List Nat) :
    ∀ acc, acc < 2 ^ 64 → l.foldl (fun a x => a ^^^ g x) acc < 2 ^ 64 := by
  induction l with
  | nil => intro acc h; simpa using h
  | cons x xs ih => intro acc h; exact ih _ (Nat.xor_lt_two_pow h (hg x))

theorem specFoldClaim_lt (b : Board) : specFoldClaim b < 2 ^ 64 :=
  xorFoldl_lt (hexClaimFold b)
    (fun h => xorFoldl_lt _ (fun j => bitstrings_lt _) _ 0 (by norm_num)) _ 0 (by norm_num)

theorem bit96_of_packed (f i s pl v1 v2 : Nat) (hf : f < 2 ^ 64) (hi : i < 2 ^ 16)
    (hs : s < 2 ^ 16) :
    Nat.testBit (f ||| (i <<< 64) ||| (v1 <<< 97) ||| (s <<< 80) ||| (v2 <<< 98)
      ||| (pl <<< 96)) 96 = pl.testBit 0 := by
  simp only [Nat.testBit_lor, Nat.testBit_shiftLeft, ge_iff_le]
  simp [testBit_false_of_lt hf 96 (by norm_num), testBit_false_of_lt hi 32 (by norm_num),
    testBit_false_of_lt hs 16 (by norm_num), show ¬(97 ≤ 96) by omega,
    show ¬(98 ≤ 96) by omega]

theorem c2_code_bit96 : Nat.testBit c6b2.zobrist 96 = true := by
  have h := (play_place_parts c6b1 bA1 (some { piece := wA1, direction := some .East })
    529 (by decide) (by decide)).1
  rw [show c6b2.zobrist =
    ((c6b1.play (.Place bA1 (some { piece := wA1, direction := some .East }))).2).zobrist
    from rfl, h]
  exact next_testBit96 _

theorem c2_spec_bit96 : Nat.testBit (specZobristClaim c6b2) 96 = false := by
  have h := bit96_of_packed (specFoldClaim c6b2) (c6b2.immune.getD 0) (c6b2.stunned.getD 0)
    (Board.to_move c6b2).val (if c6b2.immune.isSome then 1 else 0)
    (if c6b2.stunned.isSome then 1 else 0)
    (specFoldClaim_lt c6b2) (by decide) (by decide)
  rw [specZobristClaim, h]
  decide

/-- C2 (counterexample): after the two legal opening placements (wA1 at the root,
bA1 east of it) White is to move, yet bit 0x60 of the stored key is already stuck
at 1 (ZobristTable::player only ORs it in), while the claim's fold-plus-packed-fields
formula has bit 0x60 equal to the side to move, i.e. 0 - so the stored key differs
from the claimed value. -/
theorem c2_spec_hash_mismatch :
    (c6b0.play c6m1).1.isOk = true ∧ (c6b1.play c6m2).1.isOk = true ∧
    Board.to_move c6b2 = .White ∧
    Nat.testBit c6b2.zobrist 96 = true ∧
    Nat.testBit (specZobristClaim c6b2) 96 = false ∧
    c6b2.zobrist ≠ specZobristClaim c6b2 :=
  ⟨by decide, by decide, by decide, c2_code_bit96, c2_spec_bit96, fun h => by
    have hbit := congrArg (fun x => Nat.testBit x 96) h
    simp only [c2_code_bit96, c2_spec_bit96] at hbit
    exact absurd hbit (by decide)⟩

/-- C2 (amended): the true incremental rule. Hashing a piece in or out XORs the
low 16 bits (`BITSTRING_MASK`) of the static entry at the hex-major index
`PIECES * (HEIGHTS * hex + height) + piece.index` into the key; inserting and then
removing the same piece on the same hex cancels exactly (the remove hashes at the
same post-push height); and the packed player bit 0x60 saturates: after any
`next()` it reads 1, whichever side is to move. -/
theorem c2_zobrist_amended (b : Board) (p : Piece) (hx : Hex)
    (hlen : p.index < b.pieces.length) :
    ((b.insert_unchecked p hx).zobrist =
      b.zobrist ^^^ (bitstrings (zobrist.PIECES * (zobrist.HEIGHTS * hx +
        Stack.height (Stack.push (b.stackAt hx) (Token.ofPiece p))) + p.index) &&&
        zobrist.BITSTRING_MASK)) ∧
    (∀ b2, (b.insert_unchecked p hx).remove_unchecked p = some b2 →
      b2.zobrist = b.zobrist) ∧
    (∀ z, Nat.testBit (zobrist.next z) 96 = true) := by
  have h1 : (b.insert_unchecked p hx).zobrist =
      b.zobrist ^^^ (bitstrings (zobrist.PIECES * (zobrist.HEIGHTS * hx +
        Stack.height (Stack.push (b.stackAt hx) (Token.ofPiece p))) + p.index) &&&
        zobrist.BITSTRING_MASK) := by
    simp [Board.insert_unchecked, zobrist.hashPiece, Function.update_same]
  refine ⟨h1, ?_, fun z => next_testBit96 z⟩
  intro b2 h
  have hloc : (b.insert_unchecked p hx).location p = some hx := by
    simp only [Board.insert_unchecked, Board.location, List.getD_eq_getElem?_getD,
      List.getElem?_set_self hlen, Option.getD_some]
  simp only [Board.remove_unchecked, hloc] at h
  injection h with h2
  subst h2
  simp only [Board.insert_unchecked, zobrist.hashPiece, Function.update_same]
  rw [Nat.xor_assoc, Nat.xor_self, Nat.xor_zero]

theorem c2_zobrist_amended_witness :
    wA1.index < (Board.new Options.default).pieces.length ∧
    ((((Board.new Options.default).insert_unchecked wA1 528).zobrist =
      (Board.new Options.default).zobrist ^^^
        (bitstrings (zobrist.PIECES * (zobrist.HEIGHTS * (528 : Hex) +
          Stack.height (Stack.push ((Board.new Options.default).stackAt 528)
            (Token.ofPiece wA1))) + wA1.index) &&& zobrist.BITSTRING_MASK)) ∧
    (∀ b2, ((Board.new Options.default).insert_unchecked wA1 528).remove_unchecked wA1 =
        some b2 → b2.zobrist = (Board.new Options.default).zobrist) ∧
    (∀ z, Nat.testBit (zobrist.next z) 96 = true)) :=
  ⟨by decide, c2_zobrist_amended (Board.new Options.default) wA1 528 (by decide)⟩

end Hivemind